import Mathlib

set_option maxHeartbeats 1600000

/-! Verification of the content post-processing pipeline of the study-space
backend: directive extraction, resolution, Markdown rewriting, Mermaid
sanitization, the Kroki deflate+base64url encoding, and the retrying image
generator.  JS strings are modelled as `List Char`; positions are zero-based
character offsets (`match.index`); `String.prototype.replace` with a string
pattern is modelled as replacement of the first occurrence. -/

namespace StudySpace

/-- The ASCII part of the JS `\s` whitespace class, used by `trim` and by the
sanitizer regexes. -/
def isWs (c : Char) : Bool :=
  c = ' ' || c = '\t' || c = '\n' || c = '\r' || c = '\x0b' || c = '\x0c'

/-- `String.prototype.trim`, left half: drop leading whitespace. -/
def trimL (s : List Char) : List Char := s.dropWhile isWs

/-- `String.prototype.trim`, right half: drop trailing whitespace. -/
def trimR (s : List Char) : List Char := (s.reverse.dropWhile isWs).reverse

/-- `String.prototype.trim`: drop whitespace from both ends. -/
def trim (s : List Char) : List Char := trimR (trimL s)

/-- ASCII lower-casing of one character, as performed by `toLowerCase` and by
the `i` regex flag on the ASCII tags appearing in the directives. -/
def lowerCh (c : Char) : Char :=
  if 'A' ≤ c && c ≤ 'Z' then Char.ofNat (c.toNat + 32) else c

/-- ASCII upper-casing of one character (`toUpperCase`). -/
def upperCh (c : Char) : Char :=
  if 'a' ≤ c && c ≤ 'z' then Char.ofNat (c.toNat - 32) else c

/-- `toLowerCase` on a string. -/
def lowerStr (s : List Char) : List Char := s.map lowerCh

/-- `toUpperCase` on a string. -/
def upperStr (s : List Char) : List Char := s.map upperCh

/-- Case-insensitive character comparison (regex `i` flag, ASCII). -/
def ciEqCh (a b : Char) : Bool := lowerCh a = lowerCh b

/-- Case-insensitive string comparison. -/
def ciEqStr (a b : List Char) : Bool :=
  a.length = b.length && (a.zip b).all (fun p => ciEqCh p.1 p.2)

/-- Does `pat` occur at the head of `s`, case-insensitively? -/
def ciStartsWith (pat s : List Char) : Bool :=
  match pat, s with
  | [], _ => true
  | _ :: _, [] => false
  | p :: ps, c :: cs => ciEqCh p c && ciStartsWith ps cs

/-- `String.prototype.indexOf` for a literal pattern: index of the first
occurrence of `pat` in `s`, if any. -/
def findOcc (pat : List Char) : List Char → Option Nat
  | [] => if pat.isPrefixOf ([] : List Char) then some 0 else none
  | c :: t =>
    if pat.isPrefixOf (c :: t) then some 0
    else (findOcc pat t).map (· + 1)

/-- `String.prototype.replace` with a string pattern: replace the first
occurrence of `pat` in `s` by `rep`; leave `s` unchanged when `pat` does not
occur. -/
def firstReplace (s pat rep : List Char) : List Char :=
  match findOcc pat s with
  | none => s
  | some i => s.take i ++ rep ++ s.drop (i + pat.length)

theorem findOcc_here {pat s : List Char} (h : pat.isPrefixOf s) :
    findOcc pat s = some 0 := by
  cases s with
  | nil => simp [findOcc, h]
  | cons c t => simp [findOcc, h]

theorem findOcc_cons_notMem {p : Char} {ps a rest : List Char}
    (ha : p ∉ a) (hocc : (p :: ps).isPrefixOf rest) :
    findOcc (p :: ps) (a ++ rest) = some a.length := by
  induction a with
  | nil => simpa using findOcc_here hocc
  | cons c t ih =>
    have hc : (p == c) = false := by
      have : p ≠ c := fun hpc => ha (hpc ▸ List.mem_cons_self c t)
      simpa using this
    have ht : p ∉ t := fun hm => ha (List.mem_cons_of_mem c hm)
    simp [findOcc, List.isPrefixOf, hc, ih ht]

theorem isPrefixOf_append_self : ∀ (a b : List Char), a.isPrefixOf (a ++ b) := by
  intro a
  induction a with
  | nil => intro b; simp [List.isPrefixOf]
  | cons p ps ih => intro b; simp [List.isPrefixOf, ih]

theorem firstReplace_mid {p : Char} {ps a b rep : List Char}
    (ha : p ∉ a) :
    firstReplace (a ++ (p :: ps) ++ b) (p :: ps) rep = a ++ rep ++ b := by
  have hocc : (p :: ps).isPrefixOf ((p :: ps) ++ b) := isPrefixOf_append_self _ _
  have hfind : findOcc (p :: ps) (a ++ ((p :: ps) ++ b)) = some a.length :=
    findOcc_cons_notMem ha hocc
  have : a ++ (p :: ps) ++ b = a ++ ((p :: ps) ++ b) := by simp
  rw [this, firstReplace, hfind]
  have h1 : (a ++ ((p :: ps) ++ b)).take a.length = a := by
    simp [List.take_append]
  have h2 : (a ++ ((p :: ps) ++ b)).drop (a.length + (p :: ps).length) = b := by
    rw [List.drop_append_eq_append_drop]
    simp
  simp only []
  rw [h1, h2]

/-- JS `\w` word character (ASCII). -/
def isWordChar (c : Char) : Bool :=
  ('A' ≤ c && c ≤ 'Z') || ('a' ≤ c && c ≤ 'z') || ('0' ≤ c && c ≤ '9') || c = '_'

/-- One extracted `\x7b\x7bIMAGE: ...\x7d\x7d` image-search placeholder
(`extractImagePlaceholders` in `src/utils/imageSearch.js`). -/
structure ImgPh where
  fullMatch : List Char
  description : List Char
  position : Nat
deriving DecidableEq

/-- One extracted image-generation request
(`extractGenerationRequests` in `src/utils/imageGeneration.js`). -/
structure GenReq where
  fullMatch : List Char
  type : List Char
  description : List Char
  position : Nat
deriving DecidableEq

/-- One extracted diagram block
(`extractDiagramBlocks` in `src/utils/kroki.js`). -/
structure DiagBlock where
  fullMatch : List Char
  type : List Char
  source : List Char
  position : Nat
deriving DecidableEq

/-- The literal (case-sensitive) opening tag of the image-search grammar. -/
def imgTag : List Char := ("\x7b\x7bIMAGE:").toList

def closeBr : Char := '\x7d'

/-- Attempt of the regex `\x7b\x7bIMAGE:\s*([^\x7d]+)\x7d\x7d` at the head of
`xs`: the tag, then a maximal nonempty run of non-`\x7d` characters, then
`\x7d\x7d`.  (The `\s*([^\x7d]+)` split never changes the overall span, and
the captured group always trims to the trim of the whole run, so the run is
returned as the raw payload.)  Returns `(fullMatch, rawPayload, rest)`. -/
def imgMatchAt (xs : List Char) : Option (List Char × List Char × List Char) :=
  if imgTag.isPrefixOf xs then
    let r := xs.drop imgTag.length
    let desc := r.takeWhile (fun c => c ≠ closeBr)
    match r.dropWhile (fun c => c ≠ closeBr) with
    | b1 :: b2 :: rest =>
      if b2 = closeBr && !desc.isEmpty then
        some (imgTag ++ desc ++ (b1 :: b2 :: []), desc, rest)
      else none
    | _ => none
  else none

theorem isPrefixOf_append_drop {a : List Char} :
    ∀ {xs : List Char}, a.isPrefixOf xs → xs = a ++ xs.drop a.length := by
  induction a with
  | nil => intro xs _; simp
  | cons p ps ih =>
    intro xs h
    cases xs with
    | nil => simp [List.isPrefixOf] at h
    | cons c t =>
      simp only [List.isPrefixOf, Bool.and_eq_true, beq_iff_eq] at h
      obtain ⟨rfl, h2⟩ := h
      simpa using ih h2

theorem dropWhile_head_false {α : Type} {p : α → Bool} :
    ∀ {l : List α} {b : α} {t : List α}, l.dropWhile p = b :: t → p b = false := by
  intro l
  induction l with
  | nil => intro b t h; simp [List.dropWhile] at h
  | cons c cs ih =>
    intro b t h
    rw [List.dropWhile] at h
    by_cases hc : p c
    · exact ih (by simpa [hc] using h)
    · obtain ⟨rfl, -⟩ := by
        simpa [hc] using h
      simpa using hc

theorem imgMatchAt_eq {xs fm d rest : List Char}
    (h : imgMatchAt xs = some (fm, d, rest)) :
    xs = fm ++ rest ∧ fm = imgTag ++ d ++ (closeBr :: closeBr :: []) ∧ d ≠ [] := by
  rw [imgMatchAt] at h
  simp only [] at h
  split at h
  case isFalse => exact absurd h (by simp)
  case isTrue hpre =>
    split at h
    case h_2 => exact absurd h (by simp)
    case h_1 b1 b2 rest' hdw =>
      split at h
      case isFalse => exact absurd h (by simp)
      case isTrue hcond =>
        obtain ⟨hb2, hdesc⟩ := by simpa using hcond
        have hb1 : b1 = closeBr := by
          have := dropWhile_head_false hdw
          simpa using this
        simp only [Option.some.injEq, Prod.mk.injEq] at h
        obtain ⟨hfm, hd, hrest⟩ := h
        subst hfm hd hrest hb1 hb2
        refine ⟨?_, rfl, by simpa using hdesc⟩
        have hxs : xs = imgTag ++ xs.drop imgTag.length :=
          isPrefixOf_append_drop hpre
        have hsplit : xs.drop imgTag.length =
            (xs.drop imgTag.length).takeWhile (fun c => c ≠ closeBr) ++
              (closeBr :: closeBr :: rest') := by
          conv_lhs => rw [← List.takeWhile_append_dropWhile
            (p := fun c => decide (c ≠ closeBr)) (l := xs.drop imgTag.length)]
          rw [hdw]
        conv_lhs => rw [hxs, hsplit]
        simp

/-- `rest` is strictly shorter than `xs` after a successful image match. -/
theorem imgMatchAt_shrink {xs fm d rest : List Char}
    (h : imgMatchAt xs = some (fm, d, rest)) :
    fm.length + rest.length = xs.length ∧ 0 < fm.length := by
  obtain ⟨hxs, hfm, -⟩ := imgMatchAt_eq h
  constructor
  · rw [hxs]; simp
  · rw [hfm]; simp [imgTag]

theorem isPrefixOf_take {a xs : List Char} (h : a.isPrefixOf xs) :
    xs.take a.length = a := by
  conv_lhs => rw [isPrefixOf_append_drop h]
  simp

/-- `findOcc` really locates an occurrence: the string splits around `pat`. -/
theorem findOcc_slice {pat : List Char} :
    ∀ {s : List Char} {i : Nat}, findOcc pat s = some i →
      s = s.take i ++ pat ++ s.drop (i + pat.length) := by
  intro s
  induction s with
  | nil =>
    intro i h
    rw [findOcc] at h
    split at h
    case isTrue hp =>
      cases pat with
      | nil => simp
      | cons p ps => simp [List.isPrefixOf] at hp
    case isFalse => exact absurd h (by simp)
  | cons c t ih =>
    intro i h
    rw [findOcc] at h
    split at h
    case isTrue hp =>
      obtain rfl : i = 0 := by simpa using h.symm
      simpa using isPrefixOf_append_drop hp
    case isFalse =>
      simp only [Option.map_eq_some'] at h
      obtain ⟨j, hj, rfl⟩ := h
      have := ih hj
      have h1 : (c :: t).take (j + 1) = c :: t.take j := rfl
      have h2 : (c :: t).drop (j + 1 + pat.length) = t.drop (j + pat.length) := by
        have harith : j + 1 + pat.length = (j + pat.length) + 1 := by omega
        rw [harith]
        rfl
      rw [h1, h2]
      conv_lhs => rw [this]
      simp

/-- The scanning loop of `extractImagePlaceholders`
(`src/utils/imageSearch.js` lines 42-56): a JS global-regex `exec` loop,
finding each leftmost match at or after the current offset and resuming
immediately after it; the captured description is trimmed.  The first
argument is structural fuel; every step consumes at least one character, so
fuel equal to the length of the scanned text never runs out. -/
def imgGo : Nat → Nat → List Char → List ImgPh
  | 0, _, _ => []
  | fuel + 1, pos, xs =>
    match imgMatchAt xs with
    | some (fm, d, rest) => ⟨fm, trim d, pos⟩ :: imgGo fuel (pos + fm.length) rest
    | none =>
      match xs with
      | [] => []
      | _ :: t => imgGo fuel (pos + 1) t

/-- `extractImagePlaceholders` of `src/utils/imageSearch.js`. -/
def extractImagePlaceholders (content : List Char) : List ImgPh :=
  imgGo content.length 0 content

/-- Two literal opening braces. -/
def braces2 : List Char := ("\x7b\x7b").toList

/-- The alternation `(GENERATE|DIAGRAM|ILLUSTRATION)` of
`extractGenerationRequests`, in source order. -/
def genTagList : List (List Char) := [("GENERATE").toList, ("DIAGRAM").toList, ("ILLUSTRATION").toList]

/-- Try the alternation branches in order, case-insensitively, each branch
followed by the literal `:`.  Returns the canonical tag and the number of
consumed characters. -/
def tryTagsCi : List (List Char) → List Char → Option (List Char × Nat)
  | [], _ => none
  | tg :: ts, r =>
    if ciStartsWith (tg ++ (":").toList) r then some (tg, tg.length + 1)
    else tryTagsCi ts r

/-- Attempt of `\x7b\x7b(GENERATE|DIAGRAM|ILLUSTRATION):\s*([^\x7d]+)\x7d\x7d`
(flag `i`) at the head of `xs`.  Returns
`(fullMatch, type := upper-cased written tag, rawPayload, rest)`. -/
def genMatchAt (xs : List Char) : Option (List Char × List Char × List Char × List Char) :=
  if braces2.isPrefixOf xs then
    match tryTagsCi genTagList (xs.drop 2) with
    | some (tg, k) =>
      match ((xs.drop 2).drop k).dropWhile (fun c => c ≠ closeBr) with
      | b1 :: b2 :: rest =>
        if b2 = closeBr && !(((xs.drop 2).drop k).takeWhile (fun c => c ≠ closeBr)).isEmpty then
          some (xs.take 2 ++ (xs.drop 2).take k ++
                  ((xs.drop 2).drop k).takeWhile (fun c => c ≠ closeBr) ++ (b1 :: b2 :: []),
                upperStr ((xs.drop 2).take tg.length),
                ((xs.drop 2).drop k).takeWhile (fun c => c ≠ closeBr),
                rest)
        else none
      | _ => none
    | none => none
  else none

theorem genMatchAt_split {xs fm ty d rest : List Char}
    (h : genMatchAt xs = some (fm, ty, d, rest)) :
    xs = fm ++ rest ∧ 0 < fm.length := by
  rw [genMatchAt] at h
  split at h
  case isFalse => exact absurd h (by simp)
  case isTrue hpre =>
    split at h
    case h_2 => exact absurd h (by simp)
    case h_1 tg k htags =>
      split at h
      case h_2 => exact absurd h (by simp)
      case h_1 b1 b2 rest' hdw =>
        split at h
        case isFalse => exact absurd h (by simp)
        case isTrue hcond =>
          simp only [Option.some.injEq, Prod.mk.injEq] at h
          obtain ⟨hfm, -, -, hrest⟩ := h
          subst hfm hrest
          have hxs2 : xs = xs.take 2 ++ xs.drop 2 := (List.take_append_drop 2 xs).symm
          have hk : xs.drop 2 = (xs.drop 2).take k ++ (xs.drop 2).drop k :=
            (List.take_append_drop k (xs.drop 2)).symm
          have hsplit : (xs.drop 2).drop k =
              ((xs.drop 2).drop k).takeWhile (fun c => c ≠ closeBr) ++ (b1 :: b2 :: rest') := by
            conv_lhs => rw [← List.takeWhile_append_dropWhile
              (p := fun c => decide (c ≠ closeBr)) (l := (xs.drop 2).drop k)]
            rw [hdw]
          constructor
          · conv_lhs => rw [hxs2]
            conv_lhs => rw [hk]
            conv_lhs => rw [hsplit]
            simp
          · simp

theorem genMatchAt_shrink {xs fm ty d rest : List Char}
    (h : genMatchAt xs = some (fm, ty, d, rest)) :
    fm.length + rest.length = xs.length ∧ 0 < fm.length := by
  obtain ⟨hx, hp⟩ := genMatchAt_split h
  exact ⟨by rw [hx]; simp, hp⟩

/-- The scanning loop of `extractGenerationRequests`
(`src/utils/imageGeneration.js` lines 49-64), fuelled like `imgGo`. -/
def genGo : Nat → Nat → List Char → List GenReq
  | 0, _, _ => []
  | fuel + 1, pos, xs =>
    match genMatchAt xs with
    | some (fm, ty, d, rest) => ⟨fm, ty, trim d, pos⟩ :: genGo fuel (pos + fm.length) rest
    | none =>
      match xs with
      | [] => []
      | _ :: t => genGo fuel (pos + 1) t

/-- `extractGenerationRequests` of `src/utils/imageGeneration.js`. -/
def extractGenerationRequests (content : List Char) : List GenReq :=
  genGo content.length 0 content

/-- The literal code fence `three backticks`. -/
def fence3 : List Char := ("```").toList

/-- The language alternation of the fenced-diagram regex of
`src/utils/kroki.js` line 190, in source order. -/
def fenceLangs : List (List Char) :=
  [("mermaid").toList, ("plantuml").toList, ("graphviz").toList, ("dot").toList,
   ("d2").toList, ("blockdiag").toList, ("seqdiag").toList, ("actdiag").toList,
   ("nwdiag").toList, ("ditaa").toList, ("erd").toList, ("nomnoml").toList,
   ("pikchr").toList, ("svgbob").toList, ("vega").toList, ("vegalite").toList,
   ("wavedrom").toList]

/-- Try the language alternation in order, case-insensitively, each branch
followed by the literal newline required by the regex. -/
def tryLangsCi : List (List Char) → List Char → Option (List Char × Nat)
  | [], _ => none
  | L :: Ls, r =>
    if ciStartsWith (L ++ ("\n").toList) r then some (L, L.length + 1)
    else tryLangsCi Ls r

/-- Attempt of the fenced-code-block diagram regex (flag `gi`) at the head of
`xs`: three backticks, a known language tag, a newline, then a lazy body up to
the first closing fence.  Returns `(fullMatch, lower-cased written language,
rawBody, rest)`. -/
def fenceMatchAt (xs : List Char) : Option (List Char × List Char × List Char × List Char) :=
  if fence3.isPrefixOf xs then
    match tryLangsCi fenceLangs (xs.drop 3) with
    | some (L, k) =>
      match findOcc fence3 ((xs.drop 3).drop k) with
      | some i =>
        some (xs.take 3 ++ (xs.drop 3).take k ++ ((xs.drop 3).drop k).take i ++ fence3,
              lowerStr ((xs.drop 3).take L.length),
              ((xs.drop 3).drop k).take i,
              ((xs.drop 3).drop k).drop (i + 3))
      | none => none
    | none => none
  else none

theorem fenceMatchAt_split {xs fm ty src rest : List Char}
    (h : fenceMatchAt xs = some (fm, ty, src, rest)) :
    xs = fm ++ rest ∧ 0 < fm.length := by
  rw [fenceMatchAt] at h
  split at h
  case isFalse => exact absurd h (by simp)
  case isTrue hpre =>
    split at h
    case h_2 => exact absurd h (by simp)
    case h_1 L k hlang =>
      split at h
      case h_2 => exact absurd h (by simp)
      case h_1 i hocc =>
        simp only [Option.some.injEq, Prod.mk.injEq] at h
        obtain ⟨hfm, -, -, hrest⟩ := h
        subst hfm hrest
        have hxs3 : xs = xs.take 3 ++ xs.drop 3 := (List.take_append_drop 3 xs).symm
        have hk : xs.drop 3 = (xs.drop 3).take k ++ (xs.drop 3).drop k :=
          (List.take_append_drop k (xs.drop 3)).symm
        have hsplit : (xs.drop 3).drop k =
            ((xs.drop 3).drop k).take i ++ fence3 ++ ((xs.drop 3).drop k).drop (i + fence3.length) :=
          findOcc_slice hocc
        have hthree : fence3.length = 3 := rfl
        rw [hthree] at hsplit
        have hall : xs = (xs.take 3 ++ (xs.drop 3).take k ++
            ((xs.drop 3).drop k).take i ++ fence3) ++ ((xs.drop 3).drop k).drop (i + 3) := by
          conv_lhs => rw [hxs3]
          conv_lhs => rw [hk]
          conv_lhs => rw [hsplit]
          simp
        exact ⟨hall, by simp [fence3]⟩

theorem fenceMatchAt_shrink {xs fm ty src rest : List Char}
    (h : fenceMatchAt xs = some (fm, ty, src, rest)) :
    fm.length + rest.length = xs.length ∧ 0 < fm.length := by
  obtain ⟨hx, hp⟩ := fenceMatchAt_split h
  exact ⟨by rw [hx]; simp, hp⟩

/-- The case-insensitively matched literal opening of the inline diagram
grammar `\x7b\x7bDIAGRAM:`. -/
def inlTag : List Char := ("\x7b\x7bDIAGRAM:").toList

/-- Attempt of the inline diagram regex
`\x7b\x7bDIAGRAM:(\w+)\n([\s\S]*?)\x7d\x7d` (flag `gi`) at the head of `xs`:
the tag, a nonempty word run, a newline, then a lazy body up to the first
`\x7d\x7d`.  Returns `(fullMatch, lower-cased engine, rawBody, rest)`. -/
def inlMatchAt (xs : List Char) : Option (List Char × List Char × List Char × List Char) :=
  if ciStartsWith inlTag xs then
    if ((xs.drop 10).takeWhile isWordChar).isEmpty then none
    else
      match (xs.drop 10).dropWhile isWordChar with
      | '\n' :: r2 =>
        match findOcc (closeBr :: closeBr :: []) r2 with
        | some i =>
          some (xs.take 10 ++ (xs.drop 10).takeWhile isWordChar ++
                  '\n' :: (r2.take i ++ (closeBr :: closeBr :: [])),
                lowerStr ((xs.drop 10).takeWhile isWordChar),
                r2.take i,
                r2.drop (i + 2))
        | none => none
      | _ => none
  else none

theorem ciStartsWith_length {pat : List Char} :
    ∀ {s : List Char}, ciStartsWith pat s = true → pat.length ≤ s.length := by
  induction pat with
  | nil => intro s _; simp
  | cons p ps ih =>
    intro s h
    cases s with
    | nil => simp [ciStartsWith] at h
    | cons c cs =>
      simp only [ciStartsWith, Bool.and_eq_true] at h
      have := ih h.2
      simp only [List.length_cons]
      omega

theorem inlMatchAt_split {xs fm ty src rest : List Char}
    (h : inlMatchAt xs = some (fm, ty, src, rest)) :
    xs = fm ++ rest ∧ 0 < fm.length := by
  rw [inlMatchAt] at h
  split at h
  case isFalse => exact absurd h (by simp)
  case isTrue hpre =>
    split at h
    case isTrue => exact absurd h (by simp)
    case isFalse hne =>
      split at h
      case h_2 => exact absurd h (by simp)
      case h_1 r2 hdw =>
        split at h
        case h_2 => exact absurd h (by simp)
        case h_1 i hocc =>
          simp only [Option.some.injEq, Prod.mk.injEq] at h
          obtain ⟨hfm, -, -, hrest⟩ := h
          subst hfm hrest
          have hxs10 : xs = xs.take 10 ++ xs.drop 10 := (List.take_append_drop 10 xs).symm
          have hw : xs.drop 10 = (xs.drop 10).takeWhile isWordChar ++ ('\n' :: r2) := by
            conv_lhs => rw [← List.takeWhile_append_dropWhile (p := isWordChar) (l := xs.drop 10)]
            rw [hdw]
          have hsplit : r2 = r2.take i ++ (closeBr :: closeBr :: []) ++
              r2.drop (i + (closeBr :: closeBr :: ([] : List Char)).length) :=
            findOcc_slice hocc
          have htwo : (closeBr :: closeBr :: ([] : List Char)).length = 2 := rfl
          rw [htwo] at hsplit
          have hall : xs = (xs.take 10 ++ (xs.drop 10).takeWhile isWordChar ++
              '\n' :: (r2.take i ++ (closeBr :: closeBr :: []))) ++ r2.drop (i + 2) := by
            conv_lhs => rw [hxs10]
            conv_lhs => rw [hw]
            conv_lhs => rw [hsplit]
            simp
          exact ⟨hall, by simp⟩

theorem inlMatchAt_shrink {xs fm ty src rest : List Char}
    (h : inlMatchAt xs = some (fm, ty, src, rest)) :
    fm.length + rest.length = xs.length ∧ 0 < fm.length := by
  obtain ⟨hx, hp⟩ := inlMatchAt_split h
  exact ⟨by rw [hx]; simp, hp⟩

/-- Fenced-pass scanning loop of `extractDiagramBlocks`
(`src/utils/kroki.js` lines 190-200), fuelled like `imgGo`. -/
def fenceGo : Nat → Nat → List Char → List DiagBlock
  | 0, _, _ => []
  | fuel + 1, pos, xs =>
    match fenceMatchAt xs with
    | some (fm, ty, src, rest) => ⟨fm, ty, trim src, pos⟩ :: fenceGo fuel (pos + fm.length) rest
    | none =>
      match xs with
      | [] => []
      | _ :: t => fenceGo fuel (pos + 1) t

/-- Inline-pass scanning loop of `extractDiagramBlocks`
(`src/utils/kroki.js` lines 203-212), fuelled like `imgGo`. -/
def inlGo : Nat → Nat → List Char → List DiagBlock
  | 0, _, _ => []
  | fuel + 1, pos, xs =>
    match inlMatchAt xs with
    | some (fm, ty, src, rest) => ⟨fm, ty, trim src, pos⟩ :: inlGo fuel (pos + fm.length) rest
    | none =>
      match xs with
      | [] => []
      | _ :: t => inlGo fuel (pos + 1) t

/-- `extractDiagramBlocks` of `src/utils/kroki.js`: the fenced-block pass
followed by the inline pass, results concatenated. -/
def extractDiagramBlocks (content : List Char) : List DiagBlock :=
  fenceGo content.length 0 content ++ inlGo content.length 0 content

/-- Stable insertion of `x` into a position-descending list: `x` is placed
after every element of greater-or-equal position, exactly as a JS stable
`sort((a, b) => b.position - a.position)` orders equal keys. -/
def insDesc {α : Type} (pos : α → Nat) (x : α) : List α → List α
  | [] => [x]
  | y :: ys => if pos x ≤ pos y then y :: insDesc pos x ys else x :: y :: ys

/-- Stable sort by descending position, modelling
`arr.sort((a, b) => b.position - a.position)`. -/
def sortByPosDesc {α : Type} (pos : α → Nat) (l : List α) : List α :=
  l.foldl (fun acc x => insDesc pos x acc) []

/-- Is a list of positions sorted in descending (non-increasing) order? -/
def sortedDescB : List Nat → Bool
  | [] => true
  | [_] => true
  | a :: b :: t => (b ≤ a) && sortedDescB (b :: t)

/-- Outcome of one `generateDiagram` call as observed by
`processDiagramBlocks`: either a URL or an error message. -/
inductive DiagOutcome : Type
  | ok (url : List Char)
  | fail (err : List Char)
deriving DecidableEq

/-- One element of the `processedDiagrams` manifest pushed by
`processDiagramBlocks`. -/
structure EmbeddedDiag where
  type : List Char
  url : List Char
  source : List Char
deriving DecidableEq

/-- The list `processDiagramBlocks` iterates over: the extracted blocks sorted
by position in reverse (`src/utils/kroki.js` line 227). -/
def diagIterList (content : List Char) : List DiagBlock :=
  sortByPosDesc (fun b => b.position) (extractDiagramBlocks content)

/-- The body of the `processDiagramBlocks` loop (`src/utils/kroki.js`
lines 229-255): on success replace the block with a Markdown image and push a
manifest entry; on failure keep the block and append an error note. -/
def diagLoop (render : DiagBlock → DiagOutcome) :
    List DiagBlock → List Char → List Char × List EmbeddedDiag
  | [], c => (c, [])
  | b :: bs, c =>
    match render b with
    | .ok url =>
      (diagLoop render bs (firstReplace c b.fullMatch
          (("![").toList ++ b.type ++ (" diagram](").toList ++ url ++ (")").toList))).map
        id (fun ds => ⟨b.type, url, b.source⟩ :: ds)
    | .fail err =>
      diagLoop render bs (firstReplace c b.fullMatch
          (b.fullMatch ++ ("\n\n*⚠️ Diagram rendering failed: ").toList ++ err ++ ("*").toList))

/-- `processDiagramBlocks` of `src/utils/kroki.js`, with the per-block
rendering call abstracted as `render`. -/
def processDiagramBlocks (render : DiagBlock → DiagOutcome) (content : List Char) :
    List Char × List EmbeddedDiag :=
  diagLoop render (diagIterList content) content

/-- One element of the `generatedImages` manifest pushed by
`processImageGenerationRequests`. -/
structure GeneratedImage where
  placeholder : List Char
  description : List Char
  url : List Char
  type : List Char
deriving DecidableEq

/-- The list `processImageGenerationRequests` iterates over: exactly the
extraction result, with no re-ordering (`src/utils/imageGeneration.js`
lines 70-73). -/
def genIterList (content : List Char) : List GenReq :=
  extractGenerationRequests content

/-- The body of the `processImageGenerationRequests` loop
(`src/utils/imageGeneration.js` lines 73-98): on success replace the
placeholder with a Markdown image and push a manifest entry; on failure
replace the placeholder with the pending note. -/
def genLoop (gen : List Char → Option (List Char)) :
    List GenReq → List Char → List Char × List GeneratedImage
  | [], c => (c, [])
  | r :: rs, c =>
    match gen r.description with
    | some url =>
      (genLoop gen rs (firstReplace c r.fullMatch
          (("![").toList ++ r.description ++ ("](").toList ++ url ++ (")").toList))).map
        id (fun gs => ⟨r.fullMatch, r.description, url, ("generated").toList⟩ :: gs)
    | none =>
      genLoop gen rs (firstReplace c r.fullMatch
          (("*[Image: ").toList ++ r.description ++ (" - generation pending]*").toList))

/-- `processImageGenerationRequests` of `src/utils/imageGeneration.js`, with
the per-request `generateImage` call abstracted as `gen` (`none` models
`success: false`). -/
def processImageGenerationRequests (gen : List Char → Option (List Char))
    (content : List Char) : List Char × List GeneratedImage :=
  genLoop gen (genIterList content) content

/-- One element of the `images` array passed to `replaceImagePlaceholders`
by the route handlers: `placeholder` holds the trimmed description. -/
structure ImgEntry where
  placeholder : List Char
  url : List Char
  position : Nat
deriving DecidableEq

/-- The list `replaceImagePlaceholders` iterates over: its `images` argument
sorted by position in reverse (`src/utils/imageSearch.js` line 68). -/
def imgIterList (images : List ImgEntry) : List ImgEntry :=
  sortByPosDesc (fun i => i.position) images

/-- The body of the `replaceImagePlaceholders` loop
(`src/utils/imageSearch.js` lines 70-74): each entry replaces the literal
string `\x7b\x7bIMAGE: \x7d\x7d`-wrapping of its `placeholder` field — not
the extracted raw span. -/
def replLoop : List ImgEntry → List Char → List Char
  | [], c => c
  | im :: ims, c =>
    replLoop ims (firstReplace c
      (("\x7b\x7bIMAGE: ").toList ++ im.placeholder ++ (closeBr :: closeBr :: []))
      (("\n\n![").toList ++ im.placeholder ++ ("](").toList ++ im.url ++ (")\n\n").toList))

/-- `replaceImagePlaceholders` of `src/utils/imageSearch.js`. -/
def replaceImagePlaceholders (content : List Char) (images : List ImgEntry) : List Char :=
  replLoop (imgIterList images) content

/-- The per-placeholder search loop of the route handlers
(`src/routes/materials.js` lines 224-234): push an entry only when the
search returned at least one result. -/
def buildImages (search : List Char → List (List Char)) : List ImgPh → List ImgEntry
  | [] => []
  | ph :: phs =>
    match search ph.description with
    | [] => buildImages search phs
    | u :: _ => ⟨ph.description, u, ph.position⟩ :: buildImages search phs

/-- The image-search pass of the route handlers
(`src/routes/materials.js` lines 218-239): extract placeholders, search each,
and rewrite only when at least one placeholder was found. -/
def scanNotesImagePass (search : List Char → List (List Char)) (content : List Char) :
    List Char × List ImgEntry :=
  if (extractImagePlaceholders content).isEmpty then (content, [])
  else (replaceImagePlaceholders content (buildImages search (extractImagePlaceholders content)),
        buildImages search (extractImagePlaceholders content))

/-- The document finalization pipeline: the three rewrite passes composed in
the relative order used by the route handlers (diagram pass before the
image-search pass as in the scan-notes handlers, image-search pass before the
generation pass as in `src/routes/materials.js`).  Returns the final content
and the three media manifests. -/
def finalizePipeline (render : DiagBlock → DiagOutcome)
    (search : List Char → List (List Char)) (gen : List Char → Option (List Char))
    (content : List Char) :
    List Char × List EmbeddedDiag × List ImgEntry × List GeneratedImage :=
  ((processImageGenerationRequests gen
      (scanNotesImagePass search (processDiagramBlocks render content).1).1).1,
   (processDiagramBlocks render content).2,
   (scanNotesImagePass search (processDiagramBlocks render content).1).2,
   (processImageGenerationRequests gen
      (scanNotesImagePass search (processDiagramBlocks render content).1).1).2)

/-! ## The retrying image generator (`generateImage` of `src/unnamed/part_000`) -/

/-- What one attempt of the `try` block observes: either the generated image
URL (Cloudinary secure URL or base64 data URL, depending on configuration),
or a thrown error carrying `error.response?.status` and `error.message`. -/
inductive PollOutcome : Type
  | ok (url : List Char)
  | err (status : Option Nat) (msg : List Char)
deriving DecidableEq

/-- `generateImage`'s returned value: `success: true` with a URL, or
`success: false` with an error message. -/
inductive GenOut : Type
  | success (url : List Char)
  | failure (msg : List Char)
deriving DecidableEq

/-- Observable run of `generateImage`: the returned value (`none` when the
function falls off the end of the loop and returns `undefined`), the number
of attempts made, and the number of `sleep(retryDelay)` calls. -/
structure GenRun where
  result : Option GenOut
  attempts : Nat
  sleeps : Nat
deriving DecidableEq

/-- The default `maxRetries` of `generateImage` (`src/unnamed/part_000`
line 14). -/
def genMaxRetriesDefault : Nat := 3

/-- The default `retryDelay` in milliseconds (`src/unnamed/part_000`
line 14). -/
def genRetryDelayDefault : Nat := 2000

/-- The retry loop of `generateImage` (`src/unnamed/part_000` lines 23-88):
`attempt` runs from 1 and `remaining` counts the attempts still allowed after
this one (`isLastAttempt` iff `remaining = 0`).  On an error it retries —
after one `sleep` — exactly when the status is 502 and this is not the last
attempt, and otherwise returns `success: false` with the error message. -/
def genAttemptLoop (oracle : Nat → PollOutcome) : Nat → Nat → GenRun
  | 0, attempt =>
    match oracle attempt with
    | .ok url => ⟨some (.success url), 1, 0⟩
    | .err _ msg => ⟨some (.failure msg), 1, 0⟩
  | r + 1, attempt =>
    match oracle attempt with
    | .ok url => ⟨some (.success url), 1, 0⟩
    | .err status msg =>
      if status = some 502 then
        ⟨(genAttemptLoop oracle r (attempt + 1)).result,
         (genAttemptLoop oracle r (attempt + 1)).attempts + 1,
         (genAttemptLoop oracle r (attempt + 1)).sleeps + 1⟩
      else ⟨some (.failure msg), 1, 0⟩

/-- `generateImage` of `src/unnamed/part_000`, abstracted over an `oracle`
giving the outcome of each attempt (network call plus optional Cloudinary
upload).  With `maxRetries = 0` the `for` loop body never runs and the
function returns `undefined` (`result = none`). -/
def generateImageR (oracle : Nat → PollOutcome) (maxRetries : Nat) : GenRun :=
  match maxRetries with
  | 0 => ⟨none, 0, 0⟩
  | m + 1 => genAttemptLoop oracle m 1

/-! ## `generateDiagram` of `src/utils/kroki.js` -/

/-- An axios answer under `validateStatus: (status) => status < 500`: a
resolved response (status < 500) whose body is either a string or something
else, or a thrown error (network failure, timeout, 5xx) carrying
`error.message`. -/
inductive KrokiNet : Type
  | resp (status : Nat) (dataIsStr : Bool) (dataStr : List Char)
  | netErr (msg : List Char)
deriving DecidableEq

/-- The `DIAGRAM_TYPES` catalog of `src/utils/kroki.js` lines 9-36. -/
def diagramTypes : List (List Char × List Char) :=
  [(("mermaid").toList, ("mermaid").toList), (("plantuml").toList, ("plantuml").toList),
   (("graphviz").toList, ("graphviz").toList), (("dot").toList, ("graphviz").toList),
   (("d2").toList, ("d2").toList), (("excalidraw").toList, ("excalidraw").toList),
   (("blockdiag").toList, ("blockdiag").toList), (("seqdiag").toList, ("seqdiag").toList),
   (("actdiag").toList, ("actdiag").toList), (("nwdiag").toList, ("nwdiag").toList),
   (("packetdiag").toList, ("packetdiag").toList), (("rackdiag").toList, ("rackdiag").toList),
   (("c4plantuml").toList, ("c4plantuml").toList), (("ditaa").toList, ("ditaa").toList),
   (("erd").toList, ("erd").toList), (("nomnoml").toList, ("nomnoml").toList),
   (("pikchr").toList, ("pikchr").toList), (("structurizr").toList, ("structurizr").toList),
   (("svgbob").toList, ("svgbob").toList), (("vega").toList, ("vega").toList),
   (("vegalite").toList, ("vegalite").toList), (("wavedrom").toList, ("wavedrom").toList),
   (("wireviz").toList, ("wireviz").toList)]

/-- `DIAGRAM_TYPES[type.toLowerCase()] || type.toLowerCase()`. -/
def diagramTypeOf (ty : List Char) : List Char :=
  match diagramTypes.lookup (lowerStr ty) with
  | some v => v
  | none => lowerStr ty

/-! ## Base64 and the Kroki URL-safe encoding
(`encodeDiagramSource` of `src/utils/kroki.js` lines 42-49). -/

/-- The standard base64 alphabet used by `Buffer.toString('base64')`. -/
def b64Alphabet : List Char :=
  ("ABCDEFGHIJKLMNOPQRSTUVWXYZabcdefghijklmnopqrstuvwxyz0123456789+/").toList

/-- Character for one 6-bit value. -/
def b64Ch (n : Nat) : Char := b64Alphabet.getD n '?'

def b64ValGo (c : Char) : List Char → Nat → Nat
  | [], _ => 0
  | a :: t, i => if a = c then i else b64ValGo c t (i + 1)

/-- 6-bit value of one base64 character. -/
def b64Val (c : Char) : Nat := b64ValGo c b64Alphabet 0

/-- `Buffer.toString('base64')`: bytes to base64 characters, three bytes per
four characters, `=`-padded. -/
def encodeB64 : List Nat → List Char
  | [] => []
  | [a] => b64Ch (a / 4) :: b64Ch ((a % 4) * 16) :: '=' :: '=' :: []
  | [a, b] => b64Ch (a / 4) :: b64Ch ((a % 4) * 16 + b / 16) :: b64Ch ((b % 16) * 4) :: '=' :: []
  | a :: b :: c :: rest =>
    b64Ch (a / 4) :: b64Ch ((a % 4) * 16 + b / 16) :: b64Ch ((b % 16) * 4 + c / 64) ::
      b64Ch (c % 64) :: encodeB64 rest

/-- Standard base64 decoding (the inverse direction of the round-trip claim). -/
def decodeB64 : List Char → List Nat
  | c1 :: c2 :: c3 :: c4 :: rest =>
    if c3 = '=' then [b64Val c1 * 4 + b64Val c2 / 16]
    else if c4 = '=' then
      [b64Val c1 * 4 + b64Val c2 / 16, (b64Val c2 % 16) * 16 + b64Val c3 / 4]
    else (b64Val c1 * 4 + b64Val c2 / 16) :: ((b64Val c2 % 16) * 16 + b64Val c3 / 4) ::
      ((b64Val c3 % 4) * 64 + b64Val c4) :: decodeB64 rest
  | _ => []

/-- `.replace(/\+/g, '-').replace(/\//g, '_')`, per character. -/
def urlSafeCh (c : Char) : Char :=
  if c = '+' then '-' else if c = '/' then '_' else c

/-- The reverse character mapping described by the spec's round-trip. -/
def unUrlCh (c : Char) : Char :=
  if c = '-' then '+' else if c = '_' then '/' else c

/-- `.replace(/=+$/, '')`: strip the trailing run of `=`. -/
def stripTrailEq : List Char → List Char
  | [] => []
  | c :: t => if c = '=' && (stripTrailEq t).isEmpty then [] else c :: stripTrailEq t

/-- Restore base64 padding: pad with `=` to a multiple of four characters
(the reverse of the stripping step, as described by the spec). -/
def padEq (t : List Char) : List Char :=
  t ++ List.replicate ((4 - t.length % 4) % 4) '='

/-- `encodeDiagramSource` of `src/utils/kroki.js`: deflate, base64, then the
URL-safe transformation.  `deflate` (`zlib.deflateSync`) is an external
library function, abstracted as a parameter; the diagram source is taken at
the byte level. -/
def encodeDiagramSource (deflate : List Nat → List Nat) (src : List Nat) : List Char :=
  stripTrailEq ((encodeB64 (deflate src)).map urlSafeCh)

/-- The spec-described reverse of `encodeDiagramSource`: undo the URL-safe
transformation, base64-decode, and inflate (`inflate` abstracted as a
parameter, the inverse of `deflate` per the zlib contract). -/
def decodeDiagramSource (inflate : List Nat → List Nat) (s : List Char) : List Nat :=
  inflate (decodeB64 (padEq (s.map unUrlCh)))

/-- UTF-8 encoding of one character (used by `Buffer.from(string)`). -/
def utf8Bytes (c : Char) : List Nat :=
  if c.toNat < 128 then [c.toNat]
  else if c.toNat < 2048 then [192 + c.toNat / 64, 128 + c.toNat % 64]
  else if c.toNat < 65536 then
    [224 + c.toNat / 4096, 128 + (c.toNat / 64) % 64, 128 + c.toNat % 64]
  else
    [240 + c.toNat / 262144, 128 + (c.toNat / 4096) % 64, 128 + (c.toNat / 64) % 64,
     128 + c.toNat % 64]

/-- `Buffer.from(string)`: UTF-8 bytes of a string. -/
def strBytes (s : List Char) : List Nat := s.flatMap utf8Bytes

/-! ## Mermaid sanitization
(`sanitizeMermaidSource` of `src/unnamed/part_001` lines 72-117, and the
inline variant of `generateDiagram` in `src/utils/kroki.js` lines 86-123). -/

/-- The character cleanup: remove smart single quotes, apostrophes and
backticks; normalize smart double quotes to `"`. -/
def cleanCh (c : Char) : Option Char :=
  if c = '‘' || c = '’' || c = '\x27' || c = '`' then none
  else if c = '“' || c = '”' then some '"'
  else some c

/-- All four character replacements of the sanitizer in one pass (their
domains are disjoint, so sequential `replace` calls equal one `filterMap`). -/
def cleanChars (s : List Char) : List Char := s.filterMap cleanCh

/-- The closer class `[\x7d\])]` of the `part_001` newline-repair regex. -/
def isCloser001 (c : Char) : Bool := c = closeBr || c = ']' || c = ')'

/-- The closer of the `kroki.js` newline-repair regex (only `]`). -/
def isCloserK (c : Char) : Bool := c = ']'

/-- `[\[\x7b(]`: the node-opening bracket after the identifier. -/
def isOpener (c : Char) : Bool := c = '[' || c = '\x7b' || c = '('

/-- `[A-Za-z_]`: the first character of a node identifier. -/
def isWordStart (c : Char) : Bool :=
  ('A' ≤ c && c ≤ 'Z') || ('a' ≤ c && c ≤ 'z') || c = '_'

/-- Attempt of `(\s\x7b2,\x7d)([A-Za-z_][A-Za-z0-9_]*(?:\[|\x7b|\())` on the
text following a matched closer: a greedy whitespace run of length at least
two, an identifier, and an opener.  (Neither quantifier backtracks: an
identifier head is never whitespace and an opener is never a word
character.)  Returns `(identifier ++ opener, rest)`. -/
def tryNodeAt (xs : List Char) : Option (List Char × List Char) :=
  if 2 ≤ (xs.takeWhile isWs).length then
    match xs.dropWhile isWs with
    | d :: _ =>
      if isWordStart d then
        match (xs.dropWhile isWs).dropWhile isWordChar with
        | o :: r3 =>
          if isOpener o then
            some ((xs.dropWhile isWs).takeWhile isWordChar ++ (o :: []), r3)
          else none
        | [] => none
      else none
    | [] => none
  else none

/-- The global replace of the newline-repair regex, scanning left to right:
each match `closer ++ ws ++ node` is rewritten to
`closer ++ newline ++ four spaces ++ node` and scanning resumes after the
match.  (No match starts strictly inside another match, because the
characters after a match's closer are never closers, so plain jumping equals
the JS `replace` semantics.)  Fuelled structurally; one unit of fuel per
character suffices. -/
def scanRepl (isCl : Char → Bool) : Nat → List Char → List Char
  | 0, xs => xs
  | _ + 1, [] => []
  | fuel + 1, c :: t =>
    if isCl c then
      match tryNodeAt t with
      | some (node, r3) =>
        c :: '\n' :: ' ' :: ' ' :: ' ' :: ' ' :: (node ++ scanRepl isCl fuel r3)
      | none => c :: scanRepl isCl fuel t
    else c :: scanRepl isCl fuel t

/-- The newline-repair step on a whole source string. -/
def insertBreaks (isCl : Char → Bool) (s : List Char) : List Char :=
  scanRepl isCl s.length s

/-- `String.prototype.split('\n')`. -/
def splitNl : List Char → List (List Char)
  | [] => [[]]
  | c :: t =>
    if c = '\n' then [] :: splitNl t
    else
      match splitNl t with
      | [] => [[c]]
      | l :: ls => (c :: l) :: ls

/-- `Array.prototype.join('\n')`. -/
def joinNl : List (List Char) → List Char
  | [] => []
  | [l] => l
  | l :: ls => l ++ '\n' :: joinNl ls

/-- Does the trimmed line end with the given character (`endsWith`)? -/
def lastIs (c : Char) (t : List Char) : Bool := t.getLast? = some c

/-- One alternative test of the `part_001` connector regex
`-->|---|--\||-.->|\|>|<\|` at a position (`.` excludes the newline). -/
def connAt001 (xs : List Char) : Bool :=
  (("-->").toList).isPrefixOf xs || (("---").toList).isPrefixOf xs ||
  (("--|").toList).isPrefixOf xs ||
  (match xs with
   | '-' :: c2 :: '-' :: '>' :: _ => c2 ≠ '\n'
   | _ => false) ||
  (("|>").toList).isPrefixOf xs || (("<|").toList).isPrefixOf xs

/-- `regex.test`: does the connector pattern occur anywhere in the line? -/
def hasConn001 : List Char → Bool
  | [] => false
  | c :: t => connAt001 (c :: t) || hasConn001 t

/-- The exemption test of the `part_001` per-line step (line 93-106): empty
lines, declaration keywords, `end`, and lines already ending with `;`, an
opening brace, or `:`. -/
def lineExempt001 (t : List Char) : Bool :=
  t.isEmpty || (("graph ").toList).isPrefixOf t || (("flowchart ").toList).isPrefixOf t ||
  (("sequenceDiagram").toList).isPrefixOf t || (("classDiagram").toList).isPrefixOf t ||
  (("stateDiagram").toList).isPrefixOf t || (("erDiagram").toList).isPrefixOf t ||
  (("gantt").toList).isPrefixOf t || (("pie").toList).isPrefixOf t ||
  (("subgraph ").toList).isPrefixOf t || t = ("end").toList ||
  lastIs ';' t || lastIs '\x7b' t || lastIs ':' t

/-- The per-line semicolon step of `part_001` (lines 90-114). -/
def lineFix001 (l : List Char) : List Char :=
  if lineExempt001 (trim l) then l
  else if hasConn001 (trim l) then l ++ (';' :: []) else l

/-- Split, fix each line, join. -/
def addSemis001 (s : List Char) : List Char := joinNl ((splitNl s).map lineFix001)

/-- `sanitizeMermaidSource` of `src/unnamed/part_001`: trim, character
cleanup, newline repair, then the per-line semicolon step. -/
def sanitizeMermaidSource (s : List Char) : List Char :=
  addSemis001 (insertBreaks isCloser001 (cleanChars (trim s)))

/-- One alternative test of the `kroki.js` connector regex `-->|---|\|`. -/
def connAtK (xs : List Char) : Bool :=
  (("-->").toList).isPrefixOf xs || (("---").toList).isPrefixOf xs ||
  (match xs with
   | '|' :: _ => true
   | _ => false)

def hasConnK : List Char → Bool
  | [] => false
  | c :: t => connAtK (c :: t) || hasConnK t

/-- The exemption test of the `kroki.js` per-line step (lines 107-115). -/
def lineExemptK (t : List Char) : Bool :=
  t.isEmpty || (("graph ").toList).isPrefixOf t || (("flowchart ").toList).isPrefixOf t ||
  (("subgraph ").toList).isPrefixOf t || t = ("end").toList ||
  lastIs ';' t || lastIs '\x7b' t

def lineFixK (l : List Char) : List Char :=
  if lineExemptK (trim l) then l
  else if hasConnK (trim l) then l ++ (';' :: []) else l

def addSemisK (s : List Char) : List Char := joinNl ((splitNl s).map lineFixK)

/-- The inline Mermaid sanitization of `generateDiagram` in
`src/utils/kroki.js` (lines 86-123), applied to the already-trimmed source. -/
def sanitizeKrokiInline (s : List Char) : List Char :=
  addSemisK (insertBreaks isCloserK (cleanChars s))

/-- `generateDiagram` of `src/utils/kroki.js` (svg format, as called by
`processDiagramBlocks`): trim, reject empty source, sanitize when the mapped
type is mermaid, then POST the cleaned source once.  `net` gives the axios
answer as a function of the posted body; HTTP 4xx (resolved because of
`validateStatus: status < 500`) yields the `Diagram syntax error` failure
with a body truncated to 200 characters; a thrown error yields
`error.message`; success yields the base64 data URL of the SVG body. -/
def krokiPostedSource (ty source : List Char) : List Char :=
  if diagramTypeOf ty = ("mermaid").toList then sanitizeKrokiInline (trim source)
  else trim source

def generateDiagramK (net : List Char → KrokiNet) (ty source : List Char) : DiagOutcome :=
  if (trim source).isEmpty then .fail (("Empty diagram source").toList)
  else
    match net (krokiPostedSource ty source) with
    | .netErr msg => .fail msg
    | .resp status isStr dataStr =>
      if 400 ≤ status then
        .fail (("Diagram syntax error: ").toList ++
          (if isStr then dataStr.take 200 else ("Invalid diagram syntax").toList))
      else
        .ok (("data:image/svg+xml;base64,").toList ++ encodeB64 (strBytes dataStr))

/-! ## Theorems -/

theorem genAttemptLoop_ok {o : Nat → PollOutcome} {r a : Nat} {url : List Char}
    (h : o a = .ok url) :
    genAttemptLoop o r a = ⟨some (.success url), 1, 0⟩ := by
  cases r <;> rw [genAttemptLoop, h]

theorem genAttemptLoop_err_zero {o : Nat → PollOutcome} {a : Nat}
    {st : Option Nat} {msg : List Char} (h : o a = .err st msg) :
    genAttemptLoop o 0 a = ⟨some (.failure msg), 1, 0⟩ := by
  rw [genAttemptLoop, h]

theorem genAttemptLoop_err_502 {o : Nat → PollOutcome} {r a : Nat} {msg : List Char}
    (h : o a = .err (some 502) msg) :
    genAttemptLoop o (r + 1) a =
      ⟨(genAttemptLoop o r (a + 1)).result, (genAttemptLoop o r (a + 1)).attempts + 1,
       (genAttemptLoop o r (a + 1)).sleeps + 1⟩ := by
  rw [genAttemptLoop, h]
  simp

theorem genAttemptLoop_err_non502 {o : Nat → PollOutcome} {r a : Nat}
    {st : Option Nat} {msg : List Char} (h : o a = .err st msg) (hst : st ≠ some 502) :
    genAttemptLoop o (r + 1) a = ⟨some (.failure msg), 1, 0⟩ := by
  rw [genAttemptLoop, h]
  simp [hst]

theorem genAttemptLoop_attempts_le (o : Nat → PollOutcome) :
    ∀ (r a : Nat), (genAttemptLoop o r a).attempts ≤ r + 1 := by
  intro r
  induction r with
  | zero =>
    intro a
    cases ho : o a with
    | ok url => rw [genAttemptLoop_ok ho]
    | err st msg => rw [genAttemptLoop_err_zero ho]
  | succ r ih =>
    intro a
    cases ho : o a with
    | ok url => rw [genAttemptLoop_ok ho]; simp
    | err st msg =>
      by_cases h : st = some 502
      · subst h
        rw [genAttemptLoop_err_502 ho]
        exact Nat.add_le_add_right (ih (a + 1)) 1
      · rw [genAttemptLoop_err_non502 ho h]
        simp

theorem genAttemptLoop_result_isSome (o : Nat → PollOutcome) :
    ∀ (r a : Nat), (genAttemptLoop o r a).result.isSome = true := by
  intro r
  induction r with
  | zero =>
    intro a
    cases ho : o a with
    | ok url => rw [genAttemptLoop_ok ho]; rfl
    | err st msg => rw [genAttemptLoop_err_zero ho]; rfl
  | succ r ih =>
    intro a
    cases ho : o a with
    | ok url => rw [genAttemptLoop_ok ho]; rfl
    | err st msg =>
      by_cases h : st = some 502
      · subst h
        rw [genAttemptLoop_err_502 ho]
        exact ih (a + 1)
      · rw [genAttemptLoop_err_non502 ho h]
        rfl

theorem genAttemptLoop_non502 (o : Nat → PollOutcome) (r a : Nat)
    (st : Option Nat) (msg : List Char)
    (ho : o a = .err st msg) (hst : st ≠ some 502) :
    genAttemptLoop o r a = ⟨some (.failure msg), 1, 0⟩ := by
  cases r with
  | zero => exact genAttemptLoop_err_zero ho
  | succ r => exact genAttemptLoop_err_non502 ho hst

/-- Claim C3: the image-generation resolver of `src/unnamed/part_000` makes
at most `maxRetries` attempts (default 3), sleeping the fixed `retryDelay`
(default 2000 ms) between attempts; it retries only when the failed attempt's
status is 502 (any other error returns `success: false` immediately, with no
sleep); 502 on two attempts followed by success on the third returns the URL
after 3 attempts and 2 sleeps; 502 on all attempts returns `success: false`
after 3 attempts and 2 sleeps. -/
theorem c3_generateImage_retry_policy :
    (∀ (o : Nat → PollOutcome) (m : Nat), (generateImageR o m).attempts ≤ m) ∧
    (∀ (o : Nat → PollOutcome) (r a : Nat) (st : Option Nat) (msg : List Char),
      o a = .err st msg → st ≠ some 502 →
      genAttemptLoop o r a = ⟨some (.failure msg), 1, 0⟩) ∧
    (∀ (o : Nat → PollOutcome) (m : Nat) (st : Option Nat) (msg : List Char),
      o 1 = .err st msg → st ≠ some 502 →
      generateImageR o (m + 1) = ⟨some (.failure msg), 1, 0⟩) ∧
    (∀ (url : List Char),
      generateImageR
        (fun n => if n ≤ 2 then .err (some 502) (("Bad Gateway").toList) else .ok url)
        genMaxRetriesDefault = ⟨some (.success url), 3, 2⟩) ∧
    (∀ (msg : List Char),
      generateImageR (fun _ => .err (some 502) msg) genMaxRetriesDefault =
        ⟨some (.failure msg), 3, 2⟩) ∧
    genMaxRetriesDefault = 3 ∧ genRetryDelayDefault = 2000 := by
  refine ⟨?_, ?_, ?_, ?_, ?_, rfl, rfl⟩
  · intro o m
    cases m with
    | zero => simp [generateImageR]
    | succ m =>
      have := genAttemptLoop_attempts_le o m 1
      simpa [generateImageR] using this
  · intro o r a st msg ho hst
    exact genAttemptLoop_non502 o r a st msg ho hst
  · intro o m st msg ho hst
    simpa [generateImageR] using genAttemptLoop_non502 o m 1 st msg ho hst
  · intro url
    rfl
  · intro msg
    rfl

/-- Witness for C3 at concrete inputs: a non-502 failure on the first attempt
returns immediately, within the attempt bound. -/
theorem c3_generateImage_retry_policy_witness :
    (generateImageR (fun _ => PollOutcome.err (some 400) (("boom").toList)) 3).attempts ≤ 3 ∧
    generateImageR (fun _ => PollOutcome.err (some 400) (("boom").toList)) 3 =
      ⟨some (.failure (("boom").toList)), 1, 0⟩ ∧
    generateImageR
      (fun n => if n ≤ 2 then .err (some 502) (("Bad Gateway").toList)
                else .ok (("u").toList)) genMaxRetriesDefault =
      ⟨some (.success (("u").toList)), 3, 2⟩ :=
  ⟨c3_generateImage_retry_policy.1 _ 3,
   c3_generateImage_retry_policy.2.2.1 _ 2 _ _ rfl (by decide),
   c3_generateImage_retry_policy.2.2.2.1 _⟩

/-- Claim C10: `generateImage` returns a `success`-shaped object only when
`maxRetries ≥ 1`; with `maxRetries = 0` the loop body never executes and the
function returns `undefined`. -/
theorem c10_generateImage_zero_retries_undefined :
    (∀ (o : Nat → PollOutcome), generateImageR o 0 = ⟨none, 0, 0⟩) ∧
    (∀ (o : Nat → PollOutcome) (m : Nat), 1 ≤ m →
      (generateImageR o m).result.isSome = true) := by
  constructor
  · intro o
    rfl
  · intro o m hm
    cases m with
    | zero => omega
    | succ m => simpa [generateImageR] using genAttemptLoop_result_isSome o m 1

/-- Witness for C10 at concrete inputs. -/
theorem c10_generateImage_zero_retries_undefined_witness :
    generateImageR (fun _ => PollOutcome.ok (("u").toList)) 0 = ⟨none, 0, 0⟩ ∧
    (generateImageR (fun _ => PollOutcome.ok (("u").toList)) 1).result.isSome = true :=
  ⟨c10_generateImage_zero_retries_undefined.1 _,
   c10_generateImage_zero_retries_undefined.2 _ 1 (by decide)⟩

theorem mem_insDesc {α : Type} (pos : α → Nat) (x : α) :
    ∀ (l : List α) (z : α), z ∈ insDesc pos x l ↔ z = x ∨ z ∈ l := by
  intro l
  induction l with
  | nil => intro z; simp [insDesc]
  | cons y ys ih =>
    intro z
    rw [insDesc]
    by_cases h : pos x ≤ pos y
    · rw [if_pos h]
      simp only [List.mem_cons, ih]
      tauto
    · rw [if_neg h]
      simp only [List.mem_cons]

theorem insDesc_pairwise {α : Type} (pos : α → Nat) (x : α) :
    ∀ {l : List α}, l.Pairwise (fun a b => pos b ≤ pos a) →
      (insDesc pos x l).Pairwise (fun a b => pos b ≤ pos a) := by
  intro l
  induction l with
  | nil => intro _; simp [insDesc]
  | cons y ys ih =>
    intro h
    rw [List.pairwise_cons] at h
    obtain ⟨hy, hys⟩ := h
    rw [insDesc]
    by_cases hc : pos x ≤ pos y
    · rw [if_pos hc, List.pairwise_cons]
      refine ⟨?_, ih hys⟩
      intro z hz
      rcases (mem_insDesc pos x ys z).mp hz with rfl | hzys
      · exact hc
      · exact hy z hzys
    · rw [if_neg hc, List.pairwise_cons]
      constructor
      · intro z hz
        rcases List.mem_cons.mp hz with rfl | hzys
        · omega
        · have := hy z hzys
          omega
      · rw [List.pairwise_cons]
        exact ⟨hy, hys⟩

theorem foldl_insDesc_pairwise {α : Type} (pos : α → Nat) :
    ∀ (l acc : List α), acc.Pairwise (fun a b => pos b ≤ pos a) →
      (l.foldl (fun acc x => insDesc pos x acc) acc).Pairwise (fun a b => pos b ≤ pos a) := by
  intro l
  induction l with
  | nil => intro acc h; simpa using h
  | cons x xs ih =>
    intro acc h
    exact ih _ (insDesc_pairwise pos x h)

theorem sortByPosDesc_pairwise {α : Type} (pos : α → Nat) (l : List α) :
    (sortByPosDesc pos l).Pairwise (fun a b => pos b ≤ pos a) :=
  foldl_insDesc_pairwise pos l [] (by simp)

theorem mem_foldl_insDesc {α : Type} (pos : α → Nat) :
    ∀ (l acc : List α) (z : α),
      z ∈ l.foldl (fun acc x => insDesc pos x acc) acc ↔ z ∈ acc ∨ z ∈ l := by
  intro l
  induction l with
  | nil => intro acc z; simp
  | cons x xs ih =>
    intro acc z
    rw [List.foldl_cons, ih, mem_insDesc]
    simp only [List.mem_cons]
    tauto

theorem mem_sortByPosDesc {α : Type} (pos : α → Nat) (l : List α) (z : α) :
    z ∈ sortByPosDesc pos l ↔ z ∈ l := by
  rw [sortByPosDesc, mem_foldl_insDesc]
  simp

theorem genGo_succ (fuel pos : Nat) (xs : List Char) :
    genGo (fuel + 1) pos xs =
      (match genMatchAt xs with
       | some (fm, ty, d, rest) => ⟨fm, ty, trim d, pos⟩ :: genGo fuel (pos + fm.length) rest
       | none =>
         match xs with
         | [] => []
         | _ :: t => genGo fuel (pos + 1) t) := rfl

theorem genGo_step_some {fuel pos : Nat} {xs fm ty d rest : List Char}
    (h : genMatchAt xs = some (fm, ty, d, rest)) :
    genGo (fuel + 1) pos xs = ⟨fm, ty, trim d, pos⟩ :: genGo fuel (pos + fm.length) rest := by
  rw [genGo_succ, h]

theorem genGo_step_none {fuel pos : Nat} {c : Char} {t : List Char}
    (h : genMatchAt (c :: t) = none) :
    genGo (fuel + 1) pos (c :: t) = genGo fuel (pos + 1) t := by
  rw [genGo_succ, h]

theorem genGo_nil {fuel pos : Nat} : genGo fuel pos [] = [] := by
  cases fuel <;> rfl

theorem genGo_pos_ascending :
    ∀ (fuel pos : Nat) (xs : List Char),
      (genGo fuel pos xs).Pairwise (fun a b => a.position < b.position) ∧
      (∀ r ∈ genGo fuel pos xs, pos ≤ r.position) := by
  intro fuel
  induction fuel with
  | zero => intro pos xs; simp [genGo]
  | succ fuel ih =>
    intro pos xs
    cases hm : genMatchAt xs with
    | some v =>
      obtain ⟨fm, ty, d, rest⟩ := v
      obtain ⟨hsplit, hlen⟩ := genMatchAt_split hm
      rw [genGo_step_some hm]
      constructor
      · rw [List.pairwise_cons]
        refine ⟨?_, (ih (pos + fm.length) rest).1⟩
        intro r hr
        have := (ih (pos + fm.length) rest).2 r hr
        show pos < r.position
        omega
      · intro r hr
        rcases List.mem_cons.mp hr with rfl | hmem
        · exact Nat.le_refl pos
        · have := (ih (pos + fm.length) rest).2 r hmem
          omega
    | none =>
      cases xs with
      | nil => simp [genGo_nil]
      | cons c t =>
        rw [genGo_step_none hm]
        refine ⟨(ih (pos + 1) t).1, ?_⟩
        intro r hr
        have := (ih (pos + 1) t).2 r hr
        omega

/-- Claim C1, as amended: the diagram pass and the image-search pass iterate
their items sorted by `position` descending; the image-generation pass
iterates the extraction result unsorted, which is in strictly ascending
`position` order. -/
theorem c1_rewrite_pass_ordering :
    (∀ (content : List Char),
      (diagIterList content).Pairwise (fun a b => b.position ≤ a.position)) ∧
    (∀ (images : List ImgEntry),
      (imgIterList images).Pairwise (fun a b => b.position ≤ a.position)) ∧
    (∀ (content : List Char), genIterList content = extractGenerationRequests content) ∧
    (∀ (content : List Char),
      (genIterList content).Pairwise (fun a b => a.position < b.position)) := by
  refine ⟨?_, ?_, fun _ => rfl, ?_⟩
  · intro content
    exact sortByPosDesc_pairwise _ _
  · intro images
    exact sortByPosDesc_pairwise _ _
  · intro content
    exact (genGo_pos_ascending content.length 0 content).1

/-- Counterexample to claim C1 as stated: on a document with two
image-generation directives, the image-generation pass iterates them in
ascending, not descending, position order. -/
theorem c1_counterexample :
    (genIterList (("\x7b\x7bGENERATE: a\x7d\x7dx\x7b\x7bGENERATE: b\x7d\x7d").toList)).map
        (fun r => r.position) = [0, 16] ∧
    ¬ ((genIterList (("\x7b\x7bGENERATE: a\x7d\x7dx\x7b\x7bGENERATE: b\x7d\x7d").toList)).Pairwise
        (fun a b => b.position ≤ a.position)) := by
  constructor
  · decide
  · intro h
    have h3 : ((genIterList (("\x7b\x7bGENERATE: a\x7d\x7dx\x7b\x7bGENERATE: b\x7d\x7d").toList)).map
        (fun r => r.position)).Pairwise (fun a b => b ≤ a) :=
      List.Pairwise.map _ (fun a b hab => hab) h
    rw [(by decide :
      (genIterList (("\x7b\x7bGENERATE: a\x7d\x7dx\x7b\x7bGENERATE: b\x7d\x7d").toList)).map
        (fun r => r.position) = [0, 16])] at h3
    have h2 := List.pairwise_cons.mp h3
    have := h2.1 16 (by simp)
    omega

/-- Claim C4 is contradicted by the code: on a failed resolution the
image-generation rewriter replaces the whole `\x7b\x7bGENERATE: ...\x7d\x7d`
directive with `*[Image: <description> - generation pending]*`, so the
original directive marker is NOT preserved inside the annotation (even though
the code's own comment says "Keep placeholder but add a note").  This theorem
evaluates the code model at the failing input. -/
theorem c4_generation_failure_drops_marker :
    processImageGenerationRequests (fun _ => none)
        (("\x7b\x7bGENERATE: cat\x7d\x7d").toList) =
      ((("*[Image: cat - generation pending]*").toList), []) ∧
    findOcc (("\x7b\x7bGENERATE").toList)
      (processImageGenerationRequests (fun _ => none)
        (("\x7b\x7bGENERATE: cat\x7d\x7d").toList)).1 = none :=
  ⟨by decide, by decide⟩

/-- Claim C5: when none of the three directive grammars matches, each
processing pass returns the text unchanged with an empty media list, and the
composed finalization is the identity. -/
theorem c5_identity_when_no_directives :
    ∀ (content : List Char) (render : DiagBlock → DiagOutcome)
      (search : List Char → List (List Char)) (gen : List Char → Option (List Char)),
      extractDiagramBlocks content = [] →
      extractImagePlaceholders content = [] →
      extractGenerationRequests content = [] →
      processDiagramBlocks render content = (content, []) ∧
      scanNotesImagePass search content = (content, []) ∧
      processImageGenerationRequests gen content = (content, []) ∧
      finalizePipeline render search gen content = (content, [], [], []) := by
  intro content render search gen hd hi hg
  have h1 : processDiagramBlocks render content = (content, []) := by
    rw [processDiagramBlocks, diagIterList, hd]
    rfl
  have h2 : scanNotesImagePass search content = (content, []) := by
    rw [scanNotesImagePass, hi]
    rfl
  have h3 : processImageGenerationRequests gen content = (content, []) := by
    rw [processImageGenerationRequests, genIterList, hg]
    rfl
  refine ⟨h1, h2, h3, ?_⟩
  rw [finalizePipeline, h1]
  simp only [h2, h3]

/-- Witness for C5 at a concrete directive-free document. -/
theorem c5_identity_when_no_directives_witness :
    finalizePipeline (fun _ => DiagOutcome.fail []) (fun _ => []) (fun _ => none)
        (("hello").toList) = ((("hello").toList), [], [], []) :=
  (c5_identity_when_no_directives _ _ _ _ (by decide) (by decide) (by decide)).2.2.2

theorem firstReplace_none {s pat rep : List Char} (h : findOcc pat s = none) :
    firstReplace s pat rep = s := by
  rw [firstReplace, h]

theorem replLoop_no_occurrence :
    ∀ (l : List ImgEntry) (content : List Char),
      (∀ im ∈ l,
        findOcc (("\x7b\x7bIMAGE: ").toList ++ im.placeholder ++ (closeBr :: closeBr :: []))
          content = none) →
      replLoop l content = content := by
  intro l
  induction l with
  | nil => intro c _; rfl
  | cons im ims ih =>
    intro c h
    rw [replLoop, firstReplace_none (h im (List.mem_cons_self _ _))]
    exact ih c (fun x hx => h x (List.mem_cons_of_mem _ hx))

/-- Claim C9: `replaceImagePlaceholders` rebuilds its search string as the
canonical `\x7b\x7bIMAGE: <description>\x7d\x7d` spelling rather than using
the extracted raw span; placeholders spelled differently (for example with no
space after the colon) are extracted and resolved but left verbatim in the
output even though their resolution succeeded. -/
theorem c9_replace_uses_canonical_spelling :
    (∀ (content : List Char) (images : List ImgEntry),
      (∀ im ∈ images,
        findOcc (("\x7b\x7bIMAGE: ").toList ++ im.placeholder ++ (closeBr :: closeBr :: []))
          content = none) →
      replaceImagePlaceholders content images = content) ∧
    extractImagePlaceholders (("\x7b\x7bIMAGE:cat\x7d\x7d").toList) =
      [⟨("\x7b\x7bIMAGE:cat\x7d\x7d").toList, ("cat").toList, 0⟩] ∧
    scanNotesImagePass (fun _ => [("u").toList]) (("\x7b\x7bIMAGE:cat\x7d\x7d").toList) =
      ((("\x7b\x7bIMAGE:cat\x7d\x7d").toList), [⟨("cat").toList, ("u").toList, 0⟩]) := by
  refine ⟨?_, by decide, by decide⟩
  intro content images h
  rw [replaceImagePlaceholders]
  apply replLoop_no_occurrence
  intro im him
  rw [imgIterList] at him
  exact h im ((mem_sortByPosDesc _ images im).mp him)

/-- Witness for C9: a successfully resolved but non-canonically spelled
placeholder is left verbatim. -/
theorem c9_replace_uses_canonical_spelling_witness :
    replaceImagePlaceholders (("\x7b\x7bIMAGE:cat\x7d\x7d").toList)
        [⟨("cat").toList, ("u").toList, 0⟩] = ("\x7b\x7bIMAGE:cat\x7d\x7d").toList :=
  c9_replace_uses_canonical_spelling.1 _ _ (by decide)

theorem fenceGo_succ (fuel pos : Nat) (xs : List Char) :
    fenceGo (fuel + 1) pos xs =
      (match fenceMatchAt xs with
       | some (fm, ty, src, rest) => ⟨fm, ty, trim src, pos⟩ :: fenceGo fuel (pos + fm.length) rest
       | none =>
         match xs with
         | [] => []
         | _ :: t => fenceGo fuel (pos + 1) t) := rfl

theorem fenceGo_step_some {fuel pos : Nat} {xs fm ty src rest : List Char}
    (h : fenceMatchAt xs = some (fm, ty, src, rest)) :
    fenceGo (fuel + 1) pos xs = ⟨fm, ty, trim src, pos⟩ :: fenceGo fuel (pos + fm.length) rest := by
  rw [fenceGo_succ, h]

theorem fenceGo_step_none {fuel pos : Nat} {c : Char} {t : List Char}
    (h : fenceMatchAt (c :: t) = none) :
    fenceGo (fuel + 1) pos (c :: t) = fenceGo fuel (pos + 1) t := by
  rw [fenceGo_succ, h]

theorem fenceGo_nil {fuel pos : Nat} : fenceGo fuel pos [] = [] := by
  cases fuel <;> rfl

theorem inlGo_succ (fuel pos : Nat) (xs : List Char) :
    inlGo (fuel + 1) pos xs =
      (match inlMatchAt xs with
       | some (fm, ty, src, rest) => ⟨fm, ty, trim src, pos⟩ :: inlGo fuel (pos + fm.length) rest
       | none =>
         match xs with
         | [] => []
         | _ :: t => inlGo fuel (pos + 1) t) := rfl

theorem inlGo_step_some {fuel pos : Nat} {xs fm ty src rest : List Char}
    (h : inlMatchAt xs = some (fm, ty, src, rest)) :
    inlGo (fuel + 1) pos xs = ⟨fm, ty, trim src, pos⟩ :: inlGo fuel (pos + fm.length) rest := by
  rw [inlGo_succ, h]

theorem inlGo_step_none {fuel pos : Nat} {c : Char} {t : List Char}
    (h : inlMatchAt (c :: t) = none) :
    inlGo (fuel + 1) pos (c :: t) = inlGo fuel (pos + 1) t := by
  rw [inlGo_succ, h]

theorem inlGo_nil {fuel pos : Nat} : inlGo fuel pos [] = [] := by
  cases fuel <;> rfl

theorem fenceGo_occurs :
    ∀ (fuel pos : Nat) (xs : List Char) (r : DiagBlock),
      r ∈ fenceGo fuel pos xs → ∃ pre post, xs = pre ++ r.fullMatch ++ post := by
  intro fuel
  induction fuel with
  | zero => intro pos xs r h; simp [fenceGo] at h
  | succ fuel ih =>
    intro pos xs r h
    cases hm : fenceMatchAt xs with
    | some v =>
      obtain ⟨fm, ty, src, rest⟩ := v
      rw [fenceGo_step_some hm] at h
      obtain ⟨hsplit, -⟩ := fenceMatchAt_split hm
      rcases List.mem_cons.mp h with rfl | hmem
      · exact ⟨[], rest, by simpa using hsplit⟩
      · obtain ⟨pre, post, hrest⟩ := ih _ _ r hmem
        exact ⟨fm ++ pre, post, by rw [hsplit, hrest]; simp⟩
    | none =>
      cases xs with
      | nil => rw [fenceGo_nil] at h; cases h
      | cons c t =>
        rw [fenceGo_step_none hm] at h
        obtain ⟨pre, post, hrest⟩ := ih _ _ r h
        exact ⟨c :: pre, post, by rw [hrest]; rfl⟩

theorem inlGo_occurs :
    ∀ (fuel pos : Nat) (xs : List Char) (r : DiagBlock),
      r ∈ inlGo fuel pos xs → ∃ pre post, xs = pre ++ r.fullMatch ++ post := by
  intro fuel
  induction fuel with
  | zero => intro pos xs r h; simp [inlGo] at h
  | succ fuel ih =>
    intro pos xs r h
    cases hm : inlMatchAt xs with
    | some v =>
      obtain ⟨fm, ty, src, rest⟩ := v
      rw [inlGo_step_some hm] at h
      obtain ⟨hsplit, -⟩ := inlMatchAt_split hm
      rcases List.mem_cons.mp h with rfl | hmem
      · exact ⟨[], rest, by simpa using hsplit⟩
      · obtain ⟨pre, post, hrest⟩ := ih _ _ r hmem
        exact ⟨fm ++ pre, post, by rw [hsplit, hrest]; simp⟩
    | none =>
      cases xs with
      | nil => rw [inlGo_nil] at h; cases h
      | cons c t =>
        rw [inlGo_step_none hm] at h
        obtain ⟨pre, post, hrest⟩ := ih _ _ r h
        exact ⟨c :: pre, post, by rw [hrest]; rfl⟩

theorem extractDiagramBlocks_occurs {content : List Char} {b : DiagBlock}
    (h : b ∈ extractDiagramBlocks content) :
    ∃ pre post, content = pre ++ b.fullMatch ++ post := by
  rw [extractDiagramBlocks] at h
  rcases List.mem_append.mp h with h | h
  · exact fenceGo_occurs _ _ _ _ h
  · exact inlGo_occurs _ _ _ _ h

theorem findOcc_isSome_append (pat pre post : List Char) :
    (findOcc pat (pre ++ (pat ++ post))).isSome = true := by
  induction pre with
  | nil =>
    rw [List.nil_append, findOcc_here (isPrefixOf_append_self pat post)]
    rfl
  | cons c t ih =>
    rw [List.cons_append, findOcc]
    split
    · rfl
    · simpa using ih

theorem firstReplace_isSome {s pat rep : List Char} (h : (findOcc pat s).isSome = true) :
    ∃ pre post, firstReplace s pat rep = pre ++ rep ++ post := by
  rw [firstReplace]
  cases hf : findOcc pat s with
  | none => rw [hf] at h; simp at h
  | some i => exact ⟨s.take i, s.drop (i + pat.length), rfl⟩

theorem diagLoop_cons (render : DiagBlock → DiagOutcome) (b : DiagBlock)
    (bs : List DiagBlock) (c : List Char) :
    diagLoop render (b :: bs) c =
      (match render b with
       | .ok url =>
         (diagLoop render bs (firstReplace c b.fullMatch
             (("![").toList ++ b.type ++ (" diagram](").toList ++ url ++ (")").toList))).map
           id (fun ds => ⟨b.type, url, b.source⟩ :: ds)
       | .fail err =>
         diagLoop render bs (firstReplace c b.fullMatch
             (b.fullMatch ++ ("\n\n*⚠️ Diagram rendering failed: ").toList ++ err ++
               ("*").toList))) := rfl

theorem diagLoop_cons_fail {render : DiagBlock → DiagOutcome} {b : DiagBlock}
    {bs : List DiagBlock} {c err : List Char} (h : render b = .fail err) :
    diagLoop render (b :: bs) c =
      diagLoop render bs (firstReplace c b.fullMatch
        (b.fullMatch ++ ("\n\n*⚠️ Diagram rendering failed: ").toList ++ err ++ ("*").toList)) := by
  rw [diagLoop_cons, h]

/-- Claim C2: a 4xx answer from the rendering service makes `generateDiagram`
return the `Diagram syntax error` failure built from the response body
truncated to 200 characters; the result depends only on the service's answer
to the single posted request (no retry); and `processDiagramBlocks` then
leaves the original code block in the output followed by the error
annotation, returning normally (the model is a total function). -/
theorem c2_diagram_4xx_graceful :
    (∀ (ty source msg : List Char) (status : Nat),
      ¬ (trim source).isEmpty = true → 400 ≤ status → status < 500 →
      generateDiagramK (fun _ => KrokiNet.resp status true msg) ty source =
        .fail (("Diagram syntax error: ").toList ++ msg.take 200)) ∧
    (∀ (f g : List Char → KrokiNet) (ty source : List Char),
      f (krokiPostedSource ty source) = g (krokiPostedSource ty source) →
      generateDiagramK f ty source = generateDiagramK g ty source) ∧
    (∀ (render : DiagBlock → DiagOutcome) (content err : List Char) (b : DiagBlock),
      extractDiagramBlocks content = [b] →
      render b = .fail err →
      ∃ pre post,
        processDiagramBlocks render content =
          (pre ++ (b.fullMatch ++ ("\n\n*⚠️ Diagram rendering failed: ").toList ++ err ++
            ("*").toList) ++ post, [])) := by
  refine ⟨?_, ?_, ?_⟩
  · intro ty source msg status hne h4 h5
    rw [generateDiagramK, if_neg (by simpa using hne)]
    simp only []
    rw [if_pos h4]
    simp
  · intro f g ty source hfg
    rw [generateDiagramK, generateDiagramK, hfg]
  · intro render content err b hextract hrender
    have hmem : b ∈ extractDiagramBlocks content := by
      rw [hextract]; exact List.mem_cons_self b []
    obtain ⟨pre0, post0, hc⟩ := extractDiagramBlocks_occurs hmem
    rw [processDiagramBlocks, diagIterList, hextract]
    have hsort : sortByPosDesc (fun b : DiagBlock => b.position) [b] = [b] := rfl
    rw [hsort, diagLoop_cons_fail hrender]
    have hocc : (findOcc b.fullMatch content).isSome = true := by
      have : content = pre0 ++ (b.fullMatch ++ post0) := by rw [hc]; simp
      rw [this]
      exact findOcc_isSome_append _ _ _
    obtain ⟨pre, post, hrep⟩ := @firstReplace_isSome content b.fullMatch
      (b.fullMatch ++ ("\n\n*⚠️ Diagram rendering failed: ").toList ++ err ++ ("*").toList)
      hocc
    refine ⟨pre, post, ?_⟩
    have hnil : ∀ (cc : List Char), diagLoop render [] cc = (cc, []) := fun _ => rfl
    rw [hnil, hrep]

/-- Witness for C2 at a concrete document with one mermaid block and a
400-status answer. -/
theorem c2_diagram_4xx_graceful_witness :
    generateDiagramK (fun _ => KrokiNet.resp 400 true (("bad").toList))
        (("mermaid").toList) (("A-->B").toList) =
      .fail (("Diagram syntax error: ").toList ++ (("bad").toList).take 200) ∧
    ∃ pre post,
      processDiagramBlocks (fun _ => DiagOutcome.fail (("E").toList))
          (("```mermaid\nA-->B\n```").toList) =
        (pre ++ ((("```mermaid\nA-->B\n```").toList) ++
          ("\n\n*⚠️ Diagram rendering failed: ").toList ++ ("E").toList ++ ("*").toList) ++ post,
         []) :=
  ⟨c2_diagram_4xx_graceful.1 _ _ _ 400 (by decide) (by decide) (by decide),
   c2_diagram_4xx_graceful.2.2 _ _ _
     ⟨("```mermaid\nA-->B\n```").toList, ("mermaid").toList, ("A-->B").toList, 0⟩
     (by decide) rfl⟩

theorem b64Val_b64Ch : ∀ n, n < 64 → b64Val (b64Ch n) = n := by decide

theorem b64Ch_ne_eq : ∀ n, n < 64 → b64Ch n ≠ '=' := by decide

theorem urlSafe_b64Ch_ne_eq : ∀ n, n < 64 → urlSafeCh (b64Ch n) ≠ '=' := by decide

theorem unUrl_urlSafe_b64Ch : ∀ n, n < 64 → unUrlCh (urlSafeCh (b64Ch n)) = b64Ch n := by decide

theorem stripTrailEq_append {u v : List Char} (h : ∀ c ∈ u, c ≠ '=') :
    stripTrailEq (u ++ v) = u ++ stripTrailEq v := by
  induction u with
  | nil => rfl
  | cons c t ih =>
    have hc : c ≠ '=' := h c (List.mem_cons_self _ _)
    have ht : ∀ x ∈ t, x ≠ '=' := fun x hx => h x (List.mem_cons_of_mem _ hx)
    rw [List.cons_append, stripTrailEq]
    simp [hc, ih ht]

theorem padEq_append4 {u s : List Char} (h : u.length = 4) :
    padEq (u ++ s) = u ++ padEq s := by
  have hlen : ((u ++ s).length % 4) = s.length % 4 := by
    simp [List.length_append, h]
  rw [padEq, padEq, hlen, List.append_assoc]

theorem b64_roundTrip_aux :
    ∀ (n : Nat) (bs : List Nat), bs.length ≤ n → (∀ b ∈ bs, b < 256) →
      decodeB64 (padEq ((stripTrailEq ((encodeB64 bs).map urlSafeCh)).map unUrlCh)) = bs := by
  intro n
  induction n with
  | zero =>
    intro bs hlen _
    have : bs = [] := List.length_eq_zero.mp (Nat.le_zero.mp hlen)
    subst this
    decide
  | succ n ih =>
    intro bs hlen hb
    match bs with
    | [] => decide
    | [a] =>
      have ha : a < 256 := hb a (by simp)
      have h1 : a / 4 < 64 := by omega
      have h2 : (a % 4) * 16 < 64 := by omega
      have hu1 := unUrl_urlSafe_b64Ch _ h1
      have hu2 := unUrl_urlSafe_b64Ch _ h2
      have hn1 := urlSafe_b64Ch_ne_eq _ h1
      have hn2 := urlSafe_b64Ch_ne_eq _ h2
      have hv1 := b64Val_b64Ch _ h1
      have hv2 := b64Val_b64Ch _ h2
      show decodeB64 (padEq ((stripTrailEq
        [urlSafeCh (b64Ch (a / 4)), urlSafeCh (b64Ch ((a % 4) * 16)),
         urlSafeCh '=', urlSafeCh '=']).map unUrlCh)) = [a]
      rw [show urlSafeCh '=' = '=' from rfl]
      rw [show stripTrailEq [urlSafeCh (b64Ch (a / 4)), urlSafeCh (b64Ch ((a % 4) * 16)), '=', '='] =
          [urlSafeCh (b64Ch (a / 4)), urlSafeCh (b64Ch ((a % 4) * 16))] from by
        simp [stripTrailEq, hn1, hn2]]
      rw [show ([urlSafeCh (b64Ch (a / 4)), urlSafeCh (b64Ch ((a % 4) * 16))]).map unUrlCh =
          [b64Ch (a / 4), b64Ch ((a % 4) * 16)] from by simp [hu1, hu2]]
      rw [show padEq [b64Ch (a / 4), b64Ch ((a % 4) * 16)] =
          [b64Ch (a / 4), b64Ch ((a % 4) * 16), '=', '='] from by
        rw [padEq]; rfl]
      rw [decodeB64, if_pos rfl, hv1, hv2]
      have : a / 4 * 4 + (a % 4) * 16 / 16 = a := by omega
      rw [this]
    | [a, b] =>
      have ha : a < 256 := hb a (by simp)
      have hbb : b < 256 := hb b (by simp)
      have h1 : a / 4 < 64 := by omega
      have h2 : (a % 4) * 16 + b / 16 < 64 := by omega
      have h3 : (b % 16) * 4 < 64 := by omega
      have hu1 := unUrl_urlSafe_b64Ch _ h1
      have hu2 := unUrl_urlSafe_b64Ch _ h2
      have hu3 := unUrl_urlSafe_b64Ch _ h3
      have hn1 := urlSafe_b64Ch_ne_eq _ h1
      have hn2 := urlSafe_b64Ch_ne_eq _ h2
      have hn3 := urlSafe_b64Ch_ne_eq _ h3
      have hv1 := b64Val_b64Ch _ h1
      have hv2 := b64Val_b64Ch _ h2
      have hv3 := b64Val_b64Ch _ h3
      have hq3 := b64Ch_ne_eq _ h3
      show decodeB64 (padEq ((stripTrailEq
        [urlSafeCh (b64Ch (a / 4)), urlSafeCh (b64Ch ((a % 4) * 16 + b / 16)),
         urlSafeCh (b64Ch ((b % 16) * 4)), urlSafeCh '=']).map unUrlCh)) = [a, b]
      rw [show urlSafeCh '=' = '=' from rfl]
      rw [show stripTrailEq [urlSafeCh (b64Ch (a / 4)), urlSafeCh (b64Ch ((a % 4) * 16 + b / 16)),
          urlSafeCh (b64Ch ((b % 16) * 4)), '='] =
          [urlSafeCh (b64Ch (a / 4)), urlSafeCh (b64Ch ((a % 4) * 16 + b / 16)),
           urlSafeCh (b64Ch ((b % 16) * 4))] from by
        simp [stripTrailEq, hn1, hn2, hn3]]
      rw [show ([urlSafeCh (b64Ch (a / 4)), urlSafeCh (b64Ch ((a % 4) * 16 + b / 16)),
          urlSafeCh (b64Ch ((b % 16) * 4))]).map unUrlCh =
          [b64Ch (a / 4), b64Ch ((a % 4) * 16 + b / 16), b64Ch ((b % 16) * 4)] from by
        simp [hu1, hu2, hu3]]
      rw [show padEq [b64Ch (a / 4), b64Ch ((a % 4) * 16 + b / 16), b64Ch ((b % 16) * 4)] =
          [b64Ch (a / 4), b64Ch ((a % 4) * 16 + b / 16), b64Ch ((b % 16) * 4), '='] from by
        rw [padEq]; rfl]
      rw [decodeB64, if_neg hq3, if_pos rfl, hv1, hv2, hv3]
      have e1 : a / 4 * 4 + ((a % 4) * 16 + b / 16) / 16 = a := by omega
      have e2 : ((a % 4) * 16 + b / 16) % 16 * 16 + (b % 16) * 4 / 4 = b := by omega
      rw [e1, e2]
    | a :: b :: c :: rest =>
      have ha : a < 256 := hb a (by simp)
      have hbb : b < 256 := hb b (by simp)
      have hc : c < 256 := hb c (by simp)
      have hrest : ∀ x ∈ rest, x < 256 := fun x hx => hb x (by simp [hx])
      have hrlen : rest.length ≤ n := by
        simp only [List.length_cons] at hlen
        omega
      have h1 : a / 4 < 64 := by omega
      have h2 : (a % 4) * 16 + b / 16 < 64 := by omega
      have h3 : (b % 16) * 4 + c / 64 < 64 := by omega
      have h4 : c % 64 < 64 := by omega
      have hu1 := unUrl_urlSafe_b64Ch _ h1
      have hu2 := unUrl_urlSafe_b64Ch _ h2
      have hu3 := unUrl_urlSafe_b64Ch _ h3
      have hu4 := unUrl_urlSafe_b64Ch _ h4
      have hn1 := urlSafe_b64Ch_ne_eq _ h1
      have hn2 := urlSafe_b64Ch_ne_eq _ h2
      have hn3 := urlSafe_b64Ch_ne_eq _ h3
      have hn4 := urlSafe_b64Ch_ne_eq _ h4
      have hv1 := b64Val_b64Ch _ h1
      have hv2 := b64Val_b64Ch _ h2
      have hv3 := b64Val_b64Ch _ h3
      have hv4 := b64Val_b64Ch _ h4
      have hq3 := b64Ch_ne_eq _ h3
      have hq4 := b64Ch_ne_eq _ h4
      show decodeB64 (padEq ((stripTrailEq
        (([b64Ch (a / 4), b64Ch ((a % 4) * 16 + b / 16), b64Ch ((b % 16) * 4 + c / 64),
           b64Ch (c % 64)] ++ encodeB64 rest).map urlSafeCh)).map unUrlCh)) = a :: b :: c :: rest
      rw [List.map_append, stripTrailEq_append (by
        intro x hx
        simp only [List.map_cons, List.map_nil, List.mem_cons, List.not_mem_nil, or_false] at hx
        rcases hx with rfl | rfl | rfl | rfl
        · exact hn1
        · exact hn2
        · exact hn3
        · exact hn4)]
      rw [List.map_append, padEq_append4 (by simp)]
      rw [show ([b64Ch (a / 4), b64Ch ((a % 4) * 16 + b / 16), b64Ch ((b % 16) * 4 + c / 64),
          b64Ch (c % 64)].map urlSafeCh).map unUrlCh =
          [b64Ch (a / 4), b64Ch ((a % 4) * 16 + b / 16), b64Ch ((b % 16) * 4 + c / 64),
           b64Ch (c % 64)] from by simp [hu1, hu2, hu3, hu4]]
      rw [List.cons_append, List.cons_append, List.cons_append, List.cons_append,
        List.nil_append, decodeB64, if_neg hq3, if_neg hq4, hv1, hv2, hv3, hv4]
      have e1 : a / 4 * 4 + ((a % 4) * 16 + b / 16) / 16 = a := by omega
      have e2 : ((a % 4) * 16 + b / 16) % 16 * 16 + ((b % 16) * 4 + c / 64) / 4 = b := by omega
      have e3 : ((b % 16) * 4 + c / 64) % 4 * 64 + c % 64 = c := by omega
      rw [e1, e2, e3, ih rest hrlen hrest]

/-- Claim C6: deflating, base64-encoding and applying the URL-safe
transformation (`encodeDiagramSource`), then reversing the transformation and
inflating, reproduces the original diagram source byte-exactly.  `deflate`
and `inflate` model `zlib.deflateSync`/`inflateSync`, external functions
assumed to satisfy the zlib contract (mutually inverse, byte-valued). -/
theorem c6_encode_decode_roundtrip :
    ∀ (deflate inflate : List Nat → List Nat),
      (∀ bs, (∀ b ∈ bs, b < 256) → inflate (deflate bs) = bs) →
      (∀ bs, (∀ b ∈ bs, b < 256) → ∀ b ∈ deflate bs, b < 256) →
      ∀ (src : List Nat), (∀ b ∈ src, b < 256) →
        decodeDiagramSource inflate (encodeDiagramSource deflate src) = src := by
  intro deflate inflate hinv hrange src hsrc
  rw [decodeDiagramSource, encodeDiagramSource]
  rw [b64_roundTrip_aux (deflate src).length (deflate src) (Nat.le_refl _) (hrange src hsrc)]
  exact hinv src hsrc

/-- Witness for C6: the identity satisfies the zlib contract; the round trip
is checked on the bytes of "hi". -/
theorem c6_encode_decode_roundtrip_witness :
    decodeDiagramSource (fun bs => bs) (encodeDiagramSource (fun bs => bs) [104, 105]) =
      [104, 105] :=
  c6_encode_decode_roundtrip (fun bs => bs) (fun bs => bs)
    (fun _ _ => rfl) (fun _ h => h) [104, 105] (by decide)

/-! ### Character-class facts for the sanitizer proofs -/

theorem ws_cases {c : Char} (h : isWs c = true) :
    c = ' ' ∨ c = '\t' ∨ c = '\n' ∨ c = '\r' ∨ c = '\x0b' ∨ c = '\x0c' := by
  simp [isWs] at h
  tauto

theorem closer001_cases {c : Char} (h : isCloser001 c = true) :
    c = closeBr ∨ c = ']' ∨ c = ')' := by
  simp [isCloser001] at h
  tauto

theorem opener_cases {c : Char} (h : isOpener c = true) :
    c = '[' ∨ c = '\x7b' ∨ c = '(' := by
  simp [isOpener] at h
  tauto

theorem wordChar_not_ws {c : Char} (h : isWordChar c = true) : isWs c = false := by
  by_contra hne
  have hws : isWs c = true := by
    cases hb : isWs c
    · exact absurd hb hne
    · rfl
  rcases ws_cases hws with rfl | rfl | rfl | rfl | rfl | rfl <;> simp [isWordChar] at h

theorem wordStart_wordChar {c : Char} (h : isWordStart c = true) : isWordChar c = true := by
  simp only [isWordStart, Bool.or_eq_true, Bool.and_eq_true, decide_eq_true_eq] at h
  simp only [isWordChar, Bool.or_eq_true, Bool.and_eq_true, decide_eq_true_eq]
  tauto

theorem opener_not_word {c : Char} (h : isOpener c = true) : isWordChar c = false := by
  rcases opener_cases h with rfl | rfl | rfl <;> decide

theorem opener_not_ws {c : Char} (h : isOpener c = true) : isWs c = false := by
  rcases opener_cases h with rfl | rfl | rfl <;> decide

theorem opener_not_closer001 {c : Char} (h : isOpener c = true) : isCloser001 c = false := by
  rcases opener_cases h with rfl | rfl | rfl <;> decide

theorem closer001_not_ws {c : Char} (h : isCloser001 c = true) : isWs c = false := by
  rcases closer001_cases h with rfl | rfl | rfl <;> decide

theorem closer001_not_word {c : Char} (h : isCloser001 c = true) : isWordChar c = false := by
  rcases closer001_cases h with rfl | rfl | rfl <;> decide

theorem ws_not_closer001 {c : Char} (h : isWs c = true) : isCloser001 c = false := by
  rcases ws_cases h with rfl | rfl | rfl | rfl | rfl | rfl <;> decide

theorem wordChar_not_closer001 {c : Char} (h : isWordChar c = true) : isCloser001 c = false := by
  cases hb : isCloser001 c
  · rfl
  · rw [closer001_not_word hb] at h
    exact absurd h (by simp)

/-! ### `takeWhile`/`dropWhile` helpers -/

theorem mem_takeWhile_sat {α : Type} {p : α → Bool} :
    ∀ {l : List α} {a : α}, a ∈ l.takeWhile p → p a = true := by
  intro l
  induction l with
  | nil => intro a h; simp [List.takeWhile] at h
  | cons c t ih =>
    intro a h
    rw [List.takeWhile] at h
    cases hc : p c
    · rw [hc] at h; simp at h
    · rw [hc] at h
      rcases List.mem_cons.mp h with rfl | hmem
      · exact hc
      · exact ih hmem

theorem takeWhile_append_all {α : Type} {p : α → Bool} :
    ∀ {u v : List α}, (∀ c ∈ u, p c = true) → (u ++ v).takeWhile p = u ++ v.takeWhile p := by
  intro u
  induction u with
  | nil => intro v _; rfl
  | cons c t ih =>
    intro v h
    simp [List.takeWhile_cons, h c (List.mem_cons_self _ _),
      ih (fun x hx => h x (List.mem_cons_of_mem _ hx))]

theorem dropWhile_append_all {α : Type} {p : α → Bool} :
    ∀ {u v : List α}, (∀ c ∈ u, p c = true) → (u ++ v).dropWhile p = v.dropWhile p := by
  intro u
  induction u with
  | nil => intro v _; rfl
  | cons c t ih =>
    intro v h
    simp [List.dropWhile_cons, h c (List.mem_cons_self _ _),
      ih (fun x hx => h x (List.mem_cons_of_mem _ hx))]

theorem takeWhile_append_stop {α : Type} {p : α → Bool} {u : List α} {x : α} {v : List α}
    (hu : ∀ c ∈ u, p c = true) (hx : p x = false) :
    (u ++ x :: v).takeWhile p = u := by
  rw [takeWhile_append_all hu]
  simp [List.takeWhile_cons, hx]

theorem dropWhile_append_stop {α : Type} {p : α → Bool} {u : List α} {x : α} {v : List α}
    (hu : ∀ c ∈ u, p c = true) (hx : p x = false) :
    (u ++ x :: v).dropWhile p = x :: v := by
  rw [dropWhile_append_all hu]
  simp [List.dropWhile_cons, hx]

/-! ### Structure of `tryNodeAt` -/

theorem tryNodeAt_some_split {t node r3 : List Char}
    (h : tryNodeAt t = some (node, r3)) :
    ∃ W I o, t = W ++ (I ++ (o :: [])) ++ r3 ∧ node = I ++ (o :: []) ∧
      W = t.takeWhile isWs ∧ 2 ≤ W.length ∧ (∀ c ∈ W, isWs c = true) ∧
      (∃ d I2, I = d :: I2 ∧ isWordStart d = true) ∧
      (∀ c ∈ I, isWordChar c = true) ∧ isOpener o = true ∧ isWordChar o = false := by
  rw [tryNodeAt] at h
  split at h
  case isFalse => exact absurd h (by simp)
  case isTrue hW =>
    split at h
    case h_2 => exact absurd h (by simp)
    case h_1 d R hdrop =>
      split at h
      case isFalse => exact absurd h (by simp)
      case isTrue hstart =>
        split at h
        case h_2 => exact absurd h (by simp)
        case h_1 o r3w hdw =>
          split at h
          case isFalse => exact absurd h (by simp)
          case isTrue hop =>
            simp only [Option.some.injEq, Prod.mk.injEq] at h
            obtain ⟨hnode, hr3⟩ := h
            subst hnode hr3
            refine ⟨t.takeWhile isWs, (t.dropWhile isWs).takeWhile isWordChar, o,
              ?_, rfl, rfl, hW, fun c hc => mem_takeWhile_sat hc, ?_, ?_, hop, ?_⟩
            · conv_lhs => rw [← List.takeWhile_append_dropWhile (p := isWs) (l := t)]
              have hsplit2 : t.dropWhile isWs =
                  (t.dropWhile isWs).takeWhile isWordChar ++ (o :: r3w) := by
                conv_lhs => rw [← List.takeWhile_append_dropWhile
                  (p := isWordChar) (l := t.dropWhile isWs)]
                rw [hdw]
              conv_lhs => rw [hsplit2]
              simp
            · refine ⟨d, ((t.dropWhile isWs).takeWhile isWordChar).tail, ?_, hstart⟩
              rw [hdrop]
              simp [List.takeWhile_cons, wordStart_wordChar hstart]
            · exact fun c hc => mem_takeWhile_sat hc
            · exact dropWhile_head_false hdw

theorem tryNodeAt_none_cases {t : List Char} (h : tryNodeAt t = none) :
    (t.takeWhile isWs).length < 2 ∨
    (2 ≤ (t.takeWhile isWs).length ∧ t.dropWhile isWs = []) ∨
    (∃ d R, t.dropWhile isWs = d :: R ∧ isWordStart d = false) ∨
    (∃ d R, t.dropWhile isWs = d :: R ∧ isWordStart d = true ∧
      (t.dropWhile isWs).dropWhile isWordChar = []) ∨
    (∃ d R o r3, t.dropWhile isWs = d :: R ∧ isWordStart d = true ∧
      (t.dropWhile isWs).dropWhile isWordChar = o :: r3 ∧ isOpener o = false) := by
  rw [tryNodeAt] at h
  split at h
  case isFalse hW => left; omega
  case isTrue hW =>
    split at h
    case h_2 hnil => exact Or.inr (Or.inl ⟨hW, hnil⟩)
    case h_1 d R hdrop =>
      split at h
      case isFalse hstart =>
        refine Or.inr (Or.inr (Or.inl ⟨d, R, hdrop, ?_⟩))
        cases hb : isWordStart d
        · rfl
        · exact absurd hb hstart
      case isTrue hstart =>
        split at h
        case h_2 hnil2 => exact Or.inr (Or.inr (Or.inr (Or.inl ⟨d, R, hdrop, hstart, hnil2⟩)))
        case h_1 o r3w hdw =>
          split at h
          case isTrue => exact absurd h (by simp)
          case isFalse hop =>
            refine Or.inr (Or.inr (Or.inr (Or.inr ⟨d, R, o, r3w, hdrop, hstart, hdw, ?_⟩)))
            cases hb : isOpener o
            · rfl
            · exact absurd hb hop

/-! ### `scanRepl` unfolding and distribution lemmas -/

theorem scanRepl_nil {isCl : Char → Bool} {fuel : Nat} : scanRepl isCl fuel [] = [] := by
  cases fuel <;> rfl

theorem scanRepl_succ (isCl : Char → Bool) (fuel : Nat) (c : Char) (t : List Char) :
    scanRepl isCl (fuel + 1) (c :: t) =
      (if isCl c then
        match tryNodeAt t with
        | some (node, r3) =>
          c :: '\n' :: ' ' :: ' ' :: ' ' :: ' ' :: (node ++ scanRepl isCl fuel r3)
        | none => c :: scanRepl isCl fuel t
      else c :: scanRepl isCl fuel t) := rfl

theorem scanRepl_cons_notCl {isCl : Char → Bool} {fuel : Nat} {c : Char} {t : List Char}
    (h : isCl c = false) :
    scanRepl isCl (fuel + 1) (c :: t) = c :: scanRepl isCl fuel t := by
  rw [scanRepl_succ, h]
  rfl

theorem scanRepl_cons_match {isCl : Char → Bool} {fuel : Nat} {c : Char} {t node r3 : List Char}
    (hc : isCl c = true) (hm : tryNodeAt t = some (node, r3)) :
    scanRepl isCl (fuel + 1) (c :: t) =
      c :: '\n' :: ' ' :: ' ' :: ' ' :: ' ' :: (node ++ scanRepl isCl fuel r3) := by
  rw [scanRepl_succ, hc, hm]
  simp

theorem scanRepl_cons_none {isCl : Char → Bool} {fuel : Nat} {c : Char} {t : List Char}
    (hc : isCl c = true) (hm : tryNodeAt t = none) :
    scanRepl isCl (fuel + 1) (c :: t) = c :: scanRepl isCl fuel t := by
  rw [scanRepl_succ, hc, hm]
  simp

theorem scanRepl_cons_head (isCl : Char → Bool) (fuel : Nat) (c : Char) (t : List Char) :
    ∃ z, scanRepl isCl (fuel + 1) (c :: t) = c :: z := by
  by_cases hc : isCl c = true
  · cases hm : tryNodeAt t with
    | some v =>
      obtain ⟨node, r3⟩ := v
      exact ⟨_, scanRepl_cons_match hc hm⟩
    | none => exact ⟨_, scanRepl_cons_none hc hm⟩
  · exact ⟨_, scanRepl_cons_notCl (by simpa using hc)⟩

theorem tryNodeAt_some_shrink {t node r3 : List Char}
    (h : tryNodeAt t = some (node, r3)) : r3.length + 3 ≤ t.length := by
  obtain ⟨W, I, o, hsplit, -, -, hW, -, ⟨d, I2, hI, -⟩, -, -, -⟩ := tryNodeAt_some_split h
  have := congrArg List.length hsplit
  simp [hI] at this
  omega

theorem scanRepl_fuel_irrel {isCl : Char → Bool} :
    ∀ (f1 : Nat) (s : List Char) (f2 : Nat), s.length ≤ f1 → s.length ≤ f2 →
      scanRepl isCl f1 s = scanRepl isCl f2 s := by
  intro f1
  induction f1 with
  | zero =>
    intro s f2 h1 _
    have : s = [] := List.length_eq_zero.mp (Nat.le_zero.mp h1)
    subst this
    rw [scanRepl_nil, scanRepl_nil]
  | succ f1 ih =>
    intro s f2 h1 h2
    cases s with
    | nil => rw [scanRepl_nil, scanRepl_nil]
    | cons c t =>
      cases f2 with
      | zero => simp at h2
      | succ f2 =>
        have ht1 : t.length ≤ f1 := by simp at h1; omega
        have ht2 : t.length ≤ f2 := by simp at h2; omega
        by_cases hc : isCl c = true
        · cases hm : tryNodeAt t with
          | some v =>
            obtain ⟨node, r3⟩ := v
            have hr := tryNodeAt_some_shrink hm
            have hir := ih r3 f2 (by omega) (by omega)
            rw [scanRepl_cons_match hc hm, scanRepl_cons_match hc hm, hir]
          | none =>
            rw [scanRepl_cons_none hc hm, scanRepl_cons_none hc hm, ih t f2 ht1 ht2]
        · have hcf : isCl c = false := by simpa using hc
          rw [scanRepl_cons_notCl hcf, scanRepl_cons_notCl hcf, ih t f2 ht1 ht2]

theorem scanRepl_append_nonCl {isCl : Char → Bool} :
    ∀ (u v : List Char) (fuel : Nat), (∀ c ∈ u, isCl c = false) →
      scanRepl isCl (u.length + fuel) (u ++ v) = u ++ scanRepl isCl fuel v := by
  intro u
  induction u with
  | nil => intro v fuel _; simp
  | cons c t ih =>
    intro v fuel h
    have harith : (c :: t).length + fuel = (t.length + fuel) + 1 := by simp; omega
    rw [harith, List.cons_append, scanRepl_cons_notCl (h c (List.mem_cons_self _ _)),
      ih v fuel (fun x hx => h x (List.mem_cons_of_mem _ hx))]
    rfl

theorem scanRepl_all_nonCl {isCl : Char → Bool} {t : List Char} {fuel : Nat}
    (h : ∀ c ∈ t, isCl c = false) (hf : t.length ≤ fuel) :
    scanRepl isCl fuel t = t := by
  have h1 : scanRepl isCl (t.length + (fuel - t.length)) (t ++ []) =
      t ++ scanRepl isCl (fuel - t.length) [] := scanRepl_append_nonCl t [] (fuel - t.length) h
  rw [List.append_nil, scanRepl_nil, List.append_nil] at h1
  conv_rhs => rw [← h1]
  exact scanRepl_fuel_irrel fuel t (t.length + (fuel - t.length)) hf (by omega)

theorem takeWhile_len_le {α : Type} (p : α → Bool) :
    ∀ (l : List α), (l.takeWhile p).length ≤ l.length := by
  intro l
  induction l with
  | nil => simp
  | cons c t ih =>
    rw [List.takeWhile_cons]
    cases p c
    · simp
    · simpa using ih

theorem takeWhile_all {α : Type} {p : α → Bool} :
    ∀ {u : List α}, (∀ c ∈ u, p c = true) → u.takeWhile p = u := by
  intro u
  induction u with
  | nil => intro _; rfl
  | cons c t ih =>
    intro h
    rw [List.takeWhile_cons, h c (List.mem_cons_self _ _)]
    simp [ih (fun x hx => h x (List.mem_cons_of_mem _ hx))]

theorem dropWhile_all {α : Type} {p : α → Bool} :
    ∀ {u : List α}, (∀ c ∈ u, p c = true) → u.dropWhile p = [] := by
  intro u
  induction u with
  | nil => intro _; rfl
  | cons c t ih =>
    intro h
    rw [List.dropWhile_cons, h c (List.mem_cons_self _ _)]
    simp [ih (fun x hx => h x (List.mem_cons_of_mem _ hx))]

theorem scanRepl_ws_decomp {isCl : Char → Bool}
    (hClWs : ∀ c, isCl c = true → isWs c = false) (fuel : Nat) (t : List Char)
    (hf : t.length ≤ fuel) :
    scanRepl isCl fuel t =
        t.takeWhile isWs ++ scanRepl isCl (fuel - (t.takeWhile isWs).length) (t.dropWhile isWs) ∧
    (scanRepl isCl fuel t).takeWhile isWs = t.takeWhile isWs ∧
    (scanRepl isCl fuel t).dropWhile isWs =
      scanRepl isCl (fuel - (t.takeWhile isWs).length) (t.dropWhile isWs) := by
  have hWnc : ∀ c ∈ t.takeWhile isWs, isCl c = false := by
    intro c hc
    have hws := mem_takeWhile_sat hc
    cases hb : isCl c
    · rfl
    · rw [hClWs c hb] at hws
      exact absurd hws (by simp)
  have hWlen : (t.takeWhile isWs).length ≤ t.length := takeWhile_len_le isWs t
  have hmain : scanRepl isCl fuel t =
      t.takeWhile isWs ++ scanRepl isCl (fuel - (t.takeWhile isWs).length) (t.dropWhile isWs) := by
    conv_lhs => rw [← List.takeWhile_append_dropWhile (p := isWs) (l := t)]
    rw [← scanRepl_append_nonCl _ _ _ hWnc]
    apply scanRepl_fuel_irrel
    · rw [List.takeWhile_append_dropWhile]
      exact hf
    · rw [List.takeWhile_append_dropWhile]
      have := List.length_append (t.takeWhile isWs) (t.dropWhile isWs)
      rw [List.takeWhile_append_dropWhile] at this
      omega
  refine ⟨hmain, ?_, ?_⟩
  · rw [hmain]
    cases hdrop : t.dropWhile isWs with
    | nil =>
      rw [scanRepl_nil, List.append_nil]
      exact takeWhile_all (fun c hc => mem_takeWhile_sat hc)
    | cons d R =>
      have hd : isWs d = false := dropWhile_head_false hdrop
      have hfd : 1 ≤ fuel - (t.takeWhile isWs).length := by
        have hlt := congrArg List.length (List.takeWhile_append_dropWhile (p := isWs) (l := t))
        rw [hdrop] at hlt
        simp at hlt
        omega
      obtain ⟨f2, hf2⟩ : ∃ f2, fuel - (t.takeWhile isWs).length = f2 + 1 :=
        ⟨fuel - (t.takeWhile isWs).length - 1, by omega⟩
      rw [hf2]
      obtain ⟨z, hz⟩ := scanRepl_cons_head isCl f2 d R
      rw [hz]
      exact takeWhile_append_stop (fun c hc => mem_takeWhile_sat hc) hd
  · rw [hmain]
    cases hdrop : t.dropWhile isWs with
    | nil =>
      rw [scanRepl_nil, List.append_nil]
      exact dropWhile_all (fun c hc => mem_takeWhile_sat hc)
    | cons d R =>
      have hd : isWs d = false := dropWhile_head_false hdrop
      have hfd : 1 ≤ fuel - (t.takeWhile isWs).length := by
        have hlt := congrArg List.length (List.takeWhile_append_dropWhile (p := isWs) (l := t))
        rw [hdrop] at hlt
        simp at hlt
        omega
      obtain ⟨f2, hf2⟩ : ∃ f2, fuel - (t.takeWhile isWs).length = f2 + 1 :=
        ⟨fuel - (t.takeWhile isWs).length - 1, by omega⟩
      rw [hf2]
      obtain ⟨z, hz⟩ := scanRepl_cons_head isCl f2 d R
      rw [hz]
      rw [dropWhile_append_stop (p := isWs) (u := t.takeWhile isWs) (x := d) (v := z)
        (fun c hc => mem_takeWhile_sat hc) hd, ← hz]

theorem tryNodeAt_short {s : List Char} (h : (s.takeWhile isWs).length < 2) :
    tryNodeAt s = none := by
  rw [tryNodeAt, if_neg (by omega)]

theorem tryNodeAt_dropWhile_nil {s : List Char} (h : s.dropWhile isWs = []) :
    tryNodeAt s = none := by
  rw [tryNodeAt, h]
  split <;> rfl

theorem tryNodeAt_head_notStart {s : List Char} {d : Char} {z : List Char}
    (h : s.dropWhile isWs = d :: z) (hd : isWordStart d = false) :
    tryNodeAt s = none := by
  rw [tryNodeAt, h]
  split
  · simp [hd]
  · rfl

theorem tryNodeAt_stop_not_opener {s : List Char} {I : List Char} {o : Char} {z : List Char}
    (hdw : s.dropWhile isWs = I ++ o :: z) (hI : ∀ c ∈ I, isWordChar c = true)
    (how : isWordChar o = false) (hop : isOpener o = false) :
    tryNodeAt s = none := by
  cases I with
  | nil =>
    have hos : isWordStart o = false := by
      cases hb : isWordStart o
      · rfl
      · rw [wordStart_wordChar hb] at how
        exact absurd how (by simp)
    exact tryNodeAt_head_notStart (by simpa using hdw) hos
  | cons d I2 =>
    by_cases hds : isWordStart d = true
    · have hdw2 : s.dropWhile isWs = d :: (I2 ++ o :: z) := by simpa using hdw
      have hinner : (d :: (I2 ++ o :: z)).dropWhile isWordChar = o :: z := by
        have hsh : d :: (I2 ++ o :: z) = (d :: I2) ++ o :: z := rfl
        rw [hsh, dropWhile_append_stop hI how]
      rw [tryNodeAt, hdw2]
      split
      · simp [hds, hinner, hop]
      · rfl
    · exact tryNodeAt_head_notStart (by simpa using hdw)
        (by cases hb : isWordStart d; rfl; exact absurd hb hds)

theorem tryNodeAt_norm {d : Char} {I2 : List Char} {o : Char} {w : List Char}
    (hword : ∀ c ∈ d :: I2, isWordChar c = true)
    (hd : isWordStart d = true)
    (how : isWordChar o = false) (ho : isOpener o = true) :
    tryNodeAt ('\n' :: ' ' :: ' ' :: ' ' :: ' ' :: (((d :: I2) ++ (o :: [])) ++ w)) =
      some ((d :: I2) ++ (o :: []), w) := by
  have hws5 : ∀ c ∈ ('\n' :: ' ' :: ' ' :: ' ' :: ' ' :: ([] : List Char)), isWs c = true := by
    decide
  have hdnws : isWs d = false := wordChar_not_ws (hword d (List.mem_cons_self _ _))
  have hshape : ('\n' :: ' ' :: ' ' :: ' ' :: ' ' :: (((d :: I2) ++ (o :: [])) ++ w)) =
      ('\n' :: ' ' :: ' ' :: ' ' :: ' ' :: []) ++ ((d :: I2) ++ (o :: w)) := by simp
  have hsh2 : (d :: I2) ++ (o :: w) = d :: (I2 ++ (o :: w)) := rfl
  have htw : ('\n' :: ' ' :: ' ' :: ' ' :: ' ' :: (((d :: I2) ++ (o :: [])) ++ w)).takeWhile isWs =
      '\n' :: ' ' :: ' ' :: ' ' :: ' ' :: [] := by
    rw [hshape, hsh2, takeWhile_append_stop hws5 hdnws]
  have hdwfull : ('\n' :: ' ' :: ' ' :: ' ' :: ' ' :: (((d :: I2) ++ (o :: [])) ++ w)).dropWhile isWs =
      (d :: I2) ++ (o :: w) := by
    rw [hshape, hsh2, dropWhile_append_stop hws5 hdnws]
  have hinner : ((d :: I2) ++ (o :: w)).dropWhile isWordChar = o :: w :=
    dropWhile_append_stop hword how
  have hinner2 : ((d :: I2) ++ (o :: w)).takeWhile isWordChar = d :: I2 :=
    takeWhile_append_stop hword how
  rw [tryNodeAt, htw, hdwfull, if_pos (by simp)]
  rw [hsh2] at hinner hinner2
  simp [hd, hinner, hinner2, ho]

theorem closer001_not_ws_fn : ∀ c, isCloser001 c = true → isWs c = false :=
  fun _ h => closer001_not_ws h

theorem tryNodeAt_none_stable :
    ∀ {t : List Char} {fuel : Nat}, t.length ≤ fuel → tryNodeAt t = none →
      tryNodeAt (scanRepl isCloser001 fuel t) = none := by
  intro t fuel hf h
  obtain ⟨hmain, htw, hdw⟩ := scanRepl_ws_decomp closer001_not_ws_fn fuel t hf
  have hlsplit := congrArg List.length (List.takeWhile_append_dropWhile (p := isWs) (l := t))
  rw [List.length_append] at hlsplit
  rcases tryNodeAt_none_cases h with h1 | ⟨h2a, h2b⟩ | ⟨d, R, h3a, h3b⟩ |
    ⟨d, R, h4a, h4b, h4c⟩ | ⟨d, R, o, r3, h5a, h5b, h5c, h5d⟩
  · exact tryNodeAt_short (by rw [htw]; exact h1)
  · apply tryNodeAt_dropWhile_nil
    rw [hdw, h2b, scanRepl_nil]
  · have hfd : 1 ≤ fuel - (t.takeWhile isWs).length := by
      rw [h3a] at hlsplit
      simp at hlsplit
      omega
    obtain ⟨f2, hf2⟩ : ∃ f2, fuel - (t.takeWhile isWs).length = f2 + 1 :=
      ⟨fuel - (t.takeWhile isWs).length - 1, by omega⟩
    obtain ⟨z, hz⟩ := scanRepl_cons_head isCloser001 f2 d R
    have hkey : (scanRepl isCloser001 fuel t).dropWhile isWs = d :: z := by
      rw [hdw, h3a, hf2, hz]
    exact tryNodeAt_head_notStart hkey h3b
  · have hself : t.dropWhile isWs = (t.dropWhile isWs).takeWhile isWordChar := by
      conv_lhs => rw [← List.takeWhile_append_dropWhile (p := isWordChar) (l := t.dropWhile isWs)]
      rw [h4c, List.append_nil]
    have hall : ∀ c ∈ t.dropWhile isWs, isWordChar c = true := by
      intro c hc
      rw [hself] at hc
      exact mem_takeWhile_sat hc
    have hlen2 : (t.dropWhile isWs).length ≤ fuel - (t.takeWhile isWs).length := by omega
    have hscan : scanRepl isCloser001 (fuel - (t.takeWhile isWs).length) (t.dropWhile isWs) =
        t.dropWhile isWs :=
      scanRepl_all_nonCl (fun c hc => wordChar_not_closer001 (hall c hc)) hlen2
    have hfix : scanRepl isCloser001 fuel t = t := by
      rw [hmain, hscan, List.takeWhile_append_dropWhile]
    rw [hfix]
    exact h
  · have hIdef : t.dropWhile isWs = (t.dropWhile isWs).takeWhile isWordChar ++ (o :: r3) := by
      conv_lhs => rw [← List.takeWhile_append_dropWhile (p := isWordChar) (l := t.dropWhile isWs)]
      rw [h5c]
    have hIword : ∀ c ∈ (t.dropWhile isWs).takeWhile isWordChar, isWordChar c = true :=
      fun c hc => mem_takeWhile_sat hc
    have hInc : ∀ c ∈ (t.dropWhile isWs).takeWhile isWordChar, isCloser001 c = false :=
      fun c hc => wordChar_not_closer001 (hIword c hc)
    have hIlen := congrArg List.length hIdef
    rw [List.length_append, List.length_cons] at hIlen
    have hf2ge : ((t.dropWhile isWs).takeWhile isWordChar).length + 1 ≤
        fuel - (t.takeWhile isWs).length := by omega
    have harith : fuel - (t.takeWhile isWs).length =
        ((t.dropWhile isWs).takeWhile isWordChar).length +
          (fuel - (t.takeWhile isWs).length -
            ((t.dropWhile isWs).takeWhile isWordChar).length) := by omega
    obtain ⟨f3, hf3⟩ : ∃ f3, fuel - (t.takeWhile isWs).length -
        ((t.dropWhile isWs).takeWhile isWordChar).length = f3 + 1 :=
      ⟨fuel - (t.takeWhile isWs).length -
        ((t.dropWhile isWs).takeWhile isWordChar).length - 1, by omega⟩
    obtain ⟨z, hz⟩ := scanRepl_cons_head isCloser001 f3 o r3
    have hexp : scanRepl isCloser001 (fuel - (t.takeWhile isWs).length) (t.dropWhile isWs) =
        (t.dropWhile isWs).takeWhile isWordChar ++ (o :: z) := by
      conv_lhs => rw [hIdef]
      rw [harith, scanRepl_append_nonCl _ _ _ hInc, hf3, hz]
    have hkey : (scanRepl isCloser001 fuel t).dropWhile isWs =
        (t.dropWhile isWs).takeWhile isWordChar ++ (o :: z) := by
      rw [hdw, hexp]
    exact tryNodeAt_stop_not_opener hkey hIword (dropWhile_head_false h5c) h5d

/-- The normal-form invariant of the newline-repair output: after every
closer, a successful node match can only be through the normalized
`newline ++ four spaces` whitespace run. -/
def Good : List Char → Prop
  | [] => True
  | c :: t => (isCloser001 c = true → ∀ node r3, tryNodeAt t = some (node, r3) →
      t = '\n' :: ' ' :: ' ' :: ' ' :: ' ' :: (node ++ r3)) ∧ Good t

theorem good_cons_nonCl {c : Char} {t : List Char}
    (hc : isCloser001 c = false) (ht : Good t) : Good (c :: t) :=
  ⟨fun h => absurd h (by simp [hc]), ht⟩

theorem good_append_right : ∀ (u v : List Char), Good (u ++ v) → Good v := by
  intro u
  induction u with
  | nil => intro v h; exact h
  | cons c t ih => intro v h; exact ih v h.2

theorem good_append_front : ∀ {u v : List Char},
    (∀ c ∈ u, isCloser001 c = false) → Good v → Good (u ++ v) := by
  intro u
  induction u with
  | nil => intro v _ hv; exact hv
  | cons c t ih =>
    intro v h hv
    exact good_cons_nonCl (h c (List.mem_cons_self _ _))
      (ih (fun x hx => h x (List.mem_cons_of_mem _ hx)) hv)

theorem good_scanRepl : ∀ (fuel : Nat) (t : List Char), t.length ≤ fuel →
    Good (scanRepl isCloser001 fuel t) := by
  intro fuel
  induction fuel with
  | zero =>
    intro t hf
    have : t = [] := List.length_eq_zero.mp (Nat.le_zero.mp hf)
    subst this
    rw [scanRepl_nil]
    trivial
  | succ fuel ih =>
    intro t hf
    cases t with
    | nil => rw [scanRepl_nil]; trivial
    | cons c t2 =>
      have ht2 : t2.length ≤ fuel := by simp at hf; omega
      by_cases hc : isCloser001 c = true
      · cases hm : tryNodeAt t2 with
        | none =>
          rw [scanRepl_cons_none hc hm]
          refine ⟨fun _ node r3 hsome => ?_, ih t2 ht2⟩
          rw [tryNodeAt_none_stable ht2 hm] at hsome
          exact absurd hsome (by simp)
        | some v =>
          obtain ⟨node, r3⟩ := v
          rw [scanRepl_cons_match hc hm]
          obtain ⟨W, I, o, hsplit, hnode, hW, hW2, hWws, ⟨d, I2, hI, hds⟩, hIword, hop, how⟩ :=
            tryNodeAt_some_split hm
          have hr3len : r3.length ≤ fuel := by
            have := tryNodeAt_some_shrink hm
            omega
          have hnodeI : node = (d :: I2) ++ (o :: []) := by rw [hnode, hI]
          have hword2 : ∀ x ∈ d :: I2, isWordChar x = true := by
            rw [← hI]
            exact hIword
          constructor
          · intro _ node' r3' hsome
            rw [hnodeI] at hsome ⊢
            rw [show ((d :: I2) ++ (o :: [])) ++ scanRepl isCloser001 fuel r3 =
                ((d :: I2) ++ (o :: [])) ++ scanRepl isCloser001 fuel r3 from rfl] at hsome
            have hcomp := tryNodeAt_norm (w := scanRepl isCloser001 fuel r3) hword2 hds how hop
            rw [hcomp] at hsome
            simp only [Option.some.injEq, Prod.mk.injEq] at hsome
            obtain ⟨hn, hr⟩ := hsome
            rw [← hn, ← hr]
          · refine good_cons_nonCl (by decide) (good_cons_nonCl (by decide)
              (good_cons_nonCl (by decide) (good_cons_nonCl (by decide)
              (good_cons_nonCl (by decide) (good_append_front ?_ (ih r3 hr3len))))))
            intro x hx
            rw [hnode] at hx
            rcases List.mem_append.mp hx with hxi | hxo
            · exact wordChar_not_closer001 (hIword x hxi)
            · rcases List.mem_singleton.mp hxo with rfl
              exact opener_not_closer001 hop
      · have hcf : isCloser001 c = false := by simpa using hc
        rw [scanRepl_cons_notCl hcf]
        exact good_cons_nonCl hcf (ih t2 ht2)

theorem scanRepl_id_of_good : ∀ (fuel : Nat) (t : List Char), t.length ≤ fuel →
    Good t → scanRepl isCloser001 fuel t = t := by
  intro fuel
  induction fuel with
  | zero =>
    intro t hf _
    have : t = [] := List.length_eq_zero.mp (Nat.le_zero.mp hf)
    subst this
    rw [scanRepl_nil]
  | succ fuel ih =>
    intro t hf hg
    cases t with
    | nil => rw [scanRepl_nil]
    | cons c t2 =>
      have ht2 : t2.length ≤ fuel := by simp at hf; omega
      by_cases hc : isCloser001 c = true
      · cases hm : tryNodeAt t2 with
        | none => rw [scanRepl_cons_none hc hm, ih t2 ht2 hg.2]
        | some v =>
          obtain ⟨node, r3⟩ := v
          have heq := hg.1 hc node r3 hm
          have hr3g : Good r3 := by
            have : t2 = ('\n' :: ' ' :: ' ' :: ' ' :: ' ' :: node) ++ r3 := by
              rw [heq]; simp
            exact good_append_right _ _ (this ▸ hg.2)
          have hr3len : r3.length ≤ fuel := by
            have := tryNodeAt_some_shrink hm
            omega
          rw [scanRepl_cons_match hc hm, ih r3 hr3len hr3g, ← heq]
      · have hcf : isCloser001 c = false := by simpa using hc
        rw [scanRepl_cons_notCl hcf, ih t2 ht2 hg.2]

/-- A generalization of `tryNodeAt_norm`: any whitespace run of length at
least two followed by a node matches, consuming exactly that run. -/
theorem tryNodeAt_window {W : List Char} {d : Char} {I2 : List Char} {o : Char} {w : List Char}
    (hWws : ∀ c ∈ W, isWs c = true) (hW2 : 2 ≤ W.length)
    (hword : ∀ c ∈ d :: I2, isWordChar c = true)
    (hd : isWordStart d = true)
    (how : isWordChar o = false) (ho : isOpener o = true) :
    tryNodeAt (W ++ (((d :: I2) ++ (o :: [])) ++ w)) = some ((d :: I2) ++ (o :: []), w) := by
  have hdnws : isWs d = false := wordChar_not_ws (hword d (List.mem_cons_self _ _))
  have hshape : W ++ (((d :: I2) ++ (o :: [])) ++ w) = W ++ (d :: (I2 ++ (o :: w))) := by simp
  have hsh2 : (d :: I2) ++ (o :: w) = d :: (I2 ++ (o :: w)) := rfl
  have htw : (W ++ (((d :: I2) ++ (o :: [])) ++ w)).takeWhile isWs = W := by
    rw [hshape, takeWhile_append_stop hWws hdnws]
  have hdwfull : (W ++ (((d :: I2) ++ (o :: [])) ++ w)).dropWhile isWs =
      (d :: I2) ++ (o :: w) := by
    rw [hshape, dropWhile_append_stop hWws hdnws, hsh2]
  have hinner : ((d :: I2) ++ (o :: w)).dropWhile isWordChar = o :: w :=
    dropWhile_append_stop hword how
  have hinner2 : ((d :: I2) ++ (o :: w)).takeWhile isWordChar = d :: I2 :=
    takeWhile_append_stop hword how
  rw [tryNodeAt, htw, hdwfull, if_pos hW2]
  rw [hsh2] at hinner hinner2
  simp [hd, hinner, hinner2, ho]

/-- `SemiIns xs ys`: `ys` is `xs` with extra semicolons inserted anywhere. -/
inductive SemiIns : List Char → List Char → Prop
  | nil : SemiIns [] []
  | semi {xs ys : List Char} : SemiIns xs ys → SemiIns xs (';' :: ys)
  | cons {xs ys : List Char} (c : Char) : SemiIns xs ys → SemiIns (c :: xs) (c :: ys)

theorem semiIns_refl : ∀ (l : List Char), SemiIns l l := by
  intro l
  induction l with
  | nil => exact SemiIns.nil
  | cons c t ih => exact SemiIns.cons c ih

theorem semiIns_append_semi : ∀ (l : List Char), SemiIns l (l ++ (';' :: [])) := by
  intro l
  induction l with
  | nil => exact SemiIns.semi SemiIns.nil
  | cons c t ih => exact SemiIns.cons c ih

theorem semiIns_append : ∀ {a a' b b' : List Char},
    SemiIns a a' → SemiIns b b' → SemiIns (a ++ b) (a' ++ b') := by
  intro a a' b b' ha hb
  induction ha with
  | nil => exact hb
  | semi _ ih => exact SemiIns.semi ih
  | cons c _ ih => exact SemiIns.cons c ih

theorem semiIns_window : ∀ {w : List Char}, (';' ∉ w) →
    ∀ {xs ys r2 : List Char}, SemiIns xs ys → ys = w ++ r2 →
      ∃ r0, xs = w ++ r0 ∧ SemiIns r0 r2 := by
  intro w
  induction w with
  | nil =>
    intro _ xs ys r2 h hy
    exact ⟨xs, rfl, by simpa [hy] using h⟩
  | cons c w2 ih =>
    intro hnc xs ys r2 h hy
    subst hy
    cases h with
    | semi h2 =>
      exact absurd (List.mem_cons_self _ _) hnc
    | cons _ h2 =>
      obtain ⟨r0, hxs, hr⟩ := ih (fun hm => hnc (List.mem_cons_of_mem _ hm)) h2 rfl
      exact ⟨r0, by rw [hxs]; rfl, hr⟩

theorem ws_ne_semi {c : Char} (h : isWs c = true) : c ≠ ';' := by
  rcases ws_cases h with rfl | rfl | rfl | rfl | rfl | rfl <;> decide

theorem wordChar_ne_semi {c : Char} (h : isWordChar c = true) : c ≠ ';' := by
  intro hc
  subst hc
  simp [isWordChar] at h

theorem opener_ne_semi {c : Char} (h : isOpener c = true) : c ≠ ';' := by
  rcases opener_cases h with rfl | rfl | rfl <;> decide

theorem semiIns_good : ∀ {u u' : List Char}, SemiIns u u' → Good u → Good u' := by
  intro u u' h
  induction h with
  | nil => intro _; trivial
  | semi _ ih =>
    intro hg
    exact good_cons_nonCl (by decide) (ih hg)
  | cons c h2 ih =>
    intro hg
    refine ⟨?_, ih hg.2⟩
    intro hc node r3' hsome
    obtain ⟨W, I, o, hsplit, hnode, hW, hW2, hWws, ⟨d, I2, hI, hds⟩, hIword, hop, how⟩ :=
      tryNodeAt_some_split hsome
    rename_i xs ys
    have hwfree : ';' ∉ W ++ (I ++ (o :: [])) := by
      intro hm
      rcases List.mem_append.mp hm with hm | hm
      · exact ws_ne_semi (hWws _ hm) rfl
      · rcases List.mem_append.mp hm with hm | hm
        · exact wordChar_ne_semi (hIword _ hm) rfl
        · rcases List.mem_singleton.mp hm with rfl
          exact opener_ne_semi hop rfl
    obtain ⟨r0, hxs, hr0⟩ := semiIns_window hwfree h2 (by rw [hsplit])
    have hword2 : ∀ x ∈ d :: I2, isWordChar x = true := fun x hx =>
      hIword x (by rw [hI]; exact hx)
    have hxs2 : xs = W ++ (((d :: I2) ++ (o :: [])) ++ r0) := by
      rw [hxs, hI]; simp
    have hcompute : tryNodeAt xs = some ((d :: I2) ++ (o :: []), r0) := by
      rw [hxs2]
      exact tryNodeAt_window hWws hW2 hword2 hds how hop
    have hgood := hg.1 hc ((d :: I2) ++ (o :: [])) r0 hcompute
    -- xs = W ++ node ++ r0 and xs = newline ++ 4 spaces ++ node ++ r0 force W = that run
    have hWeq : W = '\n' :: ' ' :: ' ' :: ' ' :: ' ' :: [] := by
      have hcat : W ++ (((d :: I2) ++ (o :: [])) ++ r0) =
          ('\n' :: ' ' :: ' ' :: ' ' :: ' ' :: []) ++ (((d :: I2) ++ (o :: [])) ++ r0) := by
        rw [← hxs2, hgood]; rfl
      exact List.append_cancel_right hcat
    rw [hsplit, hnode, hI, hWeq]
    simp

theorem splitNl_ne_nil : ∀ (s : List Char), splitNl s ≠ [] := by
  intro s
  induction s with
  | nil => intro h; cases h
  | cons c t ih =>
    rw [splitNl]
    split
    · intro h; cases h
    · cases hsp : splitNl t with
      | nil => intro h; cases h
      | cons l ls => intro h; cases h

theorem joinNl_splitNl : ∀ (s : List Char), joinNl (splitNl s) = s := by
  intro s
  induction s with
  | nil => rfl
  | cons c t ih =>
    rw [splitNl]
    split
    · rename_i hc
      subst hc
      cases hsp : splitNl t with
      | nil => exact absurd hsp (splitNl_ne_nil t)
      | cons l ls =>
        rw [hsp] at ih
        show joinNl ([] :: l :: ls) = '\n' :: t
        show [] ++ '\n' :: joinNl (l :: ls) = '\n' :: t
        rw [ih]
        rfl
    · cases hsp : splitNl t with
      | nil => exact absurd hsp (splitNl_ne_nil t)
      | cons l ls =>
        rw [hsp] at ih
        cases ls with
        | nil =>
          show joinNl ((c :: l) :: []) = c :: t
          show c :: l = c :: t
          rw [show l = t from ih]
        | cons l2 ls2 =>
          show joinNl ((c :: l) :: l2 :: ls2) = c :: t
          show (c :: l) ++ '\n' :: joinNl (l2 :: ls2) = c :: t
          show c :: (l ++ '\n' :: joinNl (l2 :: ls2)) = c :: t
          rw [show l ++ '\n' :: joinNl (l2 :: ls2) = t from ih]

theorem splitNl_no_nl : ∀ (s : List Char), ∀ l ∈ splitNl s, '\n' ∉ l := by
  intro s
  induction s with
  | nil =>
    intro l hl
    rcases List.mem_singleton.mp hl with rfl
    intro h; cases h
  | cons c t ih =>
    intro l hl
    rw [splitNl] at hl
    split at hl
    · rcases List.mem_cons.mp hl with rfl | hl
      · intro h; cases h
      · exact ih l hl
    · rename_i hc
      cases hsp : splitNl t with
      | nil => exact absurd hsp (splitNl_ne_nil t)
      | cons l0 ls =>
        rw [hsp] at hl
        rcases List.mem_cons.mp hl with rfl | hl
        · intro hm
          rcases List.mem_cons.mp hm with hm | hm
          · exact hc hm.symm
          · exact ih l0 (by rw [hsp]; exact List.mem_cons_self _ _) hm
        · exact ih l (by rw [hsp]; exact List.mem_cons_of_mem _ hl)

theorem splitNl_of_no_nl : ∀ {l : List Char}, '\n' ∉ l → splitNl l = [l] := by
  intro l
  induction l with
  | nil => intro _; rfl
  | cons c t ih =>
    intro h
    rw [splitNl, if_neg (by intro hc; subst hc; exact h (List.mem_cons_self _ _)),
      ih (fun hm => h (List.mem_cons_of_mem _ hm))]

theorem splitNl_append_nl : ∀ {l : List Char}, '\n' ∉ l → ∀ (z : List Char),
    splitNl (l ++ '\n' :: z) = l :: splitNl z := by
  intro l
  induction l with
  | nil =>
    intro _ z
    show splitNl ('\n' :: z) = [] :: splitNl z
    rw [splitNl, if_pos rfl]
  | cons c t ih =>
    intro h z
    show splitNl (c :: (t ++ '\n' :: z)) = (c :: t) :: splitNl z
    rw [splitNl, if_neg (by intro hc; subst hc; exact h (List.mem_cons_self _ _)),
      ih (fun hm => h (List.mem_cons_of_mem _ hm)) z]

theorem splitNl_joinNl : ∀ (ls : List (List Char)), ls ≠ [] →
    (∀ l ∈ ls, '\n' ∉ l) → splitNl (joinNl ls) = ls := by
  intro ls
  induction ls with
  | nil => intro h _; exact absurd rfl h
  | cons l ls ih =>
    intro _ hnl
    cases ls with
    | nil =>
      show splitNl (joinNl [l]) = [l]
      show splitNl l = [l]
      exact splitNl_of_no_nl (hnl l (List.mem_cons_self _ _))
    | cons l2 ls2 =>
      show splitNl (l ++ '\n' :: joinNl (l2 :: ls2)) = l :: l2 :: ls2
      rw [splitNl_append_nl (hnl l (List.mem_cons_self _ _)),
        ih (by intro h; cases h) (fun x hx => hnl x (List.mem_cons_of_mem _ hx))]

theorem trimL_append_semi : ∀ (l : List Char),
    ∃ y, trimL (l ++ (';' :: [])) = y ++ (';' :: []) := by
  intro l
  induction l with
  | nil => exact ⟨[], rfl⟩
  | cons c t ih =>
    show ∃ y, List.dropWhile isWs (c :: (t ++ (';' :: []))) = y ++ (';' :: [])
    rw [List.dropWhile_cons]
    split
    · exact ih
    · exact ⟨c :: t, rfl⟩

theorem trim_append_semi_lastIs : ∀ (l : List Char),
    lastIs ';' (trim (l ++ (';' :: []))) = true := by
  intro l
  obtain ⟨y, hy⟩ := trimL_append_semi l
  rw [trim, hy, trimR]
  have h1 : (y ++ (';' :: [])).reverse = ';' :: y.reverse := by simp
  rw [h1, List.dropWhile_cons, if_neg (by decide)]
  rw [lastIs]
  simp

theorem lineFix001_cases : ∀ (l : List Char),
    lineFix001 l = l ∨ lineFix001 l = l ++ (';' :: []) := by
  intro l
  rw [lineFix001]
  split
  · exact Or.inl rfl
  · split
    · exact Or.inr rfl
    · exact Or.inl rfl

theorem lineFix001_no_nl {l : List Char} (h : '\n' ∉ l) : '\n' ∉ lineFix001 l := by
  rcases lineFix001_cases l with he | he <;> rw [he]
  · exact h
  · intro hm
    rcases List.mem_append.mp hm with hm | hm
    · exact h hm
    · cases List.mem_singleton.mp hm

theorem lineFix001_idem : ∀ (l : List Char), lineFix001 (lineFix001 l) = lineFix001 l := by
  intro l
  by_cases h1 : lineExempt001 (trim l) = true
  · simp [lineFix001, h1]
  · by_cases h2 : hasConn001 (trim l) = true
    · have hfix : lineFix001 l = l ++ (';' :: []) := by
        rw [lineFix001, if_neg h1, if_pos h2]
      rw [hfix]
      have hex : lineExempt001 (trim (l ++ (';' :: []))) = true := by
        rw [lineExempt001, trim_append_semi_lastIs l]
        simp
      rw [lineFix001, if_pos hex]
    · simp [lineFix001, h1, h2]

theorem semiIns_lineFix : ∀ (l : List Char), SemiIns l (lineFix001 l) := by
  intro l
  rcases lineFix001_cases l with he | he <;> rw [he]
  · exact semiIns_refl l
  · exact semiIns_append_semi l

theorem joinNl_semiIns : ∀ (ls : List (List Char)),
    SemiIns (joinNl ls) (joinNl (ls.map lineFix001)) := by
  intro ls
  induction ls with
  | nil => exact SemiIns.nil
  | cons l ls ih =>
    cases ls with
    | nil => exact semiIns_lineFix l
    | cons l2 ls2 =>
      show SemiIns (l ++ '\n' :: joinNl (l2 :: ls2))
        (lineFix001 l ++ '\n' :: joinNl ((l2 :: ls2).map lineFix001))
      exact semiIns_append (semiIns_lineFix l) (SemiIns.cons '\n' ih)

theorem addSemis001_semiIns : ∀ (s : List Char), SemiIns s (addSemis001 s) := by
  intro s
  rw [addSemis001]
  conv_lhs => rw [← joinNl_splitNl s]
  exact joinNl_semiIns (splitNl s)

theorem map_lineFix_idem : ∀ (ls : List (List Char)),
    (ls.map lineFix001).map lineFix001 = ls.map lineFix001 := by
  intro ls
  induction ls with
  | nil => rfl
  | cons l ls ih =>
    show lineFix001 (lineFix001 l) :: (ls.map lineFix001).map lineFix001 =
      lineFix001 l :: ls.map lineFix001
    rw [lineFix001_idem, ih]

theorem addSemis001_idem : ∀ (s : List Char),
    addSemis001 (addSemis001 s) = addSemis001 s := by
  intro s
  conv_lhs => rw [addSemis001, addSemis001]
  rw [splitNl_joinNl ((splitNl s).map lineFix001)
    (fun h => splitNl_ne_nil s (by simpa using h))
    (by
      intro l hl
      obtain ⟨l0, hl0, rfl⟩ := List.mem_map.mp hl
      exact lineFix001_no_nl (splitNl_no_nl s l0 hl0)),
    map_lineFix_idem]
  rfl

/-! ### Characters the cleanup pass leaves alone -/

/-- No character of `s` is removed or rewritten by the cleanup pass. -/
def noBad (s : List Char) : Prop := ∀ c ∈ s, cleanCh c = some c

theorem noBad_cleanChars : ∀ (s : List Char), noBad (cleanChars s) := by
  intro s c hc
  obtain ⟨a, _, hca⟩ := List.mem_filterMap.mp hc
  rw [cleanCh] at hca
  split at hca
  · cases hca
  · split at hca
    · rename_i h1 _
      injection hca with h
      subst h
      decide
    · rename_i h1 h2
      injection hca with h
      subst h
      rw [cleanCh, if_neg h1, if_neg h2]

theorem cleanChars_id_of_noBad : ∀ (s : List Char), noBad s → cleanChars s = s := by
  intro s
  induction s with
  | nil => intro _; rfl
  | cons c t ih =>
    intro hs
    have hc := hs c (List.mem_cons_self _ _)
    have ht := ih (fun x hx => hs x (List.mem_cons_of_mem _ hx))
    rw [cleanChars] at ht ⊢
    simp only [List.filterMap_cons, hc, ht]

theorem noBad_scanRepl (isCl : Char → Bool) :
    ∀ (fuel : Nat) (t : List Char), noBad t → noBad (scanRepl isCl fuel t) := by
  intro fuel
  induction fuel with
  | zero => intro t ht; exact ht
  | succ fuel ih =>
    intro t ht
    cases t with
    | nil => rw [scanRepl_nil]; exact ht
    | cons c0 t =>
      have htail : noBad t := fun x hx => ht x (List.mem_cons_of_mem _ hx)
      by_cases hc : isCl c0 = true
      · cases hm : tryNodeAt t with
        | some v =>
          obtain ⟨node, r3⟩ := v
          obtain ⟨W, I, o, hsplit, hnode, _, _, _, _, _, _, _⟩ := tryNodeAt_some_split hm
          have hr3 : noBad r3 := by
            intro x hx
            exact htail x (by rw [hsplit]; exact List.mem_append_right _ hx)
          have hnodeMem : ∀ x ∈ node, x ∈ t := by
            intro x hx
            rw [hsplit]
            exact List.mem_append_left _ (List.mem_append_right _ (hnode ▸ hx))
          rw [scanRepl_cons_match hc hm]
          intro x hx
          rcases List.mem_cons.mp hx with rfl | hx
          · exact ht x (List.mem_cons_self _ _)
          rcases List.mem_cons.mp hx with rfl | hx
          · decide
          rcases List.mem_cons.mp hx with rfl | hx
          · decide
          rcases List.mem_cons.mp hx with rfl | hx
          · decide
          rcases List.mem_cons.mp hx with rfl | hx
          · decide
          rcases List.mem_cons.mp hx with rfl | hx
          · decide
          rcases List.mem_append.mp hx with hx | hx
          · exact htail x (hnodeMem x hx)
          · exact ih r3 hr3 x hx
        | none =>
          rw [scanRepl_cons_none hc hm]
          intro x hx
          rcases List.mem_cons.mp hx with rfl | hx
          · exact ht x (List.mem_cons_self _ _)
          · exact ih t htail x hx
      · rw [scanRepl_cons_notCl (Bool.eq_false_iff.mpr hc)]
        intro x hx
        rcases List.mem_cons.mp hx with rfl | hx
        · exact ht x (List.mem_cons_self _ _)
        · exact ih t htail x hx

theorem noBad_semiIns : ∀ {u u' : List Char}, SemiIns u u' → noBad u → noBad u' := by
  intro u u' h
  induction h with
  | nil => intro h2; exact h2
  | semi _ ih =>
    intro h2 x hx
    rcases List.mem_cons.mp hx with rfl | hx
    · decide
    · exact ih h2 x hx
  | cons c _ ih =>
    intro h2 x hx
    rcases List.mem_cons.mp hx with rfl | hx
    · exact h2 x (List.mem_cons_self _ _)
    · exact ih (fun y hy => h2 y (List.mem_cons_of_mem _ hy)) x hx

theorem noBad_addSemis : ∀ {u : List Char}, noBad u → noBad (addSemis001 u) :=
  fun h => noBad_semiIns (addSemis001_semiIns _) h

/-- Claim C7, amended: the `part_001` Mermaid sanitizer is idempotent on every
input whose sanitized form is already trimmed (equivalently, whenever the
second run's leading `trim` changes nothing).  On such inputs the second run
strips no further characters (the cleanup pass only ever emits characters it
leaves alone), inserts no further newline (every closer already followed by a
repaired window is normalized, and the semicolon pass only adds semicolons,
which never create a new match), and appends no second semicolon (a fixed
line ends in `;` and is therefore exempt).  The unconditional statement is
false — see the counterexample: stripping an apostrophe can expose edge
whitespace that only the second run's `trim` removes. -/
theorem c7_sanitizer_idempotent (s : List Char)
    (htrim : trim (sanitizeMermaidSource s) = sanitizeMermaidSource s) :
    sanitizeMermaidSource (sanitizeMermaidSource s) = sanitizeMermaidSource s := by
  have hGoodv : Good (insertBreaks isCloser001 (cleanChars (trim s))) :=
    good_scanRepl (cleanChars (trim s)).length (cleanChars (trim s)) le_rfl
  have hGoodt : Good (sanitizeMermaidSource s) :=
    semiIns_good (addSemis001_semiIns (insertBreaks isCloser001 (cleanChars (trim s)))) hGoodv
  have hnb : noBad (sanitizeMermaidSource s) :=
    noBad_addSemis (noBad_scanRepl isCloser001 (cleanChars (trim s)).length
      (cleanChars (trim s)) (noBad_cleanChars (trim s)))
  have hid : insertBreaks isCloser001 (sanitizeMermaidSource s) = sanitizeMermaidSource s :=
    scanRepl_id_of_good (sanitizeMermaidSource s).length (sanitizeMermaidSource s)
      le_rfl hGoodt
  show addSemis001 (insertBreaks isCloser001 (cleanChars (trim (sanitizeMermaidSource s)))) =
    sanitizeMermaidSource s
  rw [htrim, cleanChars_id_of_noBad (sanitizeMermaidSource s) hnb, hid]
  exact addSemis001_idem (insertBreaks isCloser001 (cleanChars (trim s)))

/-- Claim C7 as literally stated is false: on the source consisting of an
apostrophe, a space and the letter x, the first sanitization strips the
apostrophe but keeps the space that the leading trim no longer sees, so the
second run still shortens the text. -/
theorem c7_sanitizer_not_idempotent :
    sanitizeMermaidSource (sanitizeMermaidSource (("\x27 x").toList)) ≠
      sanitizeMermaidSource (("\x27 x").toList) ∧
    sanitizeMermaidSource (("\x27 x").toList) = (" x").toList ∧
    sanitizeMermaidSource (sanitizeMermaidSource (("\x27 x").toList)) = ("x").toList := by
  refine ⟨?_, ?_, ?_⟩ <;> decide

theorem c7_sanitizer_idempotent_witness :
    sanitizeMermaidSource (sanitizeMermaidSource (("A --> B").toList)) =
      sanitizeMermaidSource (("A --> B").toList) :=
  c7_sanitizer_idempotent (("A --> B").toList) (by decide)

/-! ### C8 part 1: case-insensitive comparison machinery -/

theorem ciEqCh_refl (a : Char) : ciEqCh a a = true := by
  simp [ciEqCh]

theorem ciEqCh_symm {a b : Char} (h : ciEqCh a b = true) : ciEqCh b a = true := by
  simp [ciEqCh] at h ⊢
  exact h.symm

theorem ciEqStr_cons_iff {a b : Char} {as bs : List Char} :
    ciEqStr (a :: as) (b :: bs) = true ↔ (ciEqCh a b = true ∧ ciEqStr as bs = true) := by
  simp [ciEqStr, List.all_cons]
  tauto

theorem ciEqStr_nil_left {b : List Char} (h : ciEqStr [] b = true) : b = [] := by
  simp [ciEqStr] at h
  exact (List.length_eq_zero.mp h.symm)

theorem ciEqStr_nil_right {a : List Char} (h : ciEqStr a [] = true) : a = [] := by
  simp [ciEqStr] at h
  exact h

theorem ciEqStr_refl : ∀ (a : List Char), ciEqStr a a = true := by
  intro a
  induction a with
  | nil => rfl
  | cons c t ih => exact ciEqStr_cons_iff.mpr ⟨ciEqCh_refl c, ih⟩

theorem ciEqStr_length : ∀ {a b : List Char}, ciEqStr a b = true → a.length = b.length := by
  intro a b h
  simp [ciEqStr] at h
  exact h.1

theorem ciEqStr_symm : ∀ {a b : List Char}, ciEqStr a b = true → ciEqStr b a = true := by
  intro a
  induction a with
  | nil => intro b h; rw [ciEqStr_nil_left h]; rfl
  | cons c t ih =>
    intro b h
    cases b with
    | nil => simp [ciEqStr] at h
    | cons d u =>
      obtain ⟨h1, h2⟩ := ciEqStr_cons_iff.mp h
      exact ciEqStr_cons_iff.mpr ⟨ciEqCh_symm h1, ih h2⟩

theorem ciEqStr_trans : ∀ {a b c : List Char},
    ciEqStr a b = true → ciEqStr b c = true → ciEqStr a c = true := by
  intro a
  induction a with
  | nil =>
    intro b c h1 h2
    rw [ciEqStr_nil_left h1] at h2
    rw [ciEqStr_nil_left h2]
    rfl
  | cons x t ih =>
    intro b c h1 h2
    cases b with
    | nil => simp [ciEqStr] at h1
    | cons y u =>
      cases c with
      | nil => simp [ciEqStr] at h2
      | cons z v =>
        obtain ⟨ha1, ha2⟩ := ciEqStr_cons_iff.mp h1
        obtain ⟨hb1, hb2⟩ := ciEqStr_cons_iff.mp h2
        refine ciEqStr_cons_iff.mpr ⟨?_, ih ha2 hb2⟩
        simp [ciEqCh] at ha1 hb1 ⊢
        rw [ha1, hb1]

theorem lowerStr_eq_of_ciEqStr : ∀ {a b : List Char},
    ciEqStr a b = true → lowerStr a = lowerStr b := by
  intro a
  induction a with
  | nil => intro b h; rw [ciEqStr_nil_left h]
  | cons c t ih =>
    intro b h
    cases b with
    | nil => simp [ciEqStr] at h
    | cons d u =>
      obtain ⟨h1, h2⟩ := ciEqStr_cons_iff.mp h
      simp only [lowerStr, List.map_cons]
      simp [ciEqCh] at h1
      rw [h1]
      have := ih h2
      simp only [lowerStr] at this
      rw [this]

theorem mem_lower_of_ciEqStr {a b : List Char} {c : Char}
    (h : ciEqStr a b = true) (hc : c ∈ a) : lowerCh c ∈ lowerStr b := by
  rw [← lowerStr_eq_of_ciEqStr h]
  exact List.mem_map_of_mem lowerCh hc

theorem ciEqStr_no_lower {a b : List Char} {x : Char}
    (h : ciEqStr a b = true) (hb : x ∉ lowerStr b) :
    ∀ c ∈ a, lowerCh c ≠ x := by
  intro c hc he
  exact hb (he ▸ mem_lower_of_ciEqStr h hc)

/-- A case-insensitive prefix test succeeds on any extension of a
case-variant of the pattern. -/
theorem ciStartsWith_of_ciEq : ∀ {t w : List Char}, ciEqStr w t = true →
    ∀ (z : List Char), ciStartsWith t (w ++ z) = true := by
  intro t
  induction t with
  | nil => intro w _ z; rfl
  | cons a t2 ih =>
    intro w h z
    cases w with
    | nil => exact absurd (ciEqStr_nil_left h) (by intro hx; cases hx)
    | cons c w2 =>
      obtain ⟨h1, h2⟩ := ciEqStr_cons_iff.mp h
      show (ciEqCh a c && ciStartsWith t2 (w2 ++ z)) = true
      rw [ciEqCh_symm h1, ih h2 z]
      rfl

theorem ciEqStr_append_ch {a b : List Char} (h : ciEqStr a b = true) (c : Char) :
    ciEqStr (a ++ (c :: [])) (b ++ (c :: [])) = true := by
  induction a generalizing b with
  | nil =>
    rw [ciEqStr_nil_left h]
    exact ciEqStr_refl _
  | cons x t ih =>
    cases b with
    | nil => simp [ciEqStr] at h
    | cons y u =>
      obtain ⟨h1, h2⟩ := ciEqStr_cons_iff.mp h
      exact ciEqStr_cons_iff.mpr ⟨h1, ih h2⟩

/-- If a branch pattern followed by a separator matches a case-variant of a
different pattern followed by the same separator, the two patterns are
case-variants of each other (no pattern character lower-cases to the
separator). -/
theorem ciSW_sep (sep : Char) : ∀ (t w z : List Char),
    (∀ c ∈ t, lowerCh c ≠ lowerCh sep) → (∀ c ∈ w, lowerCh c ≠ lowerCh sep) →
    ciStartsWith (t ++ (sep :: [])) (w ++ sep :: z) = true → ciEqStr t w = true := by
  intro t
  induction t with
  | nil =>
    intro w z _ hw h
    cases w with
    | nil => rfl
    | cons c w2 =>
      exfalso
      have : (ciEqCh sep c && ciStartsWith ([] : List Char) (w2 ++ sep :: z)) = true := h
      simp [ciEqCh] at this
      exact hw c (List.mem_cons_self _ _) this.1.symm
  | cons a t2 ih =>
    intro w z ht hw h
    cases w with
    | nil =>
      exfalso
      have : (ciEqCh a sep && ciStartsWith (t2 ++ (sep :: [])) z) = true := h
      simp [ciEqCh] at this
      exact ht a (List.mem_cons_self _ _) this.1
    | cons c w2 =>
      have : (ciEqCh a c && ciStartsWith (t2 ++ (sep :: [])) (w2 ++ sep :: z)) = true := h
      simp only [Bool.and_eq_true] at this
      exact ciEqStr_cons_iff.mpr ⟨this.1,
        ih w2 z (fun x hx => ht x (List.mem_cons_of_mem _ hx))
          (fun x hx => hw x (List.mem_cons_of_mem _ hx)) this.2⟩

/-- `tryTagsCi` on a case-variant of a listed tag followed by `:` hits
exactly that tag, provided no two listed tags are case-variants and no tag
character lower-cases to `:`. -/
theorem tryTagsCi_hit : ∀ (Ts : List (List Char)) {tg w : List Char},
    tg ∈ Ts → ciEqStr w tg = true →
    (∀ T ∈ Ts, ∀ c ∈ T, lowerCh c ≠ lowerCh ':') →
    (∀ T ∈ Ts, ciEqStr T tg = true → T = tg) →
    ∀ (z : List Char), tryTagsCi Ts (w ++ ':' :: z) = some (tg, tg.length + 1) := by
  intro Ts
  induction Ts with
  | nil => intro tg w h; cases h
  | cons T Ts ih =>
    intro tg w hmem hw hnoc huniq z
    rw [tryTagsCi]
    by_cases hsw : ciStartsWith (T ++ (":").toList) (w ++ ':' :: z) = true
    · rw [if_pos hsw]
      have hTw : ciEqStr T w = true := by
        refine ciSW_sep ':' T w z (hnoc T (List.mem_cons_self _ _)) ?_ ?_
        · intro c hc
          refine ciEqStr_no_lower hw ?_ c hc
          intro hmem2
          obtain ⟨c2, hc2, he2⟩ := List.mem_map.mp hmem2
          exact hnoc tg hmem c2 hc2 he2
        · exact hsw
      have hTtg : T = tg := huniq T (List.mem_cons_self _ _) (ciEqStr_trans hTw hw)
      rw [hTtg]
    · rw [if_neg hsw]
      rcases List.mem_cons.mp hmem with rfl | hmem2
      · exact absurd (by
          have : w ++ ':' :: z = (w ++ (':' :: [])) ++ z := by simp
          rw [this]
          exact ciStartsWith_of_ciEq (ciEqStr_append_ch hw ':') z) hsw
      · exact ih hmem2 hw (fun T2 h2 => hnoc T2 (List.mem_cons_of_mem _ h2))
          (fun T2 h2 => huniq T2 (List.mem_cons_of_mem _ h2)) z

/-- Same for the fenced-language alternation, whose separator is a newline. -/
theorem tryLangsCi_hit : ∀ (Ls : List (List Char)) {L w : List Char},
    L ∈ Ls → ciEqStr w L = true →
    (∀ T ∈ Ls, ∀ c ∈ T, lowerCh c ≠ lowerCh '\n') →
    (∀ T ∈ Ls, ciEqStr T L = true → T = L) →
    ∀ (z : List Char), tryLangsCi Ls (w ++ '\n' :: z) = some (L, L.length + 1) := by
  intro Ls
  induction Ls with
  | nil => intro L w h; cases h
  | cons T Ls ih =>
    intro L w hmem hw hnoc huniq z
    rw [tryLangsCi]
    by_cases hsw : ciStartsWith (T ++ ("\n").toList) (w ++ '\n' :: z) = true
    · rw [if_pos hsw]
      have hTw : ciEqStr T w = true := by
        refine ciSW_sep '\n' T w z (hnoc T (List.mem_cons_self _ _)) ?_ ?_
        · intro c hc
          refine ciEqStr_no_lower hw ?_ c hc
          intro hmem2
          obtain ⟨c2, hc2, he2⟩ := List.mem_map.mp hmem2
          exact hnoc L hmem c2 hc2 he2
        · exact hsw
      have hTtg : T = L := huniq T (List.mem_cons_self _ _) (ciEqStr_trans hTw hw)
      rw [hTtg]
    · rw [if_neg hsw]
      rcases List.mem_cons.mp hmem with rfl | hmem2
      · exact absurd (by
          have : w ++ '\n' :: z = (w ++ ('\n' :: [])) ++ z := by simp
          rw [this]
          exact ciStartsWith_of_ciEq (ciEqStr_append_ch hw '\n') z) hsw
      · exact ih hmem2 hw (fun T2 h2 => hnoc T2 (List.mem_cons_of_mem _ h2))
          (fun T2 h2 => huniq T2 (List.mem_cons_of_mem _ h2)) z

/-! ### C8 part 2: skipping non-directive characters -/

theorem imgMatchAt_none_head {c : Char} {t : List Char} (hc : c ≠ '\x7b') :
    imgMatchAt (c :: t) = none := by
  rw [imgMatchAt, if_neg]
  intro h
  have h2 : imgTag.isPrefixOf (c :: t) = true := h
  rw [show imgTag = '\x7b' :: ("\x7bIMAGE:").toList from rfl] at h2
  simp [List.isPrefixOf] at h2
  exact hc h2.1.symm

theorem genMatchAt_none_head {c : Char} {t : List Char} (hc : c ≠ '\x7b') :
    genMatchAt (c :: t) = none := by
  rw [genMatchAt, if_neg]
  intro h
  have h2 : braces2.isPrefixOf (c :: t) = true := h
  rw [show braces2 = '\x7b' :: ("\x7b").toList from rfl] at h2
  simp [List.isPrefixOf] at h2
  exact hc h2.1.symm

theorem fenceMatchAt_none_head {c : Char} {t : List Char} (hc : c ≠ '\x60') :
    fenceMatchAt (c :: t) = none := by
  rw [fenceMatchAt, if_neg]
  intro h
  have h2 : fence3.isPrefixOf (c :: t) = true := h
  rw [show fence3 = '\x60' :: ("\x60\x60").toList from rfl] at h2
  simp [List.isPrefixOf] at h2
  exact hc h2.1.symm

theorem inlMatchAt_none_head {c : Char} {t : List Char} (hc : lowerCh c ≠ '\x7b') :
    inlMatchAt (c :: t) = none := by
  rw [inlMatchAt, if_neg]
  intro h
  have h2 : ciStartsWith inlTag (c :: t) = true := h
  rw [show inlTag = '\x7b' :: ("\x7bDIAGRAM:").toList from rfl] at h2
  have h3 : (ciEqCh '\x7b' c && ciStartsWith (("\x7bDIAGRAM:").toList) t) = true := h2
  simp only [Bool.and_eq_true] at h3
  have h4 : lowerCh '\x7b' = lowerCh c := by
    have := h3.1
    simpa [ciEqCh] using this
  exact hc (by rw [← h4]; decide)

/-! Step lemmas for `imgGo` (the other three scanners already have theirs). -/

theorem imgGo_succ (fuel pos : Nat) (xs : List Char) :
    imgGo (fuel + 1) pos xs =
      (match imgMatchAt xs with
       | some (fm, d, rest) => ⟨fm, trim d, pos⟩ :: imgGo fuel (pos + fm.length) rest
       | none =>
         match xs with
         | [] => []
         | _ :: t => imgGo fuel (pos + 1) t) := rfl

theorem imgGo_step_some {fuel pos : Nat} {xs fm d rest : List Char}
    (h : imgMatchAt xs = some (fm, d, rest)) :
    imgGo (fuel + 1) pos xs = ⟨fm, trim d, pos⟩ :: imgGo fuel (pos + fm.length) rest := by
  rw [imgGo_succ, h]

theorem imgGo_step_none {fuel pos : Nat} {c : Char} {t : List Char}
    (h : imgMatchAt (c :: t) = none) :
    imgGo (fuel + 1) pos (c :: t) = imgGo fuel (pos + 1) t := by
  rw [imgGo_succ, h]

theorem imgGo_nil {fuel pos : Nat} : imgGo fuel pos [] = [] := by
  cases fuel <;> rfl

/-! Fuel irrelevance: fuel at least the text length always yields the same
scan, so the `length`-fuelled extractors model the unbounded JS loops. -/

theorem imgGo_fuel_irrel :
    ∀ (f1 : Nat) (pos : Nat) (s : List Char) (f2 : Nat), s.length ≤ f1 → s.length ≤ f2 →
      imgGo f1 pos s = imgGo f2 pos s := by
  intro f1
  induction f1 with
  | zero =>
    intro pos s f2 h1 _
    have : s = [] := List.length_eq_zero.mp (Nat.le_zero.mp h1)
    subst this
    rw [imgGo_nil, imgGo_nil]
  | succ f1 ih =>
    intro pos s f2 h1 h2
    cases s with
    | nil => rw [imgGo_nil, imgGo_nil]
    | cons c t =>
      cases f2 with
      | zero => simp at h2
      | succ f2 =>
        cases hm : imgMatchAt (c :: t) with
        | some v =>
          obtain ⟨fm, d, rest⟩ := v
          have hr := imgMatchAt_shrink hm
          have hlen : (c :: t).length = t.length + 1 := by simp
          rw [imgGo_step_some hm, imgGo_step_some hm,
            ih (pos + fm.length) rest f2 (by omega) (by omega)]
        | none =>
          have ht1 : t.length ≤ f1 := by simp at h1; omega
          have ht2 : t.length ≤ f2 := by simp at h2; omega
          rw [imgGo_step_none hm, imgGo_step_none hm, ih (pos + 1) t f2 ht1 ht2]

theorem genGo_fuel_irrel :
    ∀ (f1 : Nat) (pos : Nat) (s : List Char) (f2 : Nat), s.length ≤ f1 → s.length ≤ f2 →
      genGo f1 pos s = genGo f2 pos s := by
  intro f1
  induction f1 with
  | zero =>
    intro pos s f2 h1 _
    have : s = [] := List.length_eq_zero.mp (Nat.le_zero.mp h1)
    subst this
    rw [genGo_nil, genGo_nil]
  | succ f1 ih =>
    intro pos s f2 h1 h2
    cases s with
    | nil => rw [genGo_nil, genGo_nil]
    | cons c t =>
      cases f2 with
      | zero => simp at h2
      | succ f2 =>
        cases hm : genMatchAt (c :: t) with
        | some v =>
          obtain ⟨fm, ty, d, rest⟩ := v
          have hr := genMatchAt_shrink hm
          have hlen : (c :: t).length = t.length + 1 := by simp
          rw [genGo_step_some hm, genGo_step_some hm,
            ih (pos + fm.length) rest f2 (by omega) (by omega)]
        | none =>
          have ht1 : t.length ≤ f1 := by simp at h1; omega
          have ht2 : t.length ≤ f2 := by simp at h2; omega
          rw [genGo_step_none hm, genGo_step_none hm, ih (pos + 1) t f2 ht1 ht2]

theorem fenceGo_fuel_irrel :
    ∀ (f1 : Nat) (pos : Nat) (s : List Char) (f2 : Nat), s.length ≤ f1 → s.length ≤ f2 →
      fenceGo f1 pos s = fenceGo f2 pos s := by
  intro f1
  induction f1 with
  | zero =>
    intro pos s f2 h1 _
    have : s = [] := List.length_eq_zero.mp (Nat.le_zero.mp h1)
    subst this
    rw [fenceGo_nil, fenceGo_nil]
  | succ f1 ih =>
    intro pos s f2 h1 h2
    cases s with
    | nil => rw [fenceGo_nil, fenceGo_nil]
    | cons c t =>
      cases f2 with
      | zero => simp at h2
      | succ f2 =>
        cases hm : fenceMatchAt (c :: t) with
        | some v =>
          obtain ⟨fm, ty, src, rest⟩ := v
          have hr := fenceMatchAt_shrink hm
          have hlen : (c :: t).length = t.length + 1 := by simp
          rw [fenceGo_step_some hm, fenceGo_step_some hm,
            ih (pos + fm.length) rest f2 (by omega) (by omega)]
        | none =>
          have ht1 : t.length ≤ f1 := by simp at h1; omega
          have ht2 : t.length ≤ f2 := by simp at h2; omega
          rw [fenceGo_step_none hm, fenceGo_step_none hm, ih (pos + 1) t f2 ht1 ht2]

theorem inlGo_fuel_irrel :
    ∀ (f1 : Nat) (pos : Nat) (s : List Char) (f2 : Nat), s.length ≤ f1 → s.length ≤ f2 →
      inlGo f1 pos s = inlGo f2 pos s := by
  intro f1
  induction f1 with
  | zero =>
    intro pos s f2 h1 _
    have : s = [] := List.length_eq_zero.mp (Nat.le_zero.mp h1)
    subst this
    rw [inlGo_nil, inlGo_nil]
  | succ f1 ih =>
    intro pos s f2 h1 h2
    cases s with
    | nil => rw [inlGo_nil, inlGo_nil]
    | cons c t =>
      cases f2 with
      | zero => simp at h2
      | succ f2 =>
        cases hm : inlMatchAt (c :: t) with
        | some v =>
          obtain ⟨fm, ty, src, rest⟩ := v
          have hr := inlMatchAt_shrink hm
          have hlen : (c :: t).length = t.length + 1 := by simp
          rw [inlGo_step_some hm, inlGo_step_some hm,
            ih (pos + fm.length) rest f2 (by omega) (by omega)]
        | none =>
          have ht1 : t.length ≤ f1 := by simp at h1; omega
          have ht2 : t.length ≤ f2 := by simp at h2; omega
          rw [inlGo_step_none hm, inlGo_step_none hm, ih (pos + 1) t f2 ht1 ht2]

/-! Gap scanning: a stretch of text in which no character can begin a match
is skipped one character at a time. -/

theorem imgGo_gap : ∀ (g : List Char), (∀ c ∈ g, c ≠ '\x7b') →
    ∀ (fuel pos : Nat) (rest : List Char),
      imgGo (g.length + fuel) pos (g ++ rest) = imgGo fuel (pos + g.length) rest := by
  intro g
  induction g with
  | nil => intro _ fuel pos rest; simp
  | cons c g2 ih =>
    intro h fuel pos rest
    have harith : (c :: g2).length + fuel = (g2.length + fuel) + 1 := by simp; omega
    rw [harith]
    show imgGo ((g2.length + fuel) + 1) pos (c :: (g2 ++ rest)) = _
    rw [imgGo_step_none (imgMatchAt_none_head (h c (List.mem_cons_self _ _))),
      ih (fun x hx => h x (List.mem_cons_of_mem _ hx)) fuel (pos + 1) rest]
    have : pos + 1 + g2.length = pos + (c :: g2).length := by simp; omega
    rw [this]

theorem genGo_gap : ∀ (g : List Char), (∀ c ∈ g, c ≠ '\x7b') →
    ∀ (fuel pos : Nat) (rest : List Char),
      genGo (g.length + fuel) pos (g ++ rest) = genGo fuel (pos + g.length) rest := by
  intro g
  induction g with
  | nil => intro _ fuel pos rest; simp
  | cons c g2 ih =>
    intro h fuel pos rest
    have harith : (c :: g2).length + fuel = (g2.length + fuel) + 1 := by simp; omega
    rw [harith]
    show genGo ((g2.length + fuel) + 1) pos (c :: (g2 ++ rest)) = _
    rw [genGo_step_none (genMatchAt_none_head (h c (List.mem_cons_self _ _))),
      ih (fun x hx => h x (List.mem_cons_of_mem _ hx)) fuel (pos + 1) rest]
    have : pos + 1 + g2.length = pos + (c :: g2).length := by simp; omega
    rw [this]

theorem fenceGo_gap : ∀ (g : List Char), (∀ c ∈ g, c ≠ '\x60') →
    ∀ (fuel pos : Nat) (rest : List Char),
      fenceGo (g.length + fuel) pos (g ++ rest) = fenceGo fuel (pos + g.length) rest := by
  intro g
  induction g with
  | nil => intro _ fuel pos rest; simp
  | cons c g2 ih =>
    intro h fuel pos rest
    have harith : (c :: g2).length + fuel = (g2.length + fuel) + 1 := by simp; omega
    rw [harith]
    show fenceGo ((g2.length + fuel) + 1) pos (c :: (g2 ++ rest)) = _
    rw [fenceGo_step_none (fenceMatchAt_none_head (h c (List.mem_cons_self _ _))),
      ih (fun x hx => h x (List.mem_cons_of_mem _ hx)) fuel (pos + 1) rest]
    have : pos + 1 + g2.length = pos + (c :: g2).length := by simp; omega
    rw [this]

theorem inlGo_gap : ∀ (g : List Char), (∀ c ∈ g, lowerCh c ≠ '\x7b') →
    ∀ (fuel pos : Nat) (rest : List Char),
      inlGo (g.length + fuel) pos (g ++ rest) = inlGo fuel (pos + g.length) rest := by
  intro g
  induction g with
  | nil => intro _ fuel pos rest; simp
  | cons c g2 ih =>
    intro h fuel pos rest
    have harith : (c :: g2).length + fuel = (g2.length + fuel) + 1 := by simp; omega
    rw [harith]
    show inlGo ((g2.length + fuel) + 1) pos (c :: (g2 ++ rest)) = _
    rw [inlGo_step_none (inlMatchAt_none_head (h c (List.mem_cons_self _ _))),
      ih (fun x hx => h x (List.mem_cons_of_mem _ hx)) fuel (pos + 1) rest]
    have : pos + 1 + g2.length = pos + (c :: g2).length := by simp; omega
    rw [this]

/-! ### C8 part 3: each matcher succeeds at a well-formed directive -/

theorem isEmpty_false_of_ne {p : List Char} (h : p ≠ []) : p.isEmpty = false := by
  cases p with
  | nil => exact absurd rfl h
  | cons c t => rfl

theorem imgMatchAt_at {p rest : List Char} (hne : p ≠ []) (hnb : closeBr ∉ p) :
    imgMatchAt (imgTag ++ p ++ (closeBr :: closeBr :: []) ++ rest) =
      some (imgTag ++ p ++ (closeBr :: closeBr :: []), p, rest) := by
  have hshape : imgTag ++ p ++ (closeBr :: closeBr :: []) ++ rest =
      imgTag ++ (p ++ (closeBr :: closeBr :: rest)) := by simp
  have hu : ∀ c ∈ p, (fun c => decide (c ≠ closeBr)) c = true := by
    intro c hcm
    simp only [decide_eq_true_eq]
    exact fun h => hnb (h ▸ hcm)
  have hx : (fun c => decide (c ≠ closeBr)) closeBr = false := by simp
  have htw : (p ++ (closeBr :: closeBr :: rest)).takeWhile (fun c => decide (c ≠ closeBr)) = p :=
    takeWhile_append_stop hu hx
  have hdw : (p ++ (closeBr :: closeBr :: rest)).dropWhile (fun c => decide (c ≠ closeBr)) =
      closeBr :: closeBr :: rest :=
    dropWhile_append_stop hu hx
  rw [hshape, imgMatchAt, if_pos (isPrefixOf_append_self imgTag _)]
  simp only [List.drop_left, htw, hdw, isEmpty_false_of_ne hne]
  simp

theorem genTag_noColon : ∀ T ∈ genTagList, ∀ c ∈ T, lowerCh c ≠ lowerCh ':' := by decide

theorem genTag_uniq : ∀ tg ∈ genTagList, ∀ T ∈ genTagList, ciEqStr T tg = true → T = tg := by
  decide

theorem genMatchAt_at {w tg p rest : List Char}
    (hmem : tg ∈ genTagList) (hw : ciEqStr w tg = true)
    (hne : p ≠ []) (hnb : closeBr ∉ p) :
    genMatchAt (braces2 ++ w ++ (':' :: []) ++ p ++ (closeBr :: closeBr :: []) ++ rest) =
      some (braces2 ++ w ++ (':' :: []) ++ p ++ (closeBr :: closeBr :: []),
        upperStr w, p, rest) := by
  have hlen : w.length = tg.length := ciEqStr_length hw
  have hshape : braces2 ++ w ++ (':' :: []) ++ p ++ (closeBr :: closeBr :: []) ++ rest =
      braces2 ++ (w ++ ':' :: (p ++ closeBr :: closeBr :: rest)) := by simp
  have hdrop2 : (braces2 ++ (w ++ ':' :: (p ++ closeBr :: closeBr :: rest))).drop 2 =
      w ++ ':' :: (p ++ closeBr :: closeBr :: rest) := List.drop_left braces2 _
  have htags : tryTagsCi genTagList (w ++ ':' :: (p ++ closeBr :: closeBr :: rest)) =
      some (tg, tg.length + 1) :=
    tryTagsCi_hit genTagList hmem hw genTag_noColon (genTag_uniq tg hmem) _
  have hsh2 : w ++ ':' :: (p ++ closeBr :: closeBr :: rest) =
      (w ++ (':' :: [])) ++ (p ++ closeBr :: closeBr :: rest) := by simp
  have hlenk : tg.length + 1 = (w ++ (':' :: [])).length := by simp [hlen]
  have hdropk : (w ++ ':' :: (p ++ closeBr :: closeBr :: rest)).drop (tg.length + 1) =
      p ++ closeBr :: closeBr :: rest := by
    rw [hsh2, hlenk, List.drop_left]
  have htakek : (w ++ ':' :: (p ++ closeBr :: closeBr :: rest)).take (tg.length + 1) =
      w ++ (':' :: []) := by
    rw [hsh2, hlenk, List.take_left]
  have htaketg : (w ++ ':' :: (p ++ closeBr :: closeBr :: rest)).take tg.length = w := by
    rw [← hlen, show w ++ ':' :: (p ++ closeBr :: closeBr :: rest) =
      w ++ (':' :: (p ++ closeBr :: closeBr :: rest)) from rfl, List.take_left]
  have hu : ∀ c ∈ p, (fun c => decide (c ≠ closeBr)) c = true := by
    intro c hcm
    simp only [decide_eq_true_eq]
    exact fun h => hnb (h ▸ hcm)
  have hx : (fun c => decide (c ≠ closeBr)) closeBr = false := by simp
  have htw : (p ++ (closeBr :: closeBr :: rest)).takeWhile (fun c => decide (c ≠ closeBr)) = p :=
    takeWhile_append_stop hu hx
  have hdw : (p ++ (closeBr :: closeBr :: rest)).dropWhile (fun c => decide (c ≠ closeBr)) =
      closeBr :: closeBr :: rest :=
    dropWhile_append_stop hu hx
  have htake2 : (braces2 ++ (w ++ ':' :: (p ++ closeBr :: closeBr :: rest))).take 2 =
      braces2 := List.take_left braces2 _
  rw [hshape, genMatchAt, if_pos (isPrefixOf_append_self braces2 _)]
  rw [hdrop2, htags]
  simp only [hdropk, htakek, htaketg, htake2, htw, hdw, isEmpty_false_of_ne hne]
  simp

theorem fenceLang_noNl : ∀ T ∈ fenceLangs, ∀ c ∈ T, lowerCh c ≠ lowerCh '\n' := by decide

theorem fenceLang_uniq : ∀ L ∈ fenceLangs, ∀ T ∈ fenceLangs, ciEqStr T L = true → T = L := by
  decide

theorem fenceMatchAt_at {w L body rest : List Char}
    (hmem : L ∈ fenceLangs) (hw : ciEqStr w L = true) (hnb : '\x60' ∉ body) :
    fenceMatchAt (fence3 ++ w ++ ('\n' :: []) ++ body ++ fence3 ++ rest) =
      some (fence3 ++ w ++ ('\n' :: []) ++ body ++ fence3, lowerStr w, body, rest) := by
  have hlen : w.length = L.length := ciEqStr_length hw
  have hshape : fence3 ++ w ++ ('\n' :: []) ++ body ++ fence3 ++ rest =
      fence3 ++ (w ++ '\n' :: (body ++ (fence3 ++ rest))) := by simp
  have hdrop3 : (fence3 ++ (w ++ '\n' :: (body ++ (fence3 ++ rest)))).drop 3 =
      w ++ '\n' :: (body ++ (fence3 ++ rest)) := List.drop_left fence3 _
  have hlangs : tryLangsCi fenceLangs (w ++ '\n' :: (body ++ (fence3 ++ rest))) =
      some (L, L.length + 1) :=
    tryLangsCi_hit fenceLangs hmem hw fenceLang_noNl (fenceLang_uniq L hmem) _
  have hsh2 : w ++ '\n' :: (body ++ (fence3 ++ rest)) =
      (w ++ ('\n' :: [])) ++ (body ++ (fence3 ++ rest)) := by simp
  have hlenk : L.length + 1 = (w ++ ('\n' :: [])).length := by simp [hlen]
  have hdropk : (w ++ '\n' :: (body ++ (fence3 ++ rest))).drop (L.length + 1) =
      body ++ (fence3 ++ rest) := by
    rw [hsh2, hlenk, List.drop_left]
  have htakek : (w ++ '\n' :: (body ++ (fence3 ++ rest))).take (L.length + 1) =
      w ++ ('\n' :: []) := by
    rw [hsh2, hlenk, List.take_left]
  have htakeL : (w ++ '\n' :: (body ++ (fence3 ++ rest))).take L.length = w := by
    rw [← hlen, show w ++ '\n' :: (body ++ (fence3 ++ rest)) =
      w ++ ('\n' :: (body ++ (fence3 ++ rest))) from rfl, List.take_left]
  have hocc : findOcc fence3 (body ++ (fence3 ++ rest)) = some body.length := by
    rw [show fence3 = '\x60' :: (("\x60\x60").toList) from rfl]
    exact findOcc_cons_notMem hnb (isPrefixOf_append_self _ _)
  have htakeb : (body ++ (fence3 ++ rest)).take body.length = body := List.take_left body _
  have hdropb : (body ++ (fence3 ++ rest)).drop (body.length + 3) = rest := by
    have h1 : body ++ (fence3 ++ rest) = (body ++ fence3) ++ rest := by simp
    have h2 : body.length + 3 = (body ++ fence3).length := by simp [fence3]
    rw [h1, h2, List.drop_left]
  have htake3 : (fence3 ++ (w ++ '\n' :: (body ++ (fence3 ++ rest)))).take 3 =
      fence3 := List.take_left fence3 _
  rw [hshape, fenceMatchAt, if_pos (isPrefixOf_append_self fence3 _)]
  rw [hdrop3, hlangs]
  simp only [hocc, hdropk, htakek, htakeL, htake3, htakeb, hdropb]
  simp

theorem inlMatchAt_at {wt e body rest : List Char}
    (hwt : ciEqStr wt inlTag = true) (hene : e ≠ []) (hew : ∀ c ∈ e, isWordChar c = true)
    (hnb : closeBr ∉ body) :
    inlMatchAt (wt ++ e ++ ('\n' :: []) ++ body ++ (closeBr :: closeBr :: []) ++ rest) =
      some (wt ++ e ++ ('\n' :: []) ++ body ++ (closeBr :: closeBr :: []),
        lowerStr e, body, rest) := by
  have hlen10 : wt.length = 10 := by
    have := ciEqStr_length hwt
    simpa using this
  have hshape : wt ++ e ++ ('\n' :: []) ++ body ++ (closeBr :: closeBr :: []) ++ rest =
      wt ++ (e ++ '\n' :: (body ++ closeBr :: closeBr :: rest)) := by simp
  have hpre : ciStartsWith inlTag
      (wt ++ (e ++ '\n' :: (body ++ closeBr :: closeBr :: rest))) = true :=
    ciStartsWith_of_ciEq hwt _
  have hdrop10 : (wt ++ (e ++ '\n' :: (body ++ closeBr :: closeBr :: rest))).drop 10 =
      e ++ '\n' :: (body ++ closeBr :: closeBr :: rest) := by
    rw [← hlen10, List.drop_left]
  have htake10 : (wt ++ (e ++ '\n' :: (body ++ closeBr :: closeBr :: rest))).take 10 = wt := by
    rw [← hlen10, List.take_left]
  have hnlw : isWordChar '\n' = false := by decide
  have htwe : (e ++ '\n' :: (body ++ closeBr :: closeBr :: rest)).takeWhile isWordChar = e :=
    takeWhile_append_stop hew hnlw
  have hdwe : (e ++ '\n' :: (body ++ closeBr :: closeBr :: rest)).dropWhile isWordChar =
      '\n' :: (body ++ closeBr :: closeBr :: rest) :=
    dropWhile_append_stop hew hnlw
  have hocc : findOcc (closeBr :: closeBr :: []) (body ++ closeBr :: closeBr :: rest) =
      some body.length := by
    have : body ++ closeBr :: closeBr :: rest =
        body ++ ((closeBr :: closeBr :: []) ++ rest) := by simp
    rw [this]
    exact findOcc_cons_notMem hnb (isPrefixOf_append_self _ _)
  have htakeb : (body ++ closeBr :: closeBr :: rest).take body.length = body :=
    List.take_left body _
  have hdropb : (body ++ closeBr :: closeBr :: rest).drop (body.length + 2) = rest := by
    have h1 : body ++ closeBr :: closeBr :: rest =
        (body ++ (closeBr :: closeBr :: [])) ++ rest := by simp
    have h2 : body.length + 2 = (body ++ (closeBr :: closeBr :: [])).length := by simp
    rw [h1, h2, List.drop_left]
  rw [hshape, inlMatchAt, if_pos hpre]
  rw [hdrop10]
  simp only [htwe, hdwe, isEmpty_false_of_ne hene, htake10, hocc, htakeb, hdropb]
  simp

/-! ### C8 part 4: texts assembled from well-formed, non-overlapping
directives, and the records their extraction must produce -/

/-- A text made of an initial gap followed by `\x7b\x7bIMAGE: ...\x7d\x7d`
directives, each carrying the gap that follows it. -/
def imgAsm (g0 : List Char) : List (List Char × List Char) → List Char
  | [] => g0
  | (p, g) :: rest => g0 ++ (imgTag ++ p ++ (closeBr :: closeBr :: [])) ++ imgAsm g rest

/-- The image-search records the extraction of such a text must produce. -/
def imgExp (pos : Nat) (g0 : List Char) : List (List Char × List Char) → List ImgPh
  | [] => []
  | (p, g) :: rest =>
    ⟨imgTag ++ p ++ (closeBr :: closeBr :: []), trim p, pos + g0.length⟩ ::
      imgExp (pos + g0.length + (imgTag ++ p ++ (closeBr :: closeBr :: [])).length) g rest

/-- Well-formedness: nonempty payloads free of `\x7d`; gaps free of `\x7b`. -/
@[reducible] def imgOk (g0 : List Char) (ds : List (List Char × List Char)) : Prop :=
  ('\x7b' ∉ g0) ∧ ∀ q ∈ ds, q.1 ≠ [] ∧ closeBr ∉ q.1 ∧ '\x7b' ∉ q.2

/-- One generation directive: a written tag (any capitalization of the
canonical tag), the canonical tag, the payload, and the following gap. -/
structure GenDir where
  written : List Char
  tag : List Char
  payload : List Char
  gap : List Char

def genRawOf (d : GenDir) : List Char :=
  braces2 ++ d.written ++ (':' :: []) ++ d.payload ++ (closeBr :: closeBr :: [])

def genAsm (g0 : List Char) : List GenDir → List Char
  | [] => g0
  | d :: rest => g0 ++ genRawOf d ++ genAsm d.gap rest

def genExp (pos : Nat) (g0 : List Char) : List GenDir → List GenReq
  | [] => []
  | d :: rest =>
    ⟨genRawOf d, upperStr d.written, trim d.payload, pos + g0.length⟩ ::
      genExp (pos + g0.length + (genRawOf d).length) d.gap rest

@[reducible] def genOk (g0 : List Char) (ds : List GenDir) : Prop :=
  ('\x7b' ∉ g0) ∧ ∀ d ∈ ds, d.tag ∈ genTagList ∧ ciEqStr d.written d.tag = true ∧
    d.payload ≠ [] ∧ closeBr ∉ d.payload ∧ '\x7b' ∉ d.gap

/-- One diagram directive: either a fenced code block with a written language
tag (any capitalization of a canonical language), or an inline
`\x7b\x7bDIAGRAM:engine` block with a written tag; each carries its
following gap. -/
inductive DiaItem where
  | fenced (w L body gap : List Char)
  | inlD (wt engine body gap : List Char)

def diaGap : DiaItem → List Char
  | DiaItem.fenced _ _ _ g => g
  | DiaItem.inlD _ _ _ g => g

def diaRaw : DiaItem → List Char
  | DiaItem.fenced w _ body _ => fence3 ++ w ++ ('\n' :: []) ++ body ++ fence3
  | DiaItem.inlD wt e body _ => wt ++ e ++ ('\n' :: []) ++ body ++ (closeBr :: closeBr :: [])

def diaAsm (g0 : List Char) : List DiaItem → List Char
  | [] => g0
  | it :: rest => g0 ++ diaRaw it ++ diaAsm (diaGap it) rest

/-- The fenced-pass records such a text must produce. -/
def diaExpF (pos : Nat) (g0 : List Char) : List DiaItem → List DiagBlock
  | [] => []
  | DiaItem.fenced w L body g :: rest =>
    ⟨fence3 ++ w ++ ('\n' :: []) ++ body ++ fence3, lowerStr w, trim body, pos + g0.length⟩ ::
      diaExpF (pos + g0.length + (diaRaw (DiaItem.fenced w L body g)).length) g rest
  | DiaItem.inlD wt e body g :: rest =>
    diaExpF (pos + g0.length + (diaRaw (DiaItem.inlD wt e body g)).length) g rest

/-- The inline-pass records such a text must produce. -/
def diaExpI (pos : Nat) (g0 : List Char) : List DiaItem → List DiagBlock
  | [] => []
  | DiaItem.fenced w L body g :: rest =>
    diaExpI (pos + g0.length + (diaRaw (DiaItem.fenced w L body g)).length) g rest
  | DiaItem.inlD wt e body g :: rest =>
    ⟨wt ++ e ++ ('\n' :: []) ++ body ++ (closeBr :: closeBr :: []), lowerStr e, trim body,
        pos + g0.length⟩ ::
      diaExpI (pos + g0.length + (diaRaw (DiaItem.inlD wt e body g)).length) g rest

@[reducible] def diaOkGap (g : List Char) : Prop := ∀ c ∈ g, c ≠ '\x60' ∧ lowerCh c ≠ '\x7b'

@[reducible] def diaOkItem : DiaItem → Prop
  | DiaItem.fenced w L body _ =>
    L ∈ fenceLangs ∧ ciEqStr w L = true ∧ ('\x60' ∉ body) ∧ ∀ c ∈ body, lowerCh c ≠ '\x7b'
  | DiaItem.inlD wt e body _ =>
    ciEqStr wt inlTag = true ∧ e ≠ [] ∧ (∀ c ∈ e, isWordChar c = true) ∧
      closeBr ∉ body ∧ ('\x60' ∉ body)

@[reducible] def diaOk (g0 : List Char) (its : List DiaItem) : Prop :=
  diaOkGap g0 ∧ ∀ it ∈ its, diaOkItem it ∧ diaOkGap (diaGap it)

instance diaOkItemDec : (it : DiaItem) → Decidable (diaOkItem it)
  | DiaItem.fenced w L body _ =>
    show Decidable (L ∈ fenceLangs ∧ ciEqStr w L = true ∧ ('\x60' ∉ body) ∧
      ∀ c ∈ body, lowerCh c ≠ '\x7b') from inferInstance
  | DiaItem.inlD wt e body _ =>
    show Decidable (ciEqStr wt inlTag = true ∧ e ≠ [] ∧ (∀ c ∈ e, isWordChar c = true) ∧
      closeBr ∉ body ∧ ('\x60' ∉ body)) from inferInstance

/-! Characters of one directive kind never begin a match of the other kind. -/

theorem wordChar_ne_backtick {c : Char} (h : isWordChar c = true) : c ≠ '\x60' := by
  intro hc
  subst hc
  exact absurd h (by decide)

theorem inlRaw_no_backtick {wt e body g : List Char}
    (hwt : ciEqStr wt inlTag = true) (hew : ∀ c ∈ e, isWordChar c = true)
    (hb : '\x60' ∉ body) :
    ∀ c ∈ diaRaw (DiaItem.inlD wt e body g), c ≠ '\x60' := by
  intro c hc
  rw [diaRaw] at hc
  rcases List.mem_append.mp hc with hc | hc
  · rcases List.mem_append.mp hc with hc | hc
    · rcases List.mem_append.mp hc with hc | hc
      · rcases List.mem_append.mp hc with hc | hc
        · intro he
          subst he
          have h1 : lowerCh '\x60' ∈ lowerStr inlTag := mem_lower_of_ciEqStr hwt hc
          exact absurd h1 (by decide)
        · exact wordChar_ne_backtick (hew c hc)
      · rcases List.mem_singleton.mp hc with rfl
        decide
    · exact fun he => hb (he ▸ hc)
  · rcases List.mem_cons.mp hc with rfl | hc
    · decide
    · rcases List.mem_cons.mp hc with rfl | hf
      · decide
      · cases hf

theorem fencedRaw_lower_ne_brace {w L body g : List Char}
    (hmem : L ∈ fenceLangs) (hw : ciEqStr w L = true)
    (hb : ∀ c ∈ body, lowerCh c ≠ '\x7b') :
    ∀ c ∈ diaRaw (DiaItem.fenced w L body g), lowerCh c ≠ '\x7b' := by
  have hLl : '\x7b' ∉ lowerStr L := by
    revert hmem
    rw [fenceLangs]
    intro hmem
    fin_cases hmem <;> decide
  have hf3 : ∀ c ∈ fence3, lowerCh c ≠ '\x7b' := by decide
  intro c hc
  rw [diaRaw] at hc
  rcases List.mem_append.mp hc with hc | hc
  · rcases List.mem_append.mp hc with hc | hc
    · rcases List.mem_append.mp hc with hc | hc
      · rcases List.mem_append.mp hc with hc | hc
        · exact hf3 c hc
        · intro he
          exact hLl (he ▸ mem_lower_of_ciEqStr hw hc)
      · rcases List.mem_singleton.mp hc with rfl
        decide
    · exact hb c hc
  · exact hf3 c hc

/-! ### C8 part 5: scanning an assembled text yields exactly the expected
records -/

theorem imgGo_asm : ∀ (ds : List (List Char × List Char)) (g0 : List Char) (pos : Nat),
    imgOk g0 ds →
    imgGo (imgAsm g0 ds).length pos (imgAsm g0 ds) = imgExp pos g0 ds := by
  intro ds
  induction ds with
  | nil =>
    intro g0 pos h
    have hg : ∀ c ∈ g0, c ≠ '\x7b' := fun c hc he => h.1 (he ▸ hc)
    have := imgGo_gap g0 hg 0 pos []
    rw [imgAsm, imgExp]
    calc imgGo g0.length pos g0
        = imgGo (g0.length + 0) pos (g0 ++ []) := by simp
      _ = imgGo 0 (pos + g0.length) [] := imgGo_gap g0 hg 0 pos []
      _ = [] := imgGo_nil
  | cons q rest ih =>
    obtain ⟨p, g⟩ := q
    intro g0 pos h
    obtain ⟨hg0, hall⟩ := h
    obtain ⟨hne, hnb, hgap⟩ := hall (p, g) (List.mem_cons_self _ _)
    have hrest : imgOk g rest := ⟨hgap, fun q hq => hall q (List.mem_cons_of_mem _ hq)⟩
    have hg : ∀ c ∈ g0, c ≠ '\x7b' := fun c hc he => hg0 (he ▸ hc)
    have hshape : imgAsm g0 ((p, g) :: rest) =
        g0 ++ ((imgTag ++ p ++ (closeBr :: closeBr :: [])) ++ imgAsm g rest) := by
      rw [imgAsm]
      simp
    set raw := imgTag ++ p ++ (closeBr :: closeBr :: []) with hraw
    set A := imgAsm g rest with hA
    have hrawpos : 0 < raw.length := by rw [hraw]; simp [imgTag]
    obtain ⟨K, hK⟩ : ∃ K, raw.length + A.length = K + 1 :=
      ⟨raw.length + A.length - 1, by omega⟩
    have hKA : A.length ≤ K := by omega
    rw [hshape]
    calc imgGo (g0 ++ (raw ++ A)).length pos (g0 ++ (raw ++ A))
        = imgGo (g0.length + (raw.length + A.length)) pos (g0 ++ (raw ++ A)) := by simp
      _ = imgGo (raw.length + A.length) (pos + g0.length) (raw ++ A) := imgGo_gap g0 hg _ pos _
      _ = imgGo (K + 1) (pos + g0.length) (raw ++ A) := by rw [hK]
      _ = ⟨raw, trim p, pos + g0.length⟩ :: imgGo K (pos + g0.length + raw.length) A := by
          rw [imgGo_step_some (imgMatchAt_at hne hnb)]
      _ = ⟨raw, trim p, pos + g0.length⟩ :: imgGo A.length (pos + g0.length + raw.length) A := by
          rw [imgGo_fuel_irrel K _ A A.length hKA le_rfl]
      _ = ⟨raw, trim p, pos + g0.length⟩ :: imgExp (pos + g0.length + raw.length) g rest := by
          rw [ih g (pos + g0.length + raw.length) hrest]
      _ = imgExp pos g0 ((p, g) :: rest) := by rw [imgExp]

theorem genGo_asm : ∀ (ds : List GenDir) (g0 : List Char) (pos : Nat),
    genOk g0 ds →
    genGo (genAsm g0 ds).length pos (genAsm g0 ds) = genExp pos g0 ds := by
  intro ds
  induction ds with
  | nil =>
    intro g0 pos h
    have hg : ∀ c ∈ g0, c ≠ '\x7b' := fun c hc he => h.1 (he ▸ hc)
    rw [genAsm, genExp]
    calc genGo g0.length pos g0
        = genGo (g0.length + 0) pos (g0 ++ []) := by simp
      _ = genGo 0 (pos + g0.length) [] := genGo_gap g0 hg 0 pos []
      _ = [] := genGo_nil
  | cons d rest ih =>
    intro g0 pos h
    obtain ⟨hg0, hall⟩ := h
    obtain ⟨hmem, hci, hne, hnb, hgap⟩ := hall d (List.mem_cons_self _ _)
    have hrest : genOk d.gap rest := ⟨hgap, fun q hq => hall q (List.mem_cons_of_mem _ hq)⟩
    have hg : ∀ c ∈ g0, c ≠ '\x7b' := fun c hc he => hg0 (he ▸ hc)
    have hshape : genAsm g0 (d :: rest) = g0 ++ (genRawOf d ++ genAsm d.gap rest) := by
      rw [genAsm]
      simp
    set raw := genRawOf d with hraw
    set A := genAsm d.gap rest with hA
    have hrawpos : 0 < raw.length := by rw [hraw, genRawOf]; simp [braces2]
    obtain ⟨K, hK⟩ : ∃ K, raw.length + A.length = K + 1 :=
      ⟨raw.length + A.length - 1, by omega⟩
    have hKA : A.length ≤ K := by omega
    have hmatch : genMatchAt (raw ++ A) = some (raw, upperStr d.written, d.payload, A) := by
      rw [hraw, genRawOf]
      exact genMatchAt_at hmem hci hne hnb
    rw [hshape]
    calc genGo (g0 ++ (raw ++ A)).length pos (g0 ++ (raw ++ A))
        = genGo (g0.length + (raw.length + A.length)) pos (g0 ++ (raw ++ A)) := by simp
      _ = genGo (raw.length + A.length) (pos + g0.length) (raw ++ A) := genGo_gap g0 hg _ pos _
      _ = genGo (K + 1) (pos + g0.length) (raw ++ A) := by rw [hK]
      _ = ⟨raw, upperStr d.written, trim d.payload, pos + g0.length⟩ ::
            genGo K (pos + g0.length + raw.length) A := by
          rw [genGo_step_some hmatch]
      _ = ⟨raw, upperStr d.written, trim d.payload, pos + g0.length⟩ ::
            genGo A.length (pos + g0.length + raw.length) A := by
          rw [genGo_fuel_irrel K _ A A.length hKA le_rfl]
      _ = ⟨raw, upperStr d.written, trim d.payload, pos + g0.length⟩ ::
            genExp (pos + g0.length + raw.length) d.gap rest := by
          rw [ih d.gap (pos + g0.length + raw.length) hrest]
      _ = genExp pos g0 (d :: rest) := by rw [genExp]

theorem fenceGo_asm : ∀ (its : List DiaItem) (g0 : List Char) (pos : Nat),
    diaOk g0 its →
    fenceGo (diaAsm g0 its).length pos (diaAsm g0 its) = diaExpF pos g0 its := by
  intro its
  induction its with
  | nil =>
    intro g0 pos h
    have hg : ∀ c ∈ g0, c ≠ '\x60' := fun c hc => (h.1 c hc).1
    rw [diaAsm, diaExpF]
    calc fenceGo g0.length pos g0
        = fenceGo (g0.length + 0) pos (g0 ++ []) := by simp
      _ = fenceGo 0 (pos + g0.length) [] := fenceGo_gap g0 hg 0 pos []
      _ = [] := fenceGo_nil
  | cons it rest ih =>
    intro g0 pos h
    obtain ⟨hg0, hall⟩ := h
    obtain ⟨hit, hgap⟩ := hall it (List.mem_cons_self _ _)
    have hrest : diaOk (diaGap it) rest :=
      ⟨hgap, fun q hq => hall q (List.mem_cons_of_mem _ hq)⟩
    have hg : ∀ c ∈ g0, c ≠ '\x60' := fun c hc => (hg0 c hc).1
    have hshape : diaAsm g0 (it :: rest) = g0 ++ (diaRaw it ++ diaAsm (diaGap it) rest) := by
      rw [diaAsm]
      simp
    set A := diaAsm (diaGap it) rest with hA
    rw [hshape]
    cases it with
    | fenced w L body gap =>
      obtain ⟨hmem, hci, hnb, hlb⟩ := hit
      set raw := diaRaw (DiaItem.fenced w L body gap) with hraw
      have hrawpos : 0 < raw.length := by rw [hraw, diaRaw]; simp [fence3]
      obtain ⟨K, hK⟩ : ∃ K, raw.length + A.length = K + 1 :=
        ⟨raw.length + A.length - 1, by omega⟩
      have hKA : A.length ≤ K := by omega
      have hmatch : fenceMatchAt (raw ++ A) =
          some (fence3 ++ w ++ ('\n' :: []) ++ body ++ fence3, lowerStr w, body, A) := by
        rw [hraw, diaRaw]
        exact fenceMatchAt_at hmem hci hnb
      calc fenceGo (g0 ++ (raw ++ A)).length pos (g0 ++ (raw ++ A))
          = fenceGo (g0.length + (raw.length + A.length)) pos (g0 ++ (raw ++ A)) := by simp
        _ = fenceGo (raw.length + A.length) (pos + g0.length) (raw ++ A) :=
            fenceGo_gap g0 hg _ pos _
        _ = fenceGo (K + 1) (pos + g0.length) (raw ++ A) := by rw [hK]
        _ = ⟨fence3 ++ w ++ ('\n' :: []) ++ body ++ fence3, lowerStr w, trim body,
              pos + g0.length⟩ ::
              fenceGo K (pos + g0.length +
                (fence3 ++ w ++ ('\n' :: []) ++ body ++ fence3).length) A := by
            rw [fenceGo_step_some hmatch]
        _ = ⟨fence3 ++ w ++ ('\n' :: []) ++ body ++ fence3, lowerStr w, trim body,
              pos + g0.length⟩ ::
              fenceGo A.length (pos + g0.length + raw.length) A := by
            rw [fenceGo_fuel_irrel K _ A A.length hKA le_rfl, hraw, diaRaw]
        _ = ⟨fence3 ++ w ++ ('\n' :: []) ++ body ++ fence3, lowerStr w, trim body,
              pos + g0.length⟩ ::
              diaExpF (pos + g0.length + raw.length) gap rest := by
            exact congrArg (List.cons _) (ih gap (pos + g0.length + raw.length) hrest)
        _ = diaExpF pos g0 (DiaItem.fenced w L body gap :: rest) := by rw [diaExpF]
    | inlD wt e body gap =>
      obtain ⟨hwt, hene, hew, hnb, hbt⟩ := hit
      set raw := diaRaw (DiaItem.inlD wt e body gap) with hraw
      have hrawbt : ∀ c ∈ raw, c ≠ '\x60' := inlRaw_no_backtick hwt hew hbt
      calc fenceGo (g0 ++ (raw ++ A)).length pos (g0 ++ (raw ++ A))
          = fenceGo (g0.length + (raw.length + A.length)) pos (g0 ++ (raw ++ A)) := by simp
        _ = fenceGo (raw.length + A.length) (pos + g0.length) (raw ++ A) :=
            fenceGo_gap g0 hg _ pos _
        _ = fenceGo A.length (pos + g0.length + raw.length) A := fenceGo_gap raw hrawbt _ _ _
        _ = diaExpF (pos + g0.length + raw.length) gap rest :=
            ih gap (pos + g0.length + raw.length) hrest
        _ = diaExpF pos g0 (DiaItem.inlD wt e body gap :: rest) := by rw [diaExpF]

theorem inlGo_asm : ∀ (its : List DiaItem) (g0 : List Char) (pos : Nat),
    diaOk g0 its →
    inlGo (diaAsm g0 its).length pos (diaAsm g0 its) = diaExpI pos g0 its := by
  intro its
  induction its with
  | nil =>
    intro g0 pos h
    have hg : ∀ c ∈ g0, lowerCh c ≠ '\x7b' := fun c hc => (h.1 c hc).2
    rw [diaAsm, diaExpI]
    calc inlGo g0.length pos g0
        = inlGo (g0.length + 0) pos (g0 ++ []) := by simp
      _ = inlGo 0 (pos + g0.length) [] := inlGo_gap g0 hg 0 pos []
      _ = [] := inlGo_nil
  | cons it rest ih =>
    intro g0 pos h
    obtain ⟨hg0, hall⟩ := h
    obtain ⟨hit, hgap⟩ := hall it (List.mem_cons_self _ _)
    have hrest : diaOk (diaGap it) rest :=
      ⟨hgap, fun q hq => hall q (List.mem_cons_of_mem _ hq)⟩
    have hg : ∀ c ∈ g0, lowerCh c ≠ '\x7b' := fun c hc => (hg0 c hc).2
    have hshape : diaAsm g0 (it :: rest) = g0 ++ (diaRaw it ++ diaAsm (diaGap it) rest) := by
      rw [diaAsm]
      simp
    set A := diaAsm (diaGap it) rest with hA
    rw [hshape]
    cases it with
    | fenced w L body gap =>
      obtain ⟨hmem, hci, hnb, hlb⟩ := hit
      set raw := diaRaw (DiaItem.fenced w L body gap) with hraw
      have hrawlb : ∀ c ∈ raw, lowerCh c ≠ '\x7b' := fencedRaw_lower_ne_brace hmem hci hlb
      calc inlGo (g0 ++ (raw ++ A)).length pos (g0 ++ (raw ++ A))
          = inlGo (g0.length + (raw.length + A.length)) pos (g0 ++ (raw ++ A)) := by simp
        _ = inlGo (raw.length + A.length) (pos + g0.length) (raw ++ A) :=
            inlGo_gap g0 hg _ pos _
        _ = inlGo A.length (pos + g0.length + raw.length) A := inlGo_gap raw hrawlb _ _ _
        _ = diaExpI (pos + g0.length + raw.length) gap rest :=
            ih gap (pos + g0.length + raw.length) hrest
        _ = diaExpI pos g0 (DiaItem.fenced w L body gap :: rest) := by rw [diaExpI]
    | inlD wt e body gap =>
      obtain ⟨hwt, hene, hew, hnb, hbt⟩ := hit
      set raw := diaRaw (DiaItem.inlD wt e body gap) with hraw
      have hrawpos : 0 < raw.length := by
        rw [hraw, diaRaw]
        simp
      obtain ⟨K, hK⟩ : ∃ K, raw.length + A.length = K + 1 :=
        ⟨raw.length + A.length - 1, by omega⟩
      have hKA : A.length ≤ K := by omega
      have hmatch : inlMatchAt (raw ++ A) =
          some (wt ++ e ++ ('\n' :: []) ++ body ++ (closeBr :: closeBr :: []),
            lowerStr e, body, A) := by
        rw [hraw, diaRaw]
        exact inlMatchAt_at hwt hene hew hnb
      calc inlGo (g0 ++ (raw ++ A)).length pos (g0 ++ (raw ++ A))
          = inlGo (g0.length + (raw.length + A.length)) pos (g0 ++ (raw ++ A)) := by simp
        _ = inlGo (raw.length + A.length) (pos + g0.length) (raw ++ A) :=
            inlGo_gap g0 hg _ pos _
        _ = inlGo (K + 1) (pos + g0.length) (raw ++ A) := by rw [hK]
        _ = ⟨wt ++ e ++ ('\n' :: []) ++ body ++ (closeBr :: closeBr :: []), lowerStr e,
              trim body, pos + g0.length⟩ ::
              inlGo K (pos + g0.length +
                (wt ++ e ++ ('\n' :: []) ++ body ++ (closeBr :: closeBr :: [])).length) A := by
            rw [inlGo_step_some hmatch]
        _ = ⟨wt ++ e ++ ('\n' :: []) ++ body ++ (closeBr :: closeBr :: []), lowerStr e,
              trim body, pos + g0.length⟩ ::
              inlGo A.length (pos + g0.length + raw.length) A := by
            rw [inlGo_fuel_irrel K _ A A.length hKA le_rfl, hraw, diaRaw]
        _ = ⟨wt ++ e ++ ('\n' :: []) ++ body ++ (closeBr :: closeBr :: []), lowerStr e,
              trim body, pos + g0.length⟩ ::
              diaExpI (pos + g0.length + raw.length) gap rest := by
            exact congrArg (List.cons _) (ih gap (pos + g0.length + raw.length) hrest)
        _ = diaExpI pos g0 (DiaItem.inlD wt e body gap :: rest) := by rw [diaExpI]

theorem imgExp_length : ∀ (ds : List (List Char × List Char)) (pos : Nat) (g0 : List Char),
    (imgExp pos g0 ds).length = ds.length := by
  intro ds
  induction ds with
  | nil => intro pos g0; rfl
  | cons q rest ih =>
    obtain ⟨p, g⟩ := q
    intro pos g0
    rw [imgExp]
    simp [ih]

theorem genExp_length : ∀ (ds : List GenDir) (pos : Nat) (g0 : List Char),
    (genExp pos g0 ds).length = ds.length := by
  intro ds
  induction ds with
  | nil => intro pos g0; rfl
  | cons d rest ih =>
    intro pos g0
    rw [genExp]
    simp [ih]

theorem diaExp_length : ∀ (its : List DiaItem) (pos : Nat) (g0 : List Char),
    (diaExpF pos g0 its).length + (diaExpI pos g0 its).length = its.length := by
  intro its
  induction its with
  | nil => intro pos g0; rfl
  | cons it rest ih =>
    intro pos g0
    cases it with
    | fenced w L body gap =>
      rw [diaExpF, diaExpI]
      simp only [List.length_cons]
      have := ih (pos + g0.length + (diaRaw (DiaItem.fenced w L body gap)).length) gap
      omega
    | inlD wt e body gap =>
      rw [diaExpF, diaExpI]
      simp only [List.length_cons]
      have := ih (pos + g0.length + (diaRaw (DiaItem.inlD wt e body gap)).length) gap
      omega

/-- Claim C8: extraction completeness.  (1) A text assembled from an initial
gap and N well-formed, non-overlapping `\x7b\x7bIMAGE: ...\x7d\x7d`
directives yields exactly the N expected records (exact raw span, trimmed
payload, zero-based offset); likewise (2) for
`\x7b\x7bGENERATE/DIAGRAM/ILLUSTRATION: ...\x7d\x7d` directives written in
arbitrary capitalization, and (3) for diagram texts mixing fenced code blocks
with case-variant language tags and case-variant inline
`\x7b\x7bDIAGRAM:engine` blocks, where the two passes return the fenced
records followed by the inline records and N records in total.  (4) The
`\x7b\x7bIMAGE:` tag is matched case-sensitively: any image match starts with
the exact literal, and (5) a lower-case `image:` spelling extracts nothing.
(6) Extraction never fails: the scan with fuel `length + extra` equals the
scan with fuel `length`, so the fuelled loops model the unbounded JS loops on
every input. -/
theorem c8_extraction_completeness :
    (∀ (g0 : List Char) (ds : List (List Char × List Char)), imgOk g0 ds →
      extractImagePlaceholders (imgAsm g0 ds) = imgExp 0 g0 ds ∧
      (extractImagePlaceholders (imgAsm g0 ds)).length = ds.length) ∧
    (∀ (g0 : List Char) (ds : List GenDir), genOk g0 ds →
      extractGenerationRequests (genAsm g0 ds) = genExp 0 g0 ds ∧
      (extractGenerationRequests (genAsm g0 ds)).length = ds.length) ∧
    (∀ (g0 : List Char) (its : List DiaItem), diaOk g0 its →
      extractDiagramBlocks (diaAsm g0 its) = diaExpF 0 g0 its ++ diaExpI 0 g0 its ∧
      (extractDiagramBlocks (diaAsm g0 its)).length = its.length) ∧
    (∀ (xs fm d rest : List Char), imgMatchAt xs = some (fm, d, rest) →
      imgTag.isPrefixOf xs = true) ∧
    extractImagePlaceholders (("\x7b\x7bimage: cat\x7d\x7d").toList) = [] ∧
    (∀ (content : List Char) (extra : Nat),
      imgGo (content.length + extra) 0 content = extractImagePlaceholders content ∧
      genGo (content.length + extra) 0 content = extractGenerationRequests content ∧
      fenceGo (content.length + extra) 0 content = fenceGo content.length 0 content ∧
      inlGo (content.length + extra) 0 content = inlGo content.length 0 content) := by
  refine ⟨?_, ?_, ?_, ?_, ?_, ?_⟩
  · intro g0 ds h
    have he := imgGo_asm ds g0 0 h
    exact ⟨he, by rw [extractImagePlaceholders, he, imgExp_length]⟩
  · intro g0 ds h
    have he := genGo_asm ds g0 0 h
    exact ⟨he, by rw [extractGenerationRequests, he, genExp_length]⟩
  · intro g0 its h
    have hf := fenceGo_asm its g0 0 h
    have hi := inlGo_asm its g0 0 h
    have he : extractDiagramBlocks (diaAsm g0 its) = diaExpF 0 g0 its ++ diaExpI 0 g0 its := by
      rw [extractDiagramBlocks, hf, hi]
    refine ⟨he, ?_⟩
    rw [he]
    simp only [List.length_append]
    exact diaExp_length its 0 g0
  · intro xs fm d rest h
    rw [imgMatchAt] at h
    split at h
    case isTrue h2 => exact h2
    case isFalse => exact absurd h (by simp)
  · decide
  · intro content extra
    refine ⟨?_, ?_, ?_, ?_⟩
    · exact imgGo_fuel_irrel (content.length + extra) 0 content content.length
        (by omega) le_rfl
    · exact genGo_fuel_irrel (content.length + extra) 0 content content.length
        (by omega) le_rfl
    · exact fenceGo_fuel_irrel (content.length + extra) 0 content content.length
        (by omega) le_rfl
    · exact inlGo_fuel_irrel (content.length + extra) 0 content content.length
        (by omega) le_rfl

theorem c8_extraction_completeness_witness :
    (imgOk (("intro ").toList) [(("cat photo").toList, (" tail").toList)] ∧
      extractImagePlaceholders (imgAsm (("intro ").toList)
        [(("cat photo").toList, (" tail").toList)]) =
        imgExp 0 (("intro ").toList) [(("cat photo").toList, (" tail").toList)]) ∧
    (genOk [] [⟨("generate").toList, ("GENERATE").toList, (" cat").toList, []⟩] ∧
      extractGenerationRequests (genAsm []
        [⟨("generate").toList, ("GENERATE").toList, (" cat").toList, []⟩]) =
        genExp 0 [] [⟨("generate").toList, ("GENERATE").toList, (" cat").toList, []⟩]) ∧
    (diaOk [] [DiaItem.fenced (("MerMaid").toList) (("mermaid").toList)
        (("A-->B").toList) []] ∧
      extractDiagramBlocks (diaAsm [] [DiaItem.fenced (("MerMaid").toList)
        (("mermaid").toList) (("A-->B").toList) []]) =
        diaExpF 0 [] [DiaItem.fenced (("MerMaid").toList) (("mermaid").toList)
          (("A-->B").toList) []] ++
        diaExpI 0 [] [DiaItem.fenced (("MerMaid").toList) (("mermaid").toList)
          (("A-->B").toList) []]) :=
  ⟨⟨by decide, (c8_extraction_completeness.1 _ _ (by decide)).1⟩,
   ⟨by decide, (c8_extraction_completeness.2.1 _ _ (by decide)).1⟩,
   ⟨by decide, (c8_extraction_completeness.2.2.1 _ _ (by decide)).1⟩⟩

end StudySpace
